import Mathlib

/-!
# Chaperone: the response cache, its header parser, the nice client, the throttle and the proxy front end

A shallow embedding of `pkg/proxy/cache.go`, `pkg/proxy/cache_headers.go`,
`pkg/datastructures/kvstore/kvstore_memory.go`, `pkg/proxy/niceclient.go`,
the map and the lookups of `pkg/proxy/throttle.go`,
`CacheOverrideForURL` of `internal/chaperone/config.go` and the first half of
`ServeHTTP` of `internal/chaperone/proxy.go`, followed by the theorems that
settle the properties stated about them.

Conventions of the embedding.

* Go strings are Lean strings; the functions of package `strings` that the
  source calls are written out over the character list of the string.
* `time.Duration` and wall-clock instants are integers counting nanoseconds.
* `int` and `int64` are 64 bits wide.  A sum that involves a number read from
  a header is reduced with `wrapInt64`; sizes of buffers held in memory are
  far below that range and are added as integers.
* A map is an association list with at most one pair per key.
* A response body is a stream: the bytes it delivers, then end of file or a
  read error.
* A throttle entry is the period of its ticker and the count of its wait
  group; what `Wait` does is the list of entries it waits on.  Goroutines and
  the passing of time are outside the embedding.
* `slices.SortFunc`, `net.SplitHostPort` and `URL.String` are parameters.
-/

namespace Chaperone

/-! ## Machine integers -/

/-- The value of a 64-bit two's complement integer after an operation whose
exact result is `x`. -/
def wrapInt64 (x : Int) : Int :=
  (x + 9223372036854775808) % 18446744073709551616 - 9223372036854775808

/-- Membership in the range of `int64`. -/
def inInt64 (x : Int) : Prop :=
  -9223372036854775808 ≤ x ∧ x ≤ 9223372036854775807

instance (x : Int) : Decidable (inInt64 x) := by
  unfold inInt64; infer_instance

/-- The constant `time.Second`. -/
def Second : Int := 1000000000

/-- The constant `time.Hour`. -/
def Hour : Int := 3600 * Second

/-! ## Package `strings` and `strconv` -/

/-- The function `strings.Split(s, sep)` for a separator of one character, on
character lists.  The result always has at least one element. -/
def splitChars (sep : Char) : List Char → List (List Char)
  | [] => [[]]
  | c :: cs =>
    if c = sep then [] :: splitChars sep cs
    else
      match splitChars sep cs with
      | [] => [[c]]
      | p :: ps => (c :: p) :: ps

/-- The function `strings.Split(s, sep)` for a separator of one character. -/
def stringsSplit (s : String) (sep : Char) : List String :=
  (splitChars sep s.data).map String.mk

/-- The function `strings.SplitN(s, sep, 2)` for a separator of one character,
on character lists: cut at the first separator, if there is one. -/
def splitFirstChars (sep : Char) : List Char → List (List Char)
  | [] => [[]]
  | c :: cs =>
    if c = sep then [[], cs]
    else
      match splitFirstChars sep cs with
      | [] => [[c]]
      | p :: ps => (c :: p) :: ps

/-- The function `strings.SplitN(s, sep, 2)` for a separator of one
character. -/
def stringsSplitN2 (s : String) (sep : Char) : List String :=
  (splitFirstChars sep s.data).map String.mk

/-- The function `strings.Join(elems, sep)`. -/
def stringsJoin : List String → String → String
  | [], _ => ""
  | [a], _ => a
  | a :: b :: rest, sep => a ++ sep ++ stringsJoin (b :: rest) sep

/-- Whether the character list `pat` occurs in a character list as a run of
consecutive characters. -/
def containsChars (pat : List Char) : List Char → Bool
  | [] => pat.isEmpty
  | c :: cs => pat.isPrefixOf (c :: cs) || containsChars pat cs

/-- The function `strings.Contains(s, substr)`. -/
def stringsContains (s substr : String) : Bool :=
  containsChars substr.data s.data

/-- Drop the leading characters that satisfy `p`. -/
def trimLeftChars (p : Char → Bool) : List Char → List Char
  | [] => []
  | c :: cs => if p c then trimLeftChars p cs else c :: cs

/-- Drop the leading and the trailing characters that satisfy `p`. -/
def trimChars (p : Char → Bool) (cs : List Char) : List Char :=
  (trimLeftChars p (trimLeftChars p cs).reverse).reverse

/-- The function `strings.Trim(s, " ")`. -/
def stringsTrimBlank (s : String) : String :=
  String.mk (trimChars (fun c => c == ' ') s.data)

/-- The predicate `unicode.IsSpace`. -/
def isSpace (c : Char) : Bool :=
  let n := c.toNat
  (9 ≤ n && n ≤ 13) || n == 32 || n == 133 || n == 160 || n == 5760 ||
  (8192 ≤ n && n ≤ 8202) || n == 8232 || n == 8233 || n == 8239 ||
  n == 8287 || n == 12288

/-- The function `strings.TrimSpace`. -/
def stringsTrimSpace (s : String) : String :=
  String.mk (trimChars isSpace s.data)

/-- The function `strings.ToLower`, on the letters `A` to `Z`. -/
def stringsToLower (s : String) : String :=
  String.mk (s.data.map Char.toLower)

/-- The value of a list of decimal digits, most significant first; `none` if
a character is not a digit. -/
def digitsValue : List Char → Nat → Option Nat
  | [], acc => some acc
  | c :: cs, acc =>
    if c.isDigit then digitsValue cs (acc * 10 + (c.toNat - 48)) else none

/-- The function `strconv.ParseInt(s, 10, 64)`: an optional sign, then at
least one decimal digit, and a value in the range of `int64`; `none` stands
for the error. -/
def parseInt64 (s : String) : Option Int :=
  let signed : Bool × List Char :=
    match s.data with
    | '-' :: ds => (true, ds)
    | '+' :: ds => (false, ds)
    | ds => (false, ds)
  match signed.2 with
  | [] => none
  | ds =>
    match digitsValue ds 0 with
    | none => none
    | some n =>
      let v : Int := if signed.1 then -(n : Int) else (n : Int)
      if -9223372036854775808 ≤ v ∧ v ≤ 9223372036854775807 then some v else none

/-- The function `strconv.Atoi`, on a platform whose `int` has 64 bits. -/
def strconvAtoi (s : String) : Option Int := parseInt64 s

/-! ## HTTP headers, requests, responses -/

/-- Bytes that may occur in a header field name (the token characters). -/
def validHeaderFieldChar (c : Char) : Bool :=
  c.isAlphanum ||
  [33, 35, 36, 37, 38, 39, 42, 43, 45, 46, 94, 95, 96, 124, 126].contains c.toNat

/-- Upper-case the first letter and every letter after a hyphen, lower-case
the others. -/
def canonicalChars : Bool → List Char → List Char
  | _, [] => []
  | upper, c :: cs =>
    (if upper then c.toUpper else c.toLower) :: canonicalChars (c == '-') cs

/-- The function `textproto.CanonicalMIMEHeaderKey`: a name with a character
that is not allowed in a field name is returned unchanged. -/
def canonicalMIMEHeaderKey (s : String) : String :=
  if s.data.all validHeaderFieldChar then String.mk (canonicalChars true s.data)
  else s

/-- The type `http.Header`: a map from canonical names to lists of values. -/
abbrev Header := List (String × List String)

/-- The value stored under `key` in a map held as an association list. -/
def mapGet {V : Type} (m : List (String × V)) (key : String) : Option V :=
  match m with
  | [] => none
  | (k, v) :: rest => if k = key then some v else mapGet rest key

/-- The assignment `m[key] = value`. -/
def mapSet {V : Type} (m : List (String × V)) (key : String) (value : V) :
    List (String × V) :=
  (key, value) :: m.filter (fun p => p.1 ≠ key)

/-- The statement `delete(m, key)`. -/
def mapDelete {V : Type} (m : List (String × V)) (key : String) :
    List (String × V) :=
  m.filter (fun p => p.1 ≠ key)

/-- The method `http.Header.Get`: the first value under the canonical form of
`key`, or the empty string. -/
def Header.Get (h : Header) (key : String) : String :=
  match mapGet h (canonicalMIMEHeaderKey key) with
  | some (v :: _) => v
  | _ => ""

/-- The fields of `http.Request` that the cache reads; `URL` holds
`req.URL.String()`. -/
structure Request where
  Method : String
  URL : String
  Header : Header
  deriving DecidableEq

/-- A byte. -/
abbrev Byte := UInt8

/-- A readable body: the bytes it delivers and then either end of file
(`err = none`) or a read error, reported by a read that delivers no byte. -/
structure Body where
  data : List Byte
  err : Option String
  deriving DecidableEq

/-- The fields of `http.Response` that the cache reads.  `Request` is a
pointer in the source and may be nil. -/
structure Response where
  StatusCode : Int
  Header : Header
  Body : Body
  Request : Option Request
  deriving DecidableEq

/-- The clock and the timestamp parser of package `time`: `now` is
`time.Now()`, and `parseRFC1123 s` is `time.Parse(time.RFC1123, s)` with
`none` for the error. -/
structure Clock where
  now : Int
  parseRFC1123 : String → Option Int

/-- The function `time.Until(t)`: the difference to now, saturated to the
range of `time.Duration`. -/
def timeUntil (clk : Clock) (t : Int) : Int :=
  let d := t - clk.now
  if d < -9223372036854775808 then -9223372036854775808
  else if d > 9223372036854775807 then 9223372036854775807
  else d

/-! ## cache_headers.go -/

/-- The set `UncachableHeaderValues`. -/
def UncachableHeaderValues : List String := ["no-store", "no-cache"]

/-- The loop of `ParseCacheControl` over the directives that remain, with the
value of `ttl` so far. -/
def ParseCacheControl.loop : List String → Int → Int
  | [], ttl => ttl
  | d :: rest, ttl =>
    let parts := stringsSplitN2 (stringsToLower (stringsTrimBlank d)) '='
    let directive := parts.headD ""
    if UncachableHeaderValues.contains directive then 0
    else if directive = "max-age" ∨ directive = "s-max-age" then
      match parts with
      | _ :: value :: _ =>
        match strconvAtoi value with
        | some seconds => ParseCacheControl.loop rest (wrapInt64 (seconds * Second))
        | none => ParseCacheControl.loop rest ttl
      | _ => ParseCacheControl.loop rest ttl
    else ParseCacheControl.loop rest ttl

/-- The function `ParseCacheControl`. -/
def ParseCacheControl (header : String) (defaultDuration : Int) : Int :=
  ParseCacheControl.loop (stringsSplit header ',') defaultDuration

/-- The function `ParseExpiresHeader`. -/
def ParseExpiresHeader (clk : Clock) (header : String) (defaultDuration : Int) :
    Int :=
  match clk.parseRFC1123 header with
  | some date => timeUntil clk date
  | none => defaultDuration

/-- The function `GetResponseCacheDuration`; the second component is the
error result, `none` for nil. -/
def GetResponseCacheDuration (clk : Clock) (res : Response) (defaultDuration : Int) :
    Int × Option String :=
  let cacheControl := res.Header.Get "Cache-Control"
  if cacheControl ≠ "" then (ParseCacheControl cacheControl defaultDuration, none)
  else
    let expires := res.Header.Get "Expires"
    if expires ≠ "" then (ParseExpiresHeader clk expires defaultDuration, none)
    else if res.StatusCode = 301 then (365 * 24 * Hour, none)
    else (defaultDuration, none)

/-- The function `GetVaryHeaderNames`. -/
def GetVaryHeaderNames (res : Response) : List String :=
  (stringsSplit (res.Header.Get "Vary") ',').map stringsTrimSpace

/-- The function `datastructures.MapCopy`. -/
def MapCopy {T : Type} (l : List T) (f : T → T) : List T := l.map f

/-- The function `GetCacheKey`. -/
def GetCacheKey (varyHeaders : List String) (req : Request) : String :=
  let requestVaryHeaderValues :=
    MapCopy varyHeaders (fun el => el ++ "=" ++ req.Header.Get el)
  req.URL ++ ":" ++ stringsJoin requestVaryHeaderValues ","

/-! ## kvstore_memory.go -/

/-- The type `MemoryKVStore` with string keys.  `values` is the map of the
source; `janitors` maps a key to the deadline of the janitor that is still
waiting for it (a cancelled or finished janitor is not listed). -/
structure MemoryKVStore (V : Type) where
  values : List (String × V)
  janitors : List (String × Int)
  deriving DecidableEq

/-- The function `NewMemoryKVStore`. -/
def NewMemoryKVStore {V : Type} : MemoryKVStore V := ⟨[], []⟩

/-- The method `MemoryKVStore.Store`, called at the instant `now`. -/
def MemoryKVStore.Store {V : Type} (s : MemoryKVStore V) (now : Int) (key : String)
    (value : V) (ttl : Int) : MemoryKVStore V :=
  { values := mapSet s.values key value
    janitors :=
      if ttl > 0 then mapSet s.janitors key (now + ttl) else mapDelete s.janitors key }

/-- The method `MemoryKVStore.Get`; its error result is always nil. -/
def MemoryKVStore.Get {V : Type} (s : MemoryKVStore V) (key : String) : Option V :=
  mapGet s.values key

/-- The janitors whose deadline has passed at the instant `t` run: each one
deletes its key from `values`. -/
def MemoryKVStore.expire {V : Type} (s : MemoryKVStore V) (t : Int) : MemoryKVStore V :=
  { values := s.values.filter (fun p =>
      match mapGet s.janitors p.1 with
      | some deadline => decide (t < deadline)
      | none => true)
    janitors := s.janitors.filter (fun p => decide (t < p.2)) }

/-! ## cache.go -/

/-- The type `CachedResponse`. -/
structure CachedResponse where
  URL : String
  StatusCode : Int
  Body : List Byte
  FreshUntil : Int
  ResponseHeaders : Header
  RequestHeaders : Header
  deriving DecidableEq

/-- The method `CachedResponse.IsValidForRequest`. -/
def CachedResponse.IsValidForRequest (c : CachedResponse) (req : Request) : Bool :=
  let vary := c.ResponseHeaders.Get "Vary"
  if vary ≠ "" then
    (stringsSplit vary ',').all (fun varyHeader =>
      c.RequestHeaders.Get (stringsTrimSpace varyHeader) =
        req.Header.Get (stringsTrimSpace varyHeader))
  else true

/-- The method `CachedResponse.BodyReadCloser`. -/
def CachedResponse.BodyReadCloser (c : CachedResponse) : Chaperone.Body :=
  ⟨c.Body, none⟩

/-- The type `MemoryHTTPCache`. -/
structure MemoryHTTPCache where
  cachedResponses : MemoryKVStore CachedResponse
  urlVaryHeaders : MemoryKVStore (List String)
  currentSize : Int
  maxSize : Int
  IgnoreHeaders : Bool
  deriving DecidableEq

/-- The function `NewMemoryHTTPCache`. -/
def NewMemoryHTTPCache (maxSize : Int) : MemoryHTTPCache :=
  { cachedResponses := NewMemoryKVStore
    urlVaryHeaders := NewMemoryKVStore
    currentSize := 0
    maxSize := maxSize
    IgnoreHeaders := false }

/-- The call `io.ReadAll(io.LimitReader(body, limit))`: the bytes read, or the
read error of the body.  A limit that is not positive reads nothing; a limit
within the delivered bytes stops before the end of the body is reached. -/
def readAllLimited (body : Body) (limit : Int) : Except String (List Byte) :=
  if limit ≤ 0 then .ok []
  else if limit.toNat ≤ body.data.length then .ok (body.data.take limit.toNat)
  else
    match body.err with
    | none => .ok body.data
    | some e => .error e

/-- What `Cache` hands back: a body to read, one of its two errors, or the
nil dereference of `res.Request`. -/
inductive CacheReturn where
  | body (b : Body)
  | ttlError (e : String)
  | parseError (header : String)
  | readError (e : String)
  | nilRequest
  deriving DecidableEq

/-- The result of a call of `Cache`: the cache afterwards, what was returned,
and how many bytes the call took from `res.Body`. -/
structure CacheOutcome where
  cache : MemoryHTTPCache
  ret : CacheReturn
  consumed : Nat
  deriving DecidableEq

/-- Lines 84 to 97 of `Cache`: the duration before clamping, with the error
result of `GetResponseCacheDuration`. -/
def Cache.baseTTL (clk : Clock) (c : MemoryHTTPCache) (res : Response)
    (defaultTTL : Int) : Int × Option String :=
  if !c.IgnoreHeaders then GetResponseCacheDuration clk res defaultTTL
  else (defaultTTL, none)

/-- Lines 101 to 107 of `Cache`: the clamp. -/
def Cache.clamp (ttl minTTL maxTTL : Int) : Int :=
  if ttl < minTTL then minTTL
  else if ttl > maxTTL then maxTTL
  else ttl

/-- Lines 141 to 165 of `Cache`: read at most `contentLength` bytes, and store
them if they fit.  `c` is the cache after the Vary record was written. -/
def Cache.readAndStore (clk : Clock) (c : MemoryHTTPCache) (res : Response)
    (req : Request) (cacheKey : String) (ttl : Int) (contentLength : Int) :
    CacheOutcome :=
  match readAllLimited res.Body contentLength with
  | .error e => ⟨c, .readError e, res.Body.data.length⟩
  | .ok data =>
    if c.currentSize + data.length > c.maxSize then
      ⟨c, .body ⟨data, none⟩, data.length⟩
    else
      ⟨{ c with
          cachedResponses := c.cachedResponses.Store clk.now cacheKey
            { URL := ""
              StatusCode := res.StatusCode
              Body := data
              FreshUntil := 0
              ResponseHeaders := res.Header
              RequestHeaders := req.Header } ttl
          currentSize := c.currentSize + data.length },
        .body ⟨data, none⟩, data.length⟩

/-- The method `MemoryHTTPCache.Cache`, called at the instant `clk.now`. -/
def MemoryHTTPCache.Cache (clk : Clock) (c : MemoryHTTPCache) (url : String)
    (res : Response) (minTTL maxTTL defaultTTL : Int) : CacheOutcome :=
  match (Cache.baseTTL clk c res defaultTTL).2 with
  | some e => ⟨c, .ttlError e, 0⟩
  | none =>
    let ttl := Cache.clamp (Cache.baseTTL clk c res defaultTTL).1 minTTL maxTTL
    if ttl ≤ 0 then ⟨c, .body res.Body, 0⟩
    else
      let varyHeaders := GetVaryHeaderNames res
      let c1 := { c with
        urlVaryHeaders := c.urlVaryHeaders.Store clk.now url varyHeaders ttl }
      match res.Request with
      | none => ⟨c1, .nilRequest, 0⟩
      | some req =>
        let cacheKey := GetCacheKey varyHeaders req
        let contentLengthHeader := res.Header.Get "Content-Length"
        if contentLengthHeader ≠ "" then
          match parseInt64 contentLengthHeader with
          | none => ⟨c1, .parseError contentLengthHeader, 0⟩
          | some contentLength =>
            if wrapInt64 (c1.currentSize + contentLength) > c1.maxSize then
              ⟨c1, .body res.Body, 0⟩
            else Cache.readAndStore clk c1 res req cacheKey ttl contentLength
        else Cache.readAndStore clk c1 res req cacheKey ttl c1.maxSize

/-- The method `MemoryHTTPCache.Get`; its error result is always nil. -/
def MemoryHTTPCache.Get (c : MemoryHTTPCache) (req : Request) : Option CachedResponse :=
  let varyHeaders := (c.urlVaryHeaders.Get req.URL).getD []
  let cacheKey := GetCacheKey varyHeaders req
  c.cachedResponses.Get cacheKey

/-- The janitors of both stores whose deadline has passed at `t` run. -/
def MemoryHTTPCache.expire (c : MemoryHTTPCache) (t : Int) : MemoryHTTPCache :=
  { c with
    cachedResponses := c.cachedResponses.expire t
    urlVaryHeaders := c.urlVaryHeaders.expire t }

/-! ## Runs of the cache -/

/-- The arguments of one call of `Cache`. -/
structure CacheCall where
  clk : Clock
  url : String
  res : Response
  minTTL : Int
  maxTTL : Int
  defaultTTL : Int

/-- What can happen to a cache: a call of `Cache`, or the janitors that are
due at an instant run. -/
inductive CacheEvent where
  | call (a : CacheCall)
  | expire (t : Int)

/-- The cache after one event. -/
def MemoryHTTPCache.step (c : MemoryHTTPCache) : CacheEvent → MemoryHTTPCache
  | .call a => (c.Cache a.clk a.url a.res a.minTTL a.maxTTL a.defaultTTL).cache
  | .expire t => c.expire t

/-- The cache after a sequence of events. -/
def MemoryHTTPCache.run (c : MemoryHTTPCache) (events : List CacheEvent) :
    MemoryHTTPCache :=
  events.foldl MemoryHTTPCache.step c

/-- The cache after a sequence of calls of `Cache`. -/
def MemoryHTTPCache.runCalls (c : MemoryHTTPCache) (calls : List CacheCall) :
    MemoryHTTPCache :=
  calls.foldl (fun c a => (c.Cache a.clk a.url a.res a.minTTL a.maxTTL a.defaultTTL).cache) c

/-- The sum of `len(Body)` over the entries of a map of cached responses. -/
def bodyBytes (m : List (String × CachedResponse)) : Int :=
  (m.map (fun p => (p.2.Body.length : Int))).sum

/-- The sum of `len(Body)` over the responses held in `cachedResponses`. -/
def MemoryHTTPCache.heldBytes (c : MemoryHTTPCache) : Int :=
  bodyBytes c.cachedResponses.values

/-- A clock for the examples: instant zero, and no string is a timestamp. -/
def exampleClock : Clock := ⟨0, fun _ => none⟩


/-! ## Directives of `Cache-Control` -/

/-- The name of a directive as `ParseCacheControl` computes it: the blanks
around the directive cut, the letters lowered, and what stands before the
first `=`. -/
def directiveName (d : String) : String :=
  (stringsSplitN2 (stringsToLower (stringsTrimBlank d)) '=').headD ""

/-! ## Package `time`: `ParseDuration` -/

/-- The constant `time.Millisecond`. -/
def Millisecond : Int := 1000000

/-- The method `Duration.Milliseconds`: the integer quotient by `1e6`,
truncated toward zero. -/
def durationMilliseconds (d : Int) : Int :=
  if 0 ≤ d then d / 1000000 else -((-d) / 1000000)

/-- The table `unitMap` of package `time`; the two spellings of the
microsecond use U+00B5 and U+03BC. -/
def durationUnit (u : String) : Option Nat :=
  if u = "ns" then some 1
  else if u = "us" then some 1000
  else if u = String.mk [Char.ofNat 181, 's'] then some 1000
  else if u = String.mk [Char.ofNat 956, 's'] then some 1000
  else if u = "ms" then some 1000000
  else if u = "s" then some 1000000000
  else if u = "m" then some 60000000000
  else if u = "h" then some 3600000000000
  else none

/-- The function `leadingInt` of package `time`: the value of the leading
digits, in `uint64`, and what follows them; `none` for an overflow. -/
def leadingInt : List Char → Nat → Option (Nat × List Char)
  | [], x => some (x, [])
  | c :: cs, x =>
    if c.isDigit then
      if x > 9223372036854775808 / 10 then none
      else if x * 10 + (c.toNat - 48) > 9223372036854775808 then none
      else leadingInt cs (x * 10 + (c.toNat - 48))
    else some (x, c :: cs)

/-- The function `leadingFraction` of package `time`: the value of the leading
digits as far as they fit, how many of them were counted (the scale is ten to
that power), and what follows the digits. -/
def leadingFraction : List Char → Nat → Nat → Bool → Nat × Nat × List Char
  | [], x, k, _ => (x, k, [])
  | c :: cs, x, k, overflow =>
    if c.isDigit then
      if overflow then leadingFraction cs x k true
      else if x > (9223372036854775808 - 1) / 10 then leadingFraction cs x k true
      else if x * 10 + (c.toNat - 48) > 9223372036854775808 then leadingFraction cs x k true
      else leadingFraction cs (x * 10 + (c.toNat - 48)) (k + 1) false
    else (x, k, c :: cs)

/-- The unit of a term of a duration: the characters up to the next `.` or
digit, and what follows them. -/
def unitSpan : List Char → List Char × List Char
  | [] => ([], [])
  | c :: cs =>
    if c = '.' ∨ c.isDigit = true then ([], c :: cs)
    else ((c :: (unitSpan cs).1), (unitSpan cs).2)

/-- The part `(\.[0-9]*)?` of a term of a duration: the fraction digits, how
many of them were counted, what follows, and whether a digit was taken. -/
def ParseDuration.fraction : List Char → Nat × Nat × List Char × Bool
  | '.' :: r =>
    ((leadingFraction r 0 0 false).1, (leadingFraction r 0 0 false).2.1,
      (leadingFraction r 0 0 false).2.2,
      decide ((leadingFraction r 0 0 false).2.2.length ≠ r.length))
  | s1 => (0, 0, s1, false)

/-- One pass of the loop of `time.ParseDuration`: a term `[0-9]*(\.[0-9]*)?`
with its unit, in nanoseconds as a `uint64`, and what follows it.  The
product of the fraction with the unit is computed in floating point by the
source; it is the parameter `mulFrac f unit k`, for the fraction digits `f`
and the scale ten to the `k`. -/
def ParseDuration.term (mulFrac : Nat → Nat → Nat → Nat) (s : List Char) :
    Option (Nat × List Char) :=
  match s with
  | [] => none
  | c :: _ =>
    if ¬ (c = '.' ∨ c.isDigit = true) then none
    else
      match leadingInt s 0 with
      | none => none
      | some (v, s1) =>
        let pre := decide (s1.length ≠ s.length)
        let frac := ParseDuration.fraction s1
        if !pre && !frac.2.2.2 then none
        else
          let u := (unitSpan frac.2.2.1).1
          if u = [] then none
          else
            match durationUnit (String.mk u) with
            | none => none
            | some unit =>
              if v > 9223372036854775808 / unit then none
              else if frac.1 > 0 then
                if (v * unit + mulFrac frac.1 unit frac.2.1) % 18446744073709551616
                    > 9223372036854775808 then none
                else some ((v * unit + mulFrac frac.1 unit frac.2.1) % 18446744073709551616,
                  (unitSpan frac.2.2.1).2)
              else some (v * unit, (unitSpan frac.2.2.1).2)

/-- The loop of `time.ParseDuration` over what remains of the string, with the
sum `d` so far; every pass takes at least one character, so a fuel of the
length of the string plus one is never used up. -/
def ParseDuration.loop (mulFrac : Nat → Nat → Nat → Nat) :
    Nat → List Char → Nat → Option Nat
  | 0, _, _ => none
  | _ + 1, [], d => some d
  | fuel + 1, c :: cs, d =>
    match ParseDuration.term mulFrac (c :: cs) with
    | none => none
    | some (v, rest) =>
      if (d + v) % 18446744073709551616 > 9223372036854775808 then none
      else ParseDuration.loop mulFrac fuel rest ((d + v) % 18446744073709551616)

/-- The part `[-+]?` of a duration: whether the sign is a minus, and what
follows the sign. -/
def ParseDuration.sign : List Char → Bool × List Char
  | '-' :: r => (true, r)
  | '+' :: r => (false, r)
  | r => (false, r)

/-- The function `time.ParseDuration`; `none` stands for the error. -/
def ParseDuration (mulFrac : Nat → Nat → Nat → Nat) (s : String) : Option Int :=
  let signed := ParseDuration.sign s.data
  if signed.2 = ['0'] then some 0
  else if signed.2 = [] then none
  else
    match ParseDuration.loop mulFrac (signed.2.length + 1) signed.2 0 with
    | none => none
    | some d =>
      if signed.1 then some (-(d : Int))
      else if d > 9223372036854775808 - 1 then none
      else some (d : Int)

/-! ## niceclient.go -/

/-- The constant `MaxWaitTimeMs`. -/
def MaxWaitTimeMs : Int := 120000

/-- The function `ParseRetryAfterHeader`. -/
def ParseRetryAfterHeader (clk : Clock) (mulFrac : Nat → Nat → Nat → Nat) (res : Response)
    (defaultWait : Int) : Int :=
  let retryAfter := res.Header.Get "Retry-After"
  if retryAfter ≠ "" then
    match clk.parseRFC1123 retryAfter with
    | some retryTime => timeUntil clk retryTime
    | none =>
      match ParseDuration mulFrac (retryAfter ++ "s") with
      | some waitTime => waitTime
      | none => defaultWait
  else defaultWait

/-- The type `RequestOptions`. -/
structure RequestOptions where
  UserAgent : String
  MinCacheTTL : Int
  MaxCacheTTL : Int
  DefaultCacheTTL : Int
  deriving DecidableEq

/-- The method `http.Header.Set`. -/
def Header.Set (h : Header) (key value : String) : Header :=
  mapSet h (canonicalMIMEHeaderKey key) [value]

/-- What the nice client does to its collaborators, in order: a call of
`throttle.Wait`, a call of the upstream transport with the request body it is
given, a call of `throttle.Block`. -/
inductive ClientEvent where
  | wait (req : Request)
  | roundTrip (req : Request) (body : Option Body)
  | block (req : Request) (d : Int)
  deriving DecidableEq

/-- The answer of the upstream transport to one call: the response or the
error, and the state in which it leaves the body of the request. -/
structure UpstreamReply where
  res : Except String Response
  rest : Option Body

/-- The surroundings of a call of `RoundTripWithOptions`: the clock, the
floating-point product of `time.ParseDuration`, `url.Parse` followed by
`String` (`none` for the error), the answer of `roundtripper.RoundTrip` to the
call with a given number, the value `rand.Int63n(2000)` drawn after that call,
and whether the context is done when it is checked after that call. -/
structure ClientEnv where
  clk : Clock
  mulFrac : Nat → Nat → Nat → Nat
  parseURL : String → Option String
  transport : Nat → Request → Option Body → UpstreamReply
  jitter : Nat → Int
  ctxDone : Nat → Bool

/-- The state a call of `RoundTripWithOptions` works on: the cache, the number
of upstream calls made so far, and the calls made to the collaborators. -/
structure ClientState where
  cache : MemoryHTTPCache
  calls : Nat
  log : List ClientEvent

/-- What `RoundTripWithOptions` hands back: a response, an error, a nil
dereference, or nothing because the fuel of the model ran out. -/
inductive RoundTripResult where
  | response (res : Response)
  | error (e : String)
  | nilPanic
  | outOfFuel
  deriving DecidableEq

/-- Lines 139 to 146 of `RoundTripWithOptions`: the duration handed to
`throttle.Block` after the upstream call number `n`. -/
def RoundTripWithOptions.backoff (env : ClientEnv) (n : Nat) (res : Response) : Int :=
  let waitTimeMs :=
    durationMilliseconds (ParseRetryAfterHeader env.clk env.mulFrac res (3 * Second))
  let capped := if waitTimeMs > MaxWaitTimeMs then MaxWaitTimeMs else waitTimeMs
  wrapInt64 (wrapInt64 (capped + env.jitter n) * Millisecond)

/-- Lines 170 to 179 of `RoundTripWithOptions`: the default case of the
switch, for the request `req` of this call and the response `res`.  When
`Cache` fails, the source returns the response, now without body, next to the
error; the model keeps the error only. -/
def RoundTripWithOptions.finish (env : ClientEnv) (options : RequestOptions)
    (st : ClientState) (req : Request) (res : Response) : ClientState × RoundTripResult :=
  if req.Method = "GET" then
    match (st.cache.Cache env.clk req.URL res options.MinCacheTTL options.MaxCacheTTL
        options.DefaultCacheTTL).ret with
    | .body b =>
      ({ st with cache := (st.cache.Cache env.clk req.URL res options.MinCacheTTL
          options.MaxCacheTTL options.DefaultCacheTTL).cache },
        .response { res with Body := b })
    | .ttlError e =>
      ({ st with cache := (st.cache.Cache env.clk req.URL res options.MinCacheTTL
          options.MaxCacheTTL options.DefaultCacheTTL).cache }, .error e)
    | .parseError header =>
      ({ st with cache := (st.cache.Cache env.clk req.URL res options.MinCacheTTL
          options.MaxCacheTTL options.DefaultCacheTTL).cache },
        .error ("strconv.ParseInt: parsing " ++ header))
    | .readError e =>
      ({ st with cache := (st.cache.Cache env.clk req.URL res options.MinCacheTTL
          options.MaxCacheTTL options.DefaultCacheTTL).cache }, .error e)
    | .nilRequest =>
      ({ st with cache := (st.cache.Cache env.clk req.URL res options.MinCacheTTL
          options.MaxCacheTTL options.DefaultCacheTTL).cache }, .nilPanic)
  else (st, .response res)

/-- The method `NiceClient.RoundTripWithOptions` for the request `req` with
the body `body`.  With `inLoop = false` the call starts at its first line;
with `inLoop = true` it stands at the head of the retry loop.  Every pass of
the loop and every call takes one unit of fuel. -/
def RoundTripWithOptions (env : ClientEnv) (options : RequestOptions) :
    Nat → Bool → ClientState → Request → Option Body → ClientState × RoundTripResult
  | 0, _, st, _, _ => (st, .outOfFuel)
  | fuel + 1, false, st, req, body =>
    let req1 : Request :=
      if req.Header.Get "User-Agent" = "" then
        { req with Header := req.Header.Set "User-Agent" "ChaperoneBot/0.1" }
      else req
    match (if req1.Method = "GET" then st.cache.Get req1 else none) with
    | some cachedResponse =>
      (st, .response
        { StatusCode := cachedResponse.StatusCode
          Header := []
          Body := cachedResponse.BodyReadCloser
          Request := none })
    | none =>
      match body with
      | none => RoundTripWithOptions env options fuel true st req1 none
      | some b =>
        match b.err with
        | some e => (st, .error e)
        | none => RoundTripWithOptions env options fuel true st req1 (some ⟨b.data, none⟩)
  | fuel + 1, true, st, req, body =>
    let st1 : ClientState :=
      { st with calls := st.calls + 1, log := st.log ++ [.wait req, .roundTrip req body] }
    match (env.transport st.calls req body).res with
    | .error e => (st1, .error e)
    | .ok res =>
      if res.StatusCode = 429 ∨ res.StatusCode = 503 then
        match res.Request with
        | none => (st1, .nilPanic)
        | some blocked =>
          let st2 : ClientState :=
            { st1 with
              log := st1.log ++ [.block blocked (RoundTripWithOptions.backoff env st.calls res)] }
          if env.ctxDone st.calls then (st2, .error "context cancelled request retry loop")
          else RoundTripWithOptions env options fuel true st2 req
            (env.transport st.calls req body).rest
      else if res.StatusCode = 301 ∨ res.StatusCode = 302 ∨ res.StatusCode = 307 ∨
          res.StatusCode = 308 then
        match env.parseURL (res.Header.Get "Location") with
        | none => (st1, .error "parse Location")
        | some location =>
          match RoundTripWithOptions env options fuel false st1
              { Method := req.Method, URL := location, Header := req.Header }
              (env.transport st.calls req body).rest with
          | (st2, .response redirected) =>
            RoundTripWithOptions.finish env options st2 req redirected
          | (st2, other) => (st2, other)
      else RoundTripWithOptions.finish env options st1 req res

/-! ## throttle.go -/

/-- The fields of `http.Request` that the throttle reads: `Method`,
`URL.Scheme`, `URL.Host` and `URL.Path`. -/
structure ThrottledRequest where
  Method : String
  Scheme : String
  Host : String
  Path : String
  deriving DecidableEq

/-- The function `getRequestKey`. -/
def getRequestKey (req : ThrottledRequest) (path : String) : String :=
  req.Method ++ " " ++ req.Scheme ++ "://" ++ req.Host ++ path

/-- The paths that the loop of `MemoryHTTPThrottle.Wait` builds: for every
index `i` of `pathParts`, in order, `strings.Join(pathParts[:i+1], "/")`. -/
def pathPrefixes (pathParts : List String) : List String :=
  (List.range pathParts.length).map (fun i => stringsJoin (pathParts.take (i + 1)) "/")

/-- The keys that `MemoryHTTPThrottle.Wait` loads from `throttles`, in the
order of its loop over `pathParts`. -/
def MemoryHTTPThrottle.waitKeys (req : ThrottledRequest) : List String :=
  (pathPrefixes (stringsSplit req.Path '/')).map (fun path => getRequestKey req path)

/-- The key under which `Block` and `SetThrottle` load or store the entry of a
request. -/
def MemoryHTTPThrottle.entryKey (req : ThrottledRequest) : String :=
  getRequestKey req req.Path

/-- The prefixes of a path that end where the path ends or right before a
`/`, from the shortest to the longest. -/
def slashPrefixes : List Char → List (List Char)
  | [] => [[]]
  | c :: cs =>
    (if c = '/' then [[]] else []) ++ (slashPrefixes cs).map (fun p => c :: p)

/-! ## throttle.go: the entries -/

/-- The type `hostThrottle`: the period of its ticker, and the counter of its
wait group `blockers` (the block windows that are open). -/
structure hostThrottle where
  period : Int
  blockers : Nat
  deriving DecidableEq

/-- The type `MemoryHTTPThrottle`. -/
structure MemoryHTTPThrottle where
  throttles : List (String × hostThrottle)
  defaultDuration : Int
  deriving DecidableEq

/-- The function `NewMemoryHTTPThrottle`. -/
def NewMemoryHTTPThrottle (defaultDuration : Int) : MemoryHTTPThrottle :=
  { throttles := [], defaultDuration := defaultDuration }

/-- The method `MemoryHTTPThrottle.SetThrottle`.  The new ticker is made
before the map is consulted, and `time.NewTicker` panics for a duration that
is not positive: `none` stands for that panic. -/
def MemoryHTTPThrottle.SetThrottle (t : MemoryHTTPThrottle) (req : ThrottledRequest)
    (duration : Int) : Option MemoryHTTPThrottle :=
  if duration ≤ 0 then none
  else
    match mapGet t.throttles (getRequestKey req req.Path) with
    | some throttle =>
      some { t with
        throttles := mapSet t.throttles (getRequestKey req req.Path)
          { throttle with period := duration } }
    | none =>
      some { t with
        throttles := mapSet t.throttles (getRequestKey req req.Path)
          { period := duration, blockers := 0 } }

/-- The method `MemoryHTTPThrottle.Block`, up to the start of its goroutine:
the entry is loaded or stored and its wait group is raised by one.  `none`
stands for the panic of `time.NewTicker`. -/
def MemoryHTTPThrottle.Block (t : MemoryHTTPThrottle) (req : ThrottledRequest) (d : Int) :
    Option MemoryHTTPThrottle :=
  if d ≤ 0 then none
  else
    match mapGet t.throttles (getRequestKey req req.Path) with
    | some throttle =>
      some { t with
        throttles := mapSet t.throttles (getRequestKey req req.Path)
          { throttle with blockers := throttle.blockers + 1 } }
    | none =>
      some { t with
        throttles := mapSet t.throttles (getRequestKey req req.Path)
          { period := d, blockers := 1 } }

/-- What `Wait` waits on, one after the other: the entry found under a key
(its wait group, then one tick of its ticker), or a sleep. -/
inductive WaitStep where
  | entry (key : String) (throttle : hostThrottle)
  | sleep (d : Int)
  deriving DecidableEq

/-- The method `MemoryHTTPThrottle.Wait`: the entries it waits on, in the
order of its loop, or the sleep of the default duration when it found
none. -/
def MemoryHTTPThrottle.Wait (t : MemoryHTTPThrottle) (req : ThrottledRequest) :
    List WaitStep :=
  let found := (MemoryHTTPThrottle.waitKeys req).filterMap
    (fun key => (mapGet t.throttles key).map (fun throttle => WaitStep.entry key throttle))
  if found.isEmpty then [.sleep t.defaultDuration] else found

/-! ## internal/chaperone/config.go -/

/-- The type `RateLimit`. -/
structure RateLimit where
  URL : String
  Method : String
  WaitDuration : Int
  deriving DecidableEq

/-- The type `CacheConfig`. -/
structure CacheConfig where
  URL : String
  MinTTL : Int
  MaxTTL : Int
  DefaultTTL : Int
  deriving DecidableEq

/-- The type `ConfigFile`. -/
structure ConfigFile where
  RateLimits : List RateLimit
  CacheOverrides : List CacheConfig
  deriving DecidableEq

/-- The function `strings.HasPrefix(s, start)`. -/
def stringsHasPrefixOf (s start : String) : Bool :=
  start.data.isPrefixOf s.data

/-- The comparison that `CacheOverrideForURL` hands to `slices.SortFunc`:
`len(b.URL) - len(a.URL)`, with lengths in bytes. -/
def compareURLLength (a b : CacheConfig) : Int :=
  (b.URL.utf8ByteSize : Int) - (a.URL.utf8ByteSize : Int)

/-- The loop of `CacheOverrideForURL` over the sorted copy. -/
def CacheOverrideForURL.scan (url : String) : List CacheConfig → Option CacheConfig
  | [] => none
  | override :: rest =>
    if stringsHasPrefixOf url override.URL then some override
    else CacheOverrideForURL.scan url rest

/-- What a call of `CacheOverrideForURL` leaves: its two results, and the
configuration after the call. -/
structure OverrideLookup where
  override : CacheConfig
  found : Bool
  config : ConfigFile
  deriving DecidableEq

/-- The method `ConfigFile.CacheOverrideForURL`.  `sortFunc` is
`slices.SortFunc`, which gives some ordering of its argument that the
comparison allows; it works on the copy. -/
def ConfigFile.CacheOverrideForURL
    (sortFunc : List CacheConfig → (CacheConfig → CacheConfig → Int) → List CacheConfig)
    (c : ConfigFile) (url : String) : OverrideLookup :=
  match CacheOverrideForURL.scan url (sortFunc c.CacheOverrides compareURLLength) with
  | some override => { override := override, found := true, config := c }
  | none =>
    { override := { URL := "", MinTTL := 0, MaxTTL := 0, DefaultTTL := 0 }
      found := false, config := c }

/-- A sort to run examples with: insertion into the ordered list. -/
def insertionSortFunc (l : List CacheConfig) (cmp : CacheConfig → CacheConfig → Int) :
    List CacheConfig :=
  l.insertionSort (fun a b => cmp a b ≤ 0)

/-- An example configuration: three overrides under `http://a.test/`. -/
def exampleConfig : ConfigFile :=
  { RateLimits := []
    CacheOverrides :=
      [⟨"http://a.test/", 1, 2, 3⟩, ⟨"http://a.test/api/v1", 4, 5, 6⟩,
        ⟨"http://a.test/api", 7, 8, 9⟩] }

/-! ## internal/chaperone/proxy.go -/

/-- The list `hopHeaders`. -/
def hopHeaders : List String :=
  ["Connection", "Keep-Alive", "Proxy-Authenticate", "Proxy-Authorization", "Te",
    "Trailers", "Transfer-Encoding", "Upgrade"]

/-- The method `http.Header.Del`. -/
def Header.Del (h : Header) (key : String) : Header :=
  mapDelete h (canonicalMIMEHeaderKey key)

/-- The function `delHopHeaders`. -/
def delHopHeaders (header : Header) : Header :=
  hopHeaders.foldl (fun h key => h.Del key) header

/-- The function `appendHostToXForwardHeader`. -/
def appendHostToXForwardHeader (header : Header) (host : String) : Header :=
  match mapGet header "X-Forwarded-For" with
  | some prior => header.Set "X-Forwarded-For" (stringsJoin prior ", " ++ ", " ++ host)
  | none => header.Set "X-Forwarded-For" host

/-- The fields of the inbound `http.Request` that `ServeHTTP` reads or
writes: the method, the scheme, host and path of the URL, the headers and the
remote address. -/
structure ProxyRequest where
  Method : String
  Scheme : String
  Host : String
  Path : String
  Header : Header
  RemoteAddr : String
  deriving DecidableEq

/-- The library around `ServeHTTP`: `net.SplitHostPort` (its host result,
`none` for the error), `URL.String` for a scheme, host and path, and
`slices.SortFunc`. -/
structure ProxyEnv where
  splitHostPort : String → Option String
  urlString : String → String → String → String
  sortFunc : List CacheConfig → (CacheConfig → CacheConfig → Int) → List CacheConfig

/-- What `ServeHTTP` does with an inbound request: it answers with an error
status, or it calls `RoundTripWithOptions` with the request as it then is and
with these options. -/
inductive ProxyCall where
  | rejected (status : Int) (message : String)
  | forwarded (req : ProxyRequest) (options : RequestOptions)
  deriving DecidableEq

/-- Lines 95 to 144 of `ChaperoneProxy.ServeHTTP`: from the check of the
scheme to the call of the nice client. -/
def ServeHTTP.prepare (env : ProxyEnv) (config : ConfigFile) (req : ProxyRequest) :
    ProxyCall :=
  if req.Scheme ≠ "http" ∧ req.Scheme ≠ "https" then
    .rejected 400 ("unsupported protocol scheme " ++ req.Scheme)
  else
    let header1 := delHopHeaders req.Header
    let header2 :=
      match env.splitHostPort req.RemoteAddr with
      | some clientIP => appendHostToXForwardHeader header1 clientIP
      | none => header1
    let upgradeConnectionHeader := header2.Get "X-Upgrade-HTTPS"
    let scheme :=
      if stringsToLower upgradeConnectionHeader = "false" ∨ upgradeConnectionHeader = "0"
      then req.Scheme else "https"
    let lookup := config.CacheOverrideForURL env.sortFunc
      (env.urlString scheme req.Host req.Path)
    let options : RequestOptions :=
      if lookup.found then
        { UserAgent := "Chaperone", MinCacheTTL := lookup.override.MinTTL
          MaxCacheTTL := lookup.override.MaxTTL
          DefaultCacheTTL := lookup.override.DefaultTTL }
      else
        { UserAgent := "Chaperone", MinCacheTTL := 0, MaxCacheTTL := 24 * Hour
          DefaultCacheTTL := 0 }
    .forwarded { req with Scheme := scheme, Header := header2 } options

/-! ## Unfolding `Cache` -/

theorem GetResponseCacheDuration_err (clk : Clock) (res : Response) (d : Int) :
    (GetResponseCacheDuration clk res d).2 = none := by
  unfold GetResponseCacheDuration
  simp only []
  split_ifs <;> rfl

theorem baseTTL_err (clk : Clock) (c : MemoryHTTPCache) (res : Response) (d : Int) :
    (Cache.baseTTL clk c res d).2 = none := by
  unfold Cache.baseTTL
  split_ifs
  · exact GetResponseCacheDuration_err clk res d
  · rfl

theorem parseInt64_ne_empty {s : String} {n : Int} (h : parseInt64 s = some n) : s ≠ "" := by
  rintro rfl
  simp [parseInt64] at h

theorem wrapInt64_of_inInt64 {x : Int} (h : inInt64 x) : wrapInt64 x = x := by
  unfold inInt64 at h
  unfold wrapInt64
  omega

/-- Unfolding of `Cache` past the early return, for a response with a
request. -/
theorem Cache_of_pos (clk : Clock) (c : MemoryHTTPCache) (url : String) (res : Response)
    (req : Request) (minTTL maxTTL defaultTTL : Int)
    (hreq : res.Request = some req)
    (hpos : 0 < Cache.clamp (Cache.baseTTL clk c res defaultTTL).1 minTTL maxTTL) :
    c.Cache clk url res minTTL maxTTL defaultTTL =
      (let ttl := Cache.clamp (Cache.baseTTL clk c res defaultTTL).1 minTTL maxTTL
       let varyHeaders := GetVaryHeaderNames res
       let c1 := { c with
         urlVaryHeaders := c.urlVaryHeaders.Store clk.now url varyHeaders ttl }
       let cacheKey := GetCacheKey varyHeaders req
       let contentLengthHeader := res.Header.Get "Content-Length"
       if contentLengthHeader ≠ "" then
         match parseInt64 contentLengthHeader with
         | none => ⟨c1, .parseError contentLengthHeader, 0⟩
         | some contentLength =>
           if wrapInt64 (c1.currentSize + contentLength) > c1.maxSize then
             ⟨c1, .body res.Body, 0⟩
           else Cache.readAndStore clk c1 res req cacheKey ttl contentLength
       else Cache.readAndStore clk c1 res req cacheKey ttl c1.maxSize) := by
  unfold MemoryHTTPCache.Cache
  rw [baseTTL_err]
  simp only [hreq]
  rw [if_neg (not_le.mpr hpos)]



/-- The outcomes of `Cache.readAndStore`: a read error, a buffer that no
longer fits, or a stored entry. -/
theorem readAndStore_cases (P : CacheOutcome → Prop) (clk : Clock) (c : MemoryHTTPCache)
    (res : Response) (req : Request) (key : String) (ttl limit : Int)
    (hErr : ∀ e, readAllLimited res.Body limit = .error e →
      P ⟨c, .readError e, res.Body.data.length⟩)
    (hBig : ∀ data, readAllLimited res.Body limit = .ok data →
      c.currentSize + data.length > c.maxSize → P ⟨c, .body ⟨data, none⟩, data.length⟩)
    (hStore : ∀ data, readAllLimited res.Body limit = .ok data →
      ¬ c.currentSize + data.length > c.maxSize →
      P ⟨{ c with
            cachedResponses := c.cachedResponses.Store clk.now key
              { URL := "", StatusCode := res.StatusCode, Body := data, FreshUntil := 0,
                ResponseHeaders := res.Header, RequestHeaders := req.Header } ttl
            currentSize := c.currentSize + data.length },
          .body ⟨data, none⟩, data.length⟩) :
    P (Cache.readAndStore clk c res req key ttl limit) := by
  unfold Cache.readAndStore
  cases hl : readAllLimited res.Body limit with
  | error e => exact hErr e hl
  | ok data =>
    simp only []
    by_cases hb : c.currentSize + data.length > c.maxSize
    · rw [if_pos hb]; exact hBig data hl hb
    · rw [if_neg hb]; exact hStore data hl hb

/-- The outcomes of `Cache`, path by path.  `ttl` is the clamped duration and
`c1` the cache after the Vary record was written. -/
theorem Cache_cases (P : CacheOutcome → Prop) (clk : Clock) (c : MemoryHTTPCache)
    (url : String) (res : Response) (minTTL maxTTL defaultTTL : Int)
    (ttl : Int) (httl : ttl = Cache.clamp (Cache.baseTTL clk c res defaultTTL).1 minTTL maxTTL)
    (c1 : MemoryHTTPCache)
    (hc1 : c1 = { c with
      urlVaryHeaders := c.urlVaryHeaders.Store clk.now url (GetVaryHeaderNames res) ttl })
    (hEarly : ttl ≤ 0 → P ⟨c, .body res.Body, 0⟩)
    (hNil : 0 < ttl → res.Request = none → P ⟨c1, .nilRequest, 0⟩)
    (hParse : 0 < ttl → res.Header.Get "Content-Length" ≠ "" →
      parseInt64 (res.Header.Get "Content-Length") = none →
      P ⟨c1, .parseError (res.Header.Get "Content-Length"), 0⟩)
    (hOver : ∀ n, 0 < ttl → parseInt64 (res.Header.Get "Content-Length") = some n →
      wrapInt64 (c.currentSize + n) > c.maxSize → P ⟨c1, .body res.Body, 0⟩)
    (hRead : ∀ req limit, 0 < ttl → res.Request = some req →
      ((parseInt64 (res.Header.Get "Content-Length") = some limit ∧
          ¬ wrapInt64 (c.currentSize + limit) > c.maxSize) ∨
        (res.Header.Get "Content-Length" = "" ∧ limit = c.maxSize)) →
      P (Cache.readAndStore clk c1 res req (GetCacheKey (GetVaryHeaderNames res) req)
        ttl limit)) :
    P (c.Cache clk url res minTTL maxTTL defaultTTL) := by
  subst httl
  subst hc1
  unfold MemoryHTTPCache.Cache
  rw [baseTTL_err]
  simp only []
  by_cases hle : Cache.clamp (Cache.baseTTL clk c res defaultTTL).1 minTTL maxTTL ≤ 0
  · rw [if_pos hle]; exact hEarly hle
  · rw [if_neg hle]
    have hpos := not_le.mp hle
    cases hreq : res.Request with
    | none => exact hNil hpos hreq
    | some req =>
      simp only []
      by_cases hcl : res.Header.Get "Content-Length" ≠ ""
      · rw [if_pos hcl]
        cases hp : parseInt64 (res.Header.Get "Content-Length") with
        | none => exact hParse hpos hcl hp
        | some n =>
          simp only []
          by_cases hw : wrapInt64 (c.currentSize + n) > c.maxSize
          · rw [if_pos hw]; exact hOver n hpos hp hw
          · rw [if_neg hw]; exact hRead req n hpos hreq (Or.inl ⟨hp, hw⟩)
      · rw [if_neg hcl]
        exact hRead req c.maxSize hpos hreq (Or.inr ⟨not_not.mp hcl, rfl⟩)

/-- Unfolding of `Cache` up to the read: past the early return, for a response
with a request whose `Content-Length` is absent, or parses and passes the
check against the budget.  `limit` is the bound of the limited reader. -/
theorem Cache_of_read (clk : Clock) (c : MemoryHTTPCache) (url : String) (res : Response)
    (req : Request) (minTTL maxTTL defaultTTL limit : Int)
    (hreq : res.Request = some req)
    (hpos : 0 < Cache.clamp (Cache.baseTTL clk c res defaultTTL).1 minTTL maxTTL)
    (hlimit : (res.Header.Get "Content-Length" = "" ∧ limit = c.maxSize) ∨
      (parseInt64 (res.Header.Get "Content-Length") = some limit ∧
        ¬ wrapInt64 (c.currentSize + limit) > c.maxSize)) :
    c.Cache clk url res minTTL maxTTL defaultTTL =
      Cache.readAndStore clk
        { c with
          urlVaryHeaders := c.urlVaryHeaders.Store clk.now url (GetVaryHeaderNames res)
            (Cache.clamp (Cache.baseTTL clk c res defaultTTL).1 minTTL maxTTL) }
        res req (GetCacheKey (GetVaryHeaderNames res) req)
        (Cache.clamp (Cache.baseTTL clk c res defaultTTL).1 minTTL maxTTL) limit := by
  rw [Cache_of_pos clk c url res req minTTL maxTTL defaultTTL hreq hpos]
  simp only []
  rcases hlimit with ⟨h0, hl⟩ | ⟨hp, hw⟩
  · rw [if_neg (not_not.mpr h0), hl]
  · rw [if_pos (parseInt64_ne_empty hp), hp]
    simp only []
    rw [if_neg hw]

/-! ## Cache keys as character lists -/

theorem append_sep_cancel (c : Char) :
    ∀ (a b x y : List Char), c ∉ a → c ∉ b → a ++ c :: x = b ++ c :: y → a = b ∧ x = y := by
  intro a
  induction a with
  | nil =>
    intro b x y _ hb h
    cases b with
    | nil => simpa using h
    | cons d b' =>
      simp only [List.nil_append, List.cons_append, List.cons.injEq] at h
      exact absurd (by rw [h.1]; exact List.mem_cons_self _ _) hb
  | cons e a' ih =>
    intro b x y ha hb h
    cases b with
    | nil =>
      simp only [List.nil_append, List.cons_append, List.cons.injEq] at h
      exact absurd (by rw [← h.1]; exact List.mem_cons_self _ _) ha
    | cons d b' =>
      simp only [List.cons_append, List.cons.injEq] at h
      have ha' : c ∉ a' := fun hm => ha (List.mem_cons_of_mem _ hm)
      have hb' : c ∉ b' := fun hm => hb (List.mem_cons_of_mem _ hm)
      obtain ⟨h1, h2⟩ := ih b' x y ha' hb' h.2
      exact ⟨by rw [h.1, h1], h2⟩

theorem stringsJoin_cons_cons_data (a b : String) (rest : List String) :
    (stringsJoin (a :: b :: rest) ",").data =
      a.data ++ ',' :: (stringsJoin (b :: rest) ",").data := by
  simp [stringsJoin, String.data_append]

/-- The values of the named headers can be read off the joined list when
none of them holds a comma. -/
theorem stringsJoin_values_inj (v w : String → String) :
    ∀ names : List String,
      (∀ n ∈ names, ',' ∉ (v n).data) → (∀ n ∈ names, ',' ∉ (w n).data) →
      stringsJoin (names.map (fun n => n ++ "=" ++ v n)) "," =
        stringsJoin (names.map (fun n => n ++ "=" ++ w n)) "," →
      ∀ n ∈ names, v n = w n := by
  intro names
  induction names with
  | nil => intro _ _ _ n hn; cases hn
  | cons n rest ih =>
    intro hv hw h
    cases rest with
    | nil =>
      intro m hm
      simp only [List.mem_singleton] at hm
      subst hm
      have hd := congrArg String.data h
      simp only [List.map, stringsJoin, String.data_append, List.append_assoc] at hd
      have hd2 := List.append_cancel_left (List.append_cancel_left hd)
      exact String.ext hd2
    | cons m rest' =>
      have hd := congrArg String.data h
      simp only [List.map, stringsJoin_cons_cons_data, String.data_append,
        List.append_assoc] at hd
      have hd2 := List.append_cancel_left hd
      have hd3 := List.append_cancel_left hd2
      obtain ⟨h1, h2⟩ := append_sep_cancel ',' _ _ _ _
        (hv n (List.mem_cons_self _ _)) (hw n (List.mem_cons_self _ _)) hd3
      have hrest := ih (fun k hk => hv k (List.mem_cons_of_mem _ hk))
        (fun k hk => hw k (List.mem_cons_of_mem _ hk)) (String.ext h2)
      intro k hk
      rcases List.mem_cons.mp hk with rfl | hk'
      · exact String.ext h1
      · exact hrest k hk'

theorem stringsJoin_values_congr (v w : String → String) (names : List String)
    (h : ∀ n ∈ names, v n = w n) :
    stringsJoin (names.map (fun n => n ++ "=" ++ v n)) "," =
      stringsJoin (names.map (fun n => n ++ "=" ++ w n)) "," := by
  have : names.map (fun n => n ++ "=" ++ v n) = names.map (fun n => n ++ "=" ++ w n) := by
    apply List.map_congr_left
    intro n hn
    rw [h n hn]
  rw [this]

theorem GetCacheKey_data (names : List String) (req : Request) :
    (GetCacheKey names req).data =
      req.URL.data ++ ':' ::
        (stringsJoin (names.map (fun n => n ++ "=" ++ req.Header.Get n)) ",").data := by
  simp [GetCacheKey, MapCopy, String.data_append]

/-- For two requests with the same URL whose values of the named headers
hold no comma, the keys agree exactly when those values agree. -/
theorem GetCacheKey_eq_iff (names : List String) (r1 r2 : Request)
    (hurl : r1.URL = r2.URL)
    (h1 : ∀ n ∈ names, ',' ∉ (r1.Header.Get n).data)
    (h2 : ∀ n ∈ names, ',' ∉ (r2.Header.Get n).data) :
    GetCacheKey names r1 = GetCacheKey names r2 ↔
      ∀ n ∈ names, r1.Header.Get n = r2.Header.Get n := by
  constructor
  · intro h
    have hd := congrArg String.data h
    rw [GetCacheKey_data, GetCacheKey_data, hurl] at hd
    have hd2 := List.append_cancel_left hd
    simp only [List.cons.injEq, true_and] at hd2
    exact stringsJoin_values_inj (fun n => r1.Header.Get n) (fun n => r2.Header.Get n)
      names h1 h2 (String.ext hd2)
  · intro h
    apply String.ext
    rw [GetCacheKey_data, GetCacheKey_data, hurl,
      stringsJoin_values_congr (fun n => r1.Header.Get n) (fun n => r2.Header.Get n) names h]

theorem containsChars_tail (pat : List Char) (c : Char) (cs : List Char)
    (h : containsChars pat (c :: cs) = false) : containsChars pat cs = false := by
  simp only [containsChars, Bool.or_eq_false_iff] at h
  exact h.2

theorem containsChars_of_prefix (pat rest : List Char) (hne : pat ≠ []) :
    containsChars pat (pat ++ rest) = true := by
  cases pat with
  | nil => exact absurd rfl hne
  | cons p ps =>
    have hp : (p :: ps).isPrefixOf (p :: ps ++ rest) = true :=
      List.isPrefixOf_iff_prefix.mpr (List.prefix_append _ _)
    simp only [List.cons_append, containsChars, Bool.or_eq_true]
    left
    exact hp

/-- A list without comma that starts a list in which a comma stands further
on is itself a start of what stands before that comma. -/
theorem prefix_of_no_comma : ∀ (q w x z : List Char), ',' ∉ q →
    q ++ x = w ++ ',' :: z → ∃ r, w = q ++ r := by
  intro q
  induction q with
  | nil => intro w _ _ _ _; exact ⟨w, rfl⟩
  | cons c q ih =>
    intro w x z hq h
    cases w with
    | nil =>
      simp only [List.cons_append, List.nil_append, List.cons.injEq] at h
      exact absurd (by rw [h.1]; exact List.mem_cons_self _ _) hq
    | cons d w =>
      simp only [List.cons_append, List.cons.injEq] at h
      obtain ⟨r, hr⟩ := ih w x z (fun hm => hq (List.mem_cons_of_mem _ hm)) h.2
      exact ⟨r, by rw [h.1, hr]; rfl⟩

/-- Two lists that hold no occurrence of a comma followed by `q` are equal
when they are equal after that pattern is put behind them, and so is what
follows the pattern. -/
theorem pattern_cancel (q : List Char) (hq : ',' ∉ q) :
    ∀ (a b x y : List Char), containsChars (',' :: q) a = false →
      containsChars (',' :: q) b = false →
      a ++ ',' :: (q ++ x) = b ++ ',' :: (q ++ y) → a = b ∧ x = y := by
  intro a
  induction a with
  | nil =>
    intro b x y _ hb h
    cases b with
    | nil =>
      simp only [List.nil_append, List.cons.injEq, true_and] at h
      exact ⟨rfl, List.append_cancel_left h⟩
    | cons d b =>
      exfalso
      simp only [List.nil_append, List.cons_append, List.cons.injEq] at h
      obtain ⟨r, hr⟩ := prefix_of_no_comma q b x (q ++ y) hq h.2
      have hc : containsChars (',' :: q) ((',' :: q) ++ r) = true :=
        containsChars_of_prefix _ _ (List.cons_ne_nil _ _)
      rw [← h.1, hr] at hb
      rw [List.cons_append] at hc
      rw [hc] at hb
      cases hb
  | cons e a ih =>
    intro b x y ha hb h
    cases b with
    | nil =>
      exfalso
      simp only [List.nil_append, List.cons_append, List.cons.injEq] at h
      obtain ⟨r, hr⟩ := prefix_of_no_comma q a y (q ++ x) hq h.2.symm
      have hc : containsChars (',' :: q) ((',' :: q) ++ r) = true :=
        containsChars_of_prefix _ _ (List.cons_ne_nil _ _)
      rw [h.1, hr] at ha
      rw [List.cons_append] at hc
      rw [hc] at ha
      cases ha
    | cons d b =>
      simp only [List.cons_append, List.cons.injEq] at h
      obtain ⟨h1, h2⟩ := ih b x y (containsChars_tail _ _ _ ha) (containsChars_tail _ _ _ hb) h.2
      exact ⟨by rw [h.1, h1], h2⟩

theorem stringsJoin_head_data (v : String → String) (m : String) (rest : List String) :
    ∃ t, (stringsJoin ((m :: rest).map (fun n => n ++ "=" ++ v n)) ",").data =
      (m.data ++ ['=']) ++ t := by
  cases rest with
  | nil =>
    exact ⟨(v m).data, by simp [stringsJoin, String.data_append]⟩
  | cons k rest =>
    refine ⟨(v m).data ++ ',' ::
      (stringsJoin ((k :: rest).map (fun n => n ++ "=" ++ v n)) ",").data, ?_⟩
    simp only [List.map]
    rw [stringsJoin_cons_cons_data]
    simp [String.data_append]

/-- The values of the named headers can be read off the joined list when no
name after the first holds a comma and no value holds a comma followed by the
next name and an equals sign. -/
theorem stringsJoin_values_inj_sep (v w : String → String) :
    ∀ names : List String,
      (∀ n ∈ names.tail, ',' ∉ n.data) →
      (∀ p ∈ names.zip names.tail, stringsContains (v p.1) ("," ++ p.2 ++ "=") = false) →
      (∀ p ∈ names.zip names.tail, stringsContains (w p.1) ("," ++ p.2 ++ "=") = false) →
      stringsJoin (names.map (fun n => n ++ "=" ++ v n)) "," =
        stringsJoin (names.map (fun n => n ++ "=" ++ w n)) "," →
      ∀ n ∈ names, v n = w n := by
  intro names
  induction names with
  | nil => intro _ _ _ _ n hn; cases hn
  | cons n rest ih =>
    intro hnames hv hw h
    cases rest with
    | nil =>
      intro m hm
      simp only [List.mem_singleton] at hm
      subst hm
      have hd := congrArg String.data h
      simp only [List.map, stringsJoin, String.data_append, List.append_assoc] at hd
      have hd2 := List.append_cancel_left (List.append_cancel_left hd)
      exact String.ext hd2
    | cons m rest' =>
      have hm : ',' ∉ m.data ++ ['='] := by
        intro hmem
        rcases List.mem_append.mp hmem with h1 | h1
        · exact hnames m (List.mem_cons_self _ _) h1
        · simp at h1
      have hpat : ("," ++ m ++ "=").data = ',' :: (m.data ++ ['=']) := by
        simp [String.data_append]
      have hvn : containsChars (',' :: (m.data ++ ['='])) (v n).data = false := by
        have := hv (n, m) (by simp)
        simpa only [stringsContains, hpat] using this
      have hwn : containsChars (',' :: (m.data ++ ['='])) (w n).data = false := by
        have := hw (n, m) (by simp)
        simpa only [stringsContains, hpat] using this
      obtain ⟨tv, htv⟩ := stringsJoin_head_data v m rest'
      obtain ⟨tw, htw⟩ := stringsJoin_head_data w m rest'
      have hd := congrArg String.data h
      simp only [List.map] at hd htv htw
      rw [stringsJoin_cons_cons_data, stringsJoin_cons_cons_data, htv, htw] at hd
      simp only [String.data_append, List.append_assoc] at hd
      have hd2 := List.append_cancel_left (List.append_cancel_left hd)
      obtain ⟨h1, h2⟩ := pattern_cancel (m.data ++ ['=']) hm _ _ tv tw hvn hwn
        (by simpa only [List.append_assoc] using hd2)
      have htail : stringsJoin ((m :: rest').map (fun n => n ++ "=" ++ v n)) "," =
          stringsJoin ((m :: rest').map (fun n => n ++ "=" ++ w n)) "," := by
        apply String.ext
        simp only [List.map]
        rw [htv, htw, h2]
      have hrest := ih (fun k hk => hnames k (List.mem_cons_of_mem _ hk))
        (fun p hp => hv p (by simp only [List.tail_cons] at hp ⊢; simp [hp]))
        (fun p hp => hw p (by simp only [List.tail_cons] at hp ⊢; simp [hp])) htail
      intro k hk
      rcases List.mem_cons.mp hk with rfl | hk'
      · exact String.ext h1
      · exact hrest k hk'

/-- For two requests with the same URL, under the conditions of
`stringsJoin_values_inj_sep`, the keys agree exactly when the values of the
named headers agree. -/
theorem GetCacheKey_eq_iff_sep (names : List String) (r1 r2 : Request)
    (hurl : r1.URL = r2.URL)
    (hnames : ∀ n ∈ names.tail, ',' ∉ n.data)
    (h1 : ∀ p ∈ names.zip names.tail,
      stringsContains (r1.Header.Get p.1) ("," ++ p.2 ++ "=") = false)
    (h2 : ∀ p ∈ names.zip names.tail,
      stringsContains (r2.Header.Get p.1) ("," ++ p.2 ++ "=") = false) :
    GetCacheKey names r1 = GetCacheKey names r2 ↔
      ∀ n ∈ names, r1.Header.Get n = r2.Header.Get n := by
  constructor
  · intro h
    have hd := congrArg String.data h
    rw [GetCacheKey_data, GetCacheKey_data, hurl] at hd
    have hd2 := List.append_cancel_left hd
    simp only [List.cons.injEq, true_and] at hd2
    exact stringsJoin_values_inj_sep (fun n => r1.Header.Get n) (fun n => r2.Header.Get n)
      names hnames h1 h2 (String.ext hd2)
  · intro h
    apply String.ext
    rw [GetCacheKey_data, GetCacheKey_data, hurl,
      stringsJoin_values_congr (fun n => r1.Header.Get n) (fun n => r2.Header.Get n) names h]

theorem splitChars_ne_nil (sep : Char) : ∀ cs : List Char, splitChars sep cs ≠ [] := by
  intro cs
  cases cs with
  | nil => simp [splitChars]
  | cons c cs =>
    unfold splitChars
    split_ifs
    · simp
    · split <;> simp

theorem GetVaryHeaderNames_ne_nil (res : Response) : GetVaryHeaderNames res ≠ [] := by
  unfold GetVaryHeaderNames stringsSplit
  intro h
  simp only [List.map_eq_nil_iff] at h
  exact splitChars_ne_nil _ _ h

/-- The joined list of a non-empty list of names does not end in a colon when
no value holds one. -/
theorem stringsJoin_last_ne_colon (v : String → String) :
    ∀ names : List String, names ≠ [] → (∀ n ∈ names, ':' ∉ (v n).data) →
      ∃ x, (stringsJoin (names.map (fun n => n ++ "=" ++ v n)) ",").data.getLast? = some x ∧
        x ≠ ':' := by
  intro names
  induction names with
  | nil => intro h; exact absurd rfl h
  | cons n rest ih =>
    intro _ hv
    cases rest with
    | nil =>
      simp only [List.map, stringsJoin, String.data_append, List.append_assoc,
        List.getLast?_append]
      cases hl : (v n).data.getLast? with
      | none => exact ⟨'=', by simp, by decide⟩
      | some x =>
        refine ⟨x, by simp, ?_⟩
        intro hx
        subst hx
        exact hv n (List.mem_cons_self _ _) (List.mem_of_getLast?_eq_some hl)
    | cons m rest' =>
      obtain ⟨x, hx, hne⟩ := ih (List.cons_ne_nil _ _)
        (fun k hk => hv k (List.mem_cons_of_mem _ hk))
      refine ⟨x, ?_, hne⟩
      simp only [List.map] at hx ⊢
      rw [stringsJoin_cons_cons_data, List.getLast?_append, List.getLast?_cons, hx]
      rfl

/-- A key built from a non-empty list of names is not the key that a request
without Vary record gets, when no stored value holds a colon. -/
theorem GetCacheKey_ne_bare (names : List String) (r1 r2 : Request) (hne : names ≠ [])
    (h1 : ∀ n ∈ names, ':' ∉ (r1.Header.Get n).data) :
    GetCacheKey names r1 ≠ GetCacheKey [] r2 := by
  intro h
  have hd := congrArg (fun s => s.data.getLast?) h
  simp only [GetCacheKey_data, List.map, stringsJoin] at hd
  obtain ⟨x, hx, hxne⟩ := stringsJoin_last_ne_colon (fun n => r1.Header.Get n) names hne h1
  rw [List.getLast?_append, List.getLast?_cons, hx, List.getLast?_append] at hd
  simp at hd
  exact hxne hd

/-- A store that holds one entry whose janitor is not yet due is left alone by
`expire`. -/
theorem expire_single {V : Type} (now t ttl : Int) (key : String) (value : V)
    (hpos : 0 < ttl) (ht : t < now + ttl) :
    ((NewMemoryKVStore : MemoryKVStore V).Store now key value ttl).expire t =
      ⟨[(key, value)], [(key, now + ttl)]⟩ := by
  simp [NewMemoryKVStore, MemoryKVStore.Store, MemoryKVStore.expire, mapSet, mapGet,
    hpos, ht]

/-! ## The byte counter -/

theorem bodyBytes_nonneg (m : List (String × CachedResponse)) : 0 ≤ bodyBytes m := by
  induction m with
  | nil => simp [bodyBytes]
  | cons p m ih =>
    simp only [bodyBytes, List.map_cons, List.sum_cons] at ih ⊢
    omega

theorem bodyBytes_filter_le (p : String × CachedResponse → Bool)
    (m : List (String × CachedResponse)) : bodyBytes (m.filter p) ≤ bodyBytes m := by
  induction m with
  | nil => simp [bodyBytes]
  | cons a m ih =>
    by_cases ha : p a = true
    · rw [List.filter_cons_of_pos ha]
      simp only [bodyBytes, List.map_cons, List.sum_cons] at ih ⊢
      omega
    · rw [List.filter_cons_of_neg ha]
      simp only [bodyBytes, List.map_cons, List.sum_cons] at ih ⊢
      omega

theorem bodyBytes_mapSet_le (m : List (String × CachedResponse)) (key : String)
    (cr : CachedResponse) :
    bodyBytes (mapSet m key cr) ≤ cr.Body.length + bodyBytes m := by
  have h := bodyBytes_filter_le (fun p => decide (p.1 ≠ key)) m
  simp only [mapSet, bodyBytes, List.map_cons, List.sum_cons] at h ⊢
  omega

/-- A call of `Cache` keeps the held bytes at or below `currentSize`. -/
theorem Cache_keeps_held (clk : Clock) (c : MemoryHTTPCache) (url : String) (res : Response)
    (minTTL maxTTL defaultTTL : Int) (h : c.heldBytes ≤ c.currentSize) :
    (c.Cache clk url res minTTL maxTTL defaultTTL).cache.heldBytes ≤
      (c.Cache clk url res minTTL maxTTL defaultTTL).cache.currentSize := by
  refine Cache_cases (fun out => out.cache.heldBytes ≤ out.cache.currentSize)
    clk c url res minTTL maxTTL defaultTTL _ rfl _ rfl ?_ ?_ ?_ ?_ ?_
  · intro _; exact h
  · intro _ _; exact h
  · intro _ _ _; exact h
  · intro _ _ _ _; exact h
  · intro req limit _ _ _
    refine readAndStore_cases (fun out => out.cache.heldBytes ≤ out.cache.currentSize)
      clk _ res req _ _ limit ?_ ?_ ?_
    · intro _ _; exact h
    · intro _ _ _; exact h
    · intro data _ _
      have hs := bodyBytes_mapSet_le c.cachedResponses.values
        (GetCacheKey (GetVaryHeaderNames res) req)
        { URL := "", StatusCode := res.StatusCode, Body := data, FreshUntil := 0,
          ResponseHeaders := res.Header, RequestHeaders := req.Header }
      simp only [MemoryHTTPCache.heldBytes, MemoryKVStore.Store] at h hs ⊢
      omega

/-- A call of `Cache` keeps `currentSize` at or below `maxSize`, and does not
change `maxSize`. -/
theorem Cache_keeps_budget (clk : Clock) (c : MemoryHTTPCache) (url : String) (res : Response)
    (minTTL maxTTL defaultTTL : Int) (h : c.currentSize ≤ c.maxSize) :
    (c.Cache clk url res minTTL maxTTL defaultTTL).cache.currentSize ≤
      (c.Cache clk url res minTTL maxTTL defaultTTL).cache.maxSize ∧
    (c.Cache clk url res minTTL maxTTL defaultTTL).cache.maxSize = c.maxSize := by
  refine Cache_cases (fun out => out.cache.currentSize ≤ out.cache.maxSize ∧
      out.cache.maxSize = c.maxSize)
    clk c url res minTTL maxTTL defaultTTL _ rfl _ rfl ?_ ?_ ?_ ?_ ?_
  · intro _; exact ⟨h, rfl⟩
  · intro _ _; exact ⟨h, rfl⟩
  · intro _ _ _; exact ⟨h, rfl⟩
  · intro _ _ _ _; exact ⟨h, rfl⟩
  · intro req limit _ _ _
    refine readAndStore_cases (fun out => out.cache.currentSize ≤ out.cache.maxSize ∧
        out.cache.maxSize = c.maxSize)
      clk _ res req _ _ limit ?_ ?_ ?_
    · intro _ _; exact ⟨h, rfl⟩
    · intro _ _ _; exact ⟨h, rfl⟩
    · intro data _ hfit
      exact ⟨not_lt.mp hfit, rfl⟩

/-- The janitors only remove responses: the held bytes do not grow and
`currentSize` stays. -/
theorem expire_keeps_held (c : MemoryHTTPCache) (t : Int) (h : c.heldBytes ≤ c.currentSize) :
    (c.expire t).heldBytes ≤ (c.expire t).currentSize := by
  have hf := bodyBytes_filter_le (fun p =>
      match mapGet c.cachedResponses.janitors p.1 with
      | some deadline => decide (t < deadline)
      | none => true) c.cachedResponses.values
  simp only [MemoryHTTPCache.heldBytes, MemoryHTTPCache.expire, MemoryKVStore.expire] at h ⊢
  omega

theorem run_keeps_held (events : List CacheEvent) :
    ∀ c : MemoryHTTPCache, c.heldBytes ≤ c.currentSize →
      (c.run events).heldBytes ≤ (c.run events).currentSize := by
  induction events with
  | nil => intro c h; exact h
  | cons e rest ih =>
    intro c h
    simp only [MemoryHTTPCache.run, List.foldl_cons]
    apply ih
    cases e with
    | call a => exact Cache_keeps_held a.clk c a.url a.res a.minTTL a.maxTTL a.defaultTTL h
    | expire t => exact expire_keeps_held c t h

theorem runCalls_keeps_budget (calls : List CacheCall) :
    ∀ c : MemoryHTTPCache, c.heldBytes ≤ c.currentSize → c.currentSize ≤ c.maxSize →
      (c.runCalls calls).heldBytes ≤ (c.runCalls calls).currentSize ∧
      (c.runCalls calls).currentSize ≤ (c.runCalls calls).maxSize ∧
      (c.runCalls calls).maxSize = c.maxSize := by
  induction calls with
  | nil => intro c h1 h2; exact ⟨h1, h2, rfl⟩
  | cons a rest ih =>
    intro c h1 h2
    simp only [MemoryHTTPCache.runCalls, List.foldl_cons]
    have hb := Cache_keeps_budget a.clk c a.url a.res a.minTTL a.maxTTL a.defaultTTL h2
    have hh := Cache_keeps_held a.clk c a.url a.res a.minTTL a.maxTTL a.defaultTTL h1
    obtain ⟨r1, r2, r3⟩ := ih _ hh hb.1
    exact ⟨r1, r2, r3.trans hb.2⟩

/-! ## C1: lookup after a store -/

/-- C1, the code at four lookups after a store, each with the lookup at the
instant of the store; the cache was empty before the store in the first three.
(1) A response stored under the url `http://a.test/x` whose request went to
`http://a.test/y`, as the nice client stores the target of a redirect, is not
returned for a request for `http://a.test/x`, whose URL is the url and which
matches on every Vary name: the Vary record is written under the url, the key
is built from the URL of the request of the response.
(2) A response to a request with `A: x,B=y` and `B: z` and `Vary: A, B` is
returned for a request with `A: x` and `B: y,B=z`, which differs in both.
(3) A response to a request for `http://a.test/x` with `A: 1:` and `Vary: A` is
returned for a request for `http://a.test/x:A=1`, another URL.
(4) On a cache that holds the Vary record `x:` for `http://a.test/h`, a
response stored for `http://a.test/h:x` is returned for a request for
`http://a.test/h`. -/
theorem C1_get_after_store_diverges :
    (let rq : Request := ⟨"GET", "http://a.test/y", []⟩
     let res : Response := ⟨200, [("Cache-Control", ["max-age=60"])], ⟨[65], none⟩, some rq⟩
     let out := (NewMemoryHTTPCache 100).Cache exampleClock "http://a.test/x" res 0 Hour 0
     let req : Request := ⟨"GET", "http://a.test/x", []⟩
     out.cache.cachedResponses.Get "http://a.test/y:=" =
       some ⟨"", 200, [65], 0, res.Header, rq.Header⟩ ∧
     req.URL = "http://a.test/x" ∧
     (∀ n ∈ GetVaryHeaderNames res, req.Header.Get n = rq.Header.Get n) ∧
     out.cache.Get req = none) ∧
    (let rq : Request := ⟨"GET", "http://a.test/x", [("A", ["x,B=y"]), ("B", ["z"])]⟩
     let res : Response :=
       ⟨200, [("Cache-Control", ["max-age=60"]), ("Vary", ["A, B"])], ⟨[65], none⟩, some rq⟩
     let out := (NewMemoryHTTPCache 100).Cache exampleClock "http://a.test/x" res 0 Hour 0
     let req : Request := ⟨"GET", "http://a.test/x", [("A", ["x"]), ("B", ["y,B=z"])]⟩
     GetVaryHeaderNames res = ["A", "B"] ∧
     req.Header.Get "A" ≠ rq.Header.Get "A" ∧
     out.cache.Get req = some ⟨"", 200, [65], 0, res.Header, rq.Header⟩) ∧
    (let rq : Request := ⟨"GET", "http://a.test/x", [("A", ["1:"])]⟩
     let res : Response :=
       ⟨200, [("Cache-Control", ["max-age=60"]), ("Vary", ["A"])], ⟨[65], none⟩, some rq⟩
     let out := (NewMemoryHTTPCache 100).Cache exampleClock "http://a.test/x" res 0 Hour 0
     let req : Request := ⟨"GET", "http://a.test/x:A=1", [("A", ["1:"])]⟩
     req.URL ≠ "http://a.test/x" ∧
     out.cache.Get req = some ⟨"", 200, [65], 0, res.Header, rq.Header⟩) ∧
    (let c : MemoryHTTPCache :=
       { NewMemoryHTTPCache 100 with
         urlVaryHeaders := ⟨[("http://a.test/h", ["x:"])], [("http://a.test/h", 5)]⟩ }
     let rq : Request := ⟨"GET", "http://a.test/h:x", []⟩
     let res : Response := ⟨200, [("Cache-Control", ["max-age=60"])], ⟨[65], none⟩, some rq⟩
     let out := c.Cache exampleClock "http://a.test/h:x" res 0 Hour 0
     let req : Request := ⟨"GET", "http://a.test/h", []⟩
     req.URL ≠ "http://a.test/h:x" ∧
     out.cache.Get req = some ⟨"", 200, [65], 0, res.Header, rq.Header⟩) := by
  decide

/-- Where the lookup after a store does work.  Take a cache with no stored
response and no Vary record, a response `res` whose request `rq` has the URL
string `url` and whose values for the names that `GetVaryHeaderNames res`
yields hold neither a comma nor a colon, and a response `cr` that `Cache`
stores for it.  For every later request `req` whose values for those names
hold no comma, looked up at an instant `t` before the lifetime has elapsed:
`Get(req)` returns `cr` if and only if the URL string of `req` equals `url`
and, for every one of those names, the value of `req` equals the value of
`rq`. -/
theorem Get_after_Cache_on_empty (clk : Clock) (c : MemoryHTTPCache) (url : String)
    (res : Response) (rq : Request) (minTTL maxTTL defaultTTL : Int) (t : Int)
    (req : Request) (k : String) (cr : CachedResponse)
    (hresp : c.cachedResponses = NewMemoryKVStore)
    (hvary : c.urlVaryHeaders = NewMemoryKVStore)
    (hreq : res.Request = some rq) (hurl : rq.URL = url)
    (hstored : (c.Cache clk url res minTTL maxTTL defaultTTL).cache.cachedResponses.Get k
      = some cr)
    (ht : t < clk.now + Cache.clamp (Cache.baseTTL clk c res defaultTTL).1 minTTL maxTTL)
    (hrq : ∀ n ∈ GetVaryHeaderNames res,
      ',' ∉ (rq.Header.Get n).data ∧ ':' ∉ (rq.Header.Get n).data)
    (hrq2 : ∀ n ∈ GetVaryHeaderNames res, ',' ∉ (req.Header.Get n).data) :
    ((c.Cache clk url res minTTL maxTTL defaultTTL).cache.expire t).Get req = some cr ↔
      (req.URL = url ∧
        ∀ n ∈ GetVaryHeaderNames res, req.Header.Get n = rq.Header.Get n) := by
  have hkey : (GetCacheKey (GetVaryHeaderNames res) rq =
        GetCacheKey ((if url = req.URL then some (GetVaryHeaderNames res) else none).getD [])
          req) ↔
      (req.URL = url ∧
        ∀ n ∈ GetVaryHeaderNames res, req.Header.Get n = rq.Header.Get n) := by
    by_cases hu : url = req.URL
    · rw [if_pos hu]
      simp only [Option.getD_some]
      rw [GetCacheKey_eq_iff _ rq req (hurl.trans hu) (fun n hn => (hrq n hn).1) hrq2]
      constructor
      · intro h; exact ⟨hu.symm, fun n hn => (h n hn).symm⟩
      · intro h n hn; exact (h.2 n hn).symm
    · rw [if_neg hu]
      simp only [Option.getD_none]
      constructor
      · intro h
        exact absurd h (GetCacheKey_ne_bare _ rq req (GetVaryHeaderNames_ne_nil res)
          (fun n hn => (hrq n hn).2))
      · intro h; exact absurd h.1.symm hu
  revert hstored ht
  refine Cache_cases (fun out => out.cache.cachedResponses.Get k = some cr →
      t < clk.now + Cache.clamp (Cache.baseTTL clk c res defaultTTL).1 minTTL maxTTL →
      ((out.cache.expire t).Get req = some cr ↔
        (req.URL = url ∧
          ∀ n ∈ GetVaryHeaderNames res, req.Header.Get n = rq.Header.Get n)))
    clk c url res minTTL maxTTL defaultTTL _ rfl _ rfl ?_ ?_ ?_ ?_ ?_
  · intro _ hs; simp [hresp, NewMemoryKVStore, MemoryKVStore.Get, mapGet] at hs
  · intro _ _ hs; simp [hresp, NewMemoryKVStore, MemoryKVStore.Get, mapGet] at hs
  · intro _ _ _ hs; simp [hresp, NewMemoryKVStore, MemoryKVStore.Get, mapGet] at hs
  · intro _ _ _ _ hs; simp [hresp, NewMemoryKVStore, MemoryKVStore.Get, mapGet] at hs
  · intro req' limit hpos hreq' _
    rw [hreq] at hreq'
    cases hreq'
    refine readAndStore_cases (fun out => out.cache.cachedResponses.Get k = some cr →
      t < clk.now + Cache.clamp (Cache.baseTTL clk c res defaultTTL).1 minTTL maxTTL →
      ((out.cache.expire t).Get req = some cr ↔
        (req.URL = url ∧
          ∀ n ∈ GetVaryHeaderNames res, req.Header.Get n = rq.Header.Get n)))
      clk _ res rq _ _ limit ?_ ?_ ?_
    · intro _ _ hs; simp [hresp, NewMemoryKVStore, MemoryKVStore.Get, mapGet] at hs
    · intro _ _ _ hs; simp [hresp, NewMemoryKVStore, MemoryKVStore.Get, mapGet] at hs
    · intro data _ _ hs ht
      rw [← hkey]
      simp only [MemoryHTTPCache.expire, MemoryHTTPCache.Get, hresp, hvary] at hs ⊢
      rw [expire_single _ _ _ _ _ hpos ht, expire_single _ _ _ _ _ hpos ht]
      simp only [MemoryKVStore.Get, MemoryKVStore.Store, NewMemoryKVStore, mapSet, mapGet,
        List.filter_nil] at hs ⊢
      by_cases hk : GetCacheKey (GetVaryHeaderNames res) rq = k
      · rw [if_pos hk] at hs
        simp only [Option.some.injEq] at hs
        subst hs
        by_cases hk2 : GetCacheKey (GetVaryHeaderNames res) rq =
            GetCacheKey ((if url = req.URL then some (GetVaryHeaderNames res)
              else none).getD []) req
        · rw [if_pos hk2]; simp [hk2]
        · rw [if_neg hk2]; simp [hk2]
      · rw [if_neg hk] at hs; cases hs

/-- An instance of `Get_after_Cache_on_empty`: a response that varies on `Accept-Encoding`, looked up five
seconds later by a request with the same URL and the same encoding. -/
theorem Get_after_Cache_on_empty_example :
    let rq : Request := ⟨"GET", "http://a.test/x", [("Accept-Encoding", ["gzip"])]⟩
    let res : Response :=
      ⟨200, [("Cache-Control", ["max-age=60"]), ("Vary", ["Accept-Encoding"])],
        ⟨[65], none⟩, some rq⟩
    (((NewMemoryHTTPCache 100).Cache exampleClock "http://a.test/x" res 0 Hour 0).cache.expire
      (5 * Second)).Get ⟨"GET", "http://a.test/x", [("Accept-Encoding", ["gzip"])]⟩
      = some ⟨"", 200, [65], 0, res.Header, rq.Header⟩ :=
  (Get_after_Cache_on_empty exampleClock (NewMemoryHTTPCache 100) "http://a.test/x"
    ⟨200, [("Cache-Control", ["max-age=60"]), ("Vary", ["Accept-Encoding"])],
      ⟨[65], none⟩, some ⟨"GET", "http://a.test/x", [("Accept-Encoding", ["gzip"])]⟩⟩
    ⟨"GET", "http://a.test/x", [("Accept-Encoding", ["gzip"])]⟩ 0 Hour 0 (5 * Second)
    ⟨"GET", "http://a.test/x", [("Accept-Encoding", ["gzip"])]⟩
    "http://a.test/x:Accept-Encoding=gzip"
    ⟨"", 200, [65], 0,
      [("Cache-Control", ["max-age=60"]), ("Vary", ["Accept-Encoding"])],
      [("Accept-Encoding", ["gzip"])]⟩
    rfl rfl rfl rfl (by decide) (by decide) (by decide) (by decide)).mpr
    ⟨rfl, by decide⟩

/-! ## C2: distinct keys -/

theorem splitChars_no_sep (sep : Char) : ∀ cs : List Char,
    ∀ p ∈ splitChars sep cs, sep ∉ p := by
  intro cs
  induction cs with
  | nil =>
    intro p hp
    simp only [splitChars, List.mem_singleton] at hp
    subst hp
    exact List.not_mem_nil _
  | cons c cs ih =>
    intro p hp
    unfold splitChars at hp
    by_cases hc : c = sep
    · rw [if_pos hc] at hp
      rcases List.mem_cons.mp hp with rfl | hp'
      · exact List.not_mem_nil _
      · exact ih p hp'
    · rw [if_neg hc] at hp
      cases hs : splitChars sep cs with
      | nil =>
        rw [hs] at hp
        simp only [List.mem_singleton] at hp
        subst hp
        intro hm
        simp only [List.mem_singleton] at hm
        exact hc hm.symm
      | cons q qs =>
        rw [hs] at hp
        simp only [List.mem_cons] at hp
        rcases hp with rfl | hp'
        · intro hm
          rcases List.mem_cons.mp hm with h1 | h1
          · exact hc h1.symm
          · exact ih q (by rw [hs]; exact List.mem_cons_self _ _) h1
        · exact ih p (by rw [hs]; exact List.mem_cons_of_mem _ hp')

theorem trimLeftChars_subset (f : Char → Bool) : ∀ (cs : List Char) (x : Char),
    x ∈ trimLeftChars f cs → x ∈ cs := by
  intro cs
  induction cs with
  | nil => intro x hx; exact hx
  | cons c cs ih =>
    intro x hx
    unfold trimLeftChars at hx
    by_cases hf : f c = true
    · rw [if_pos hf] at hx
      exact List.mem_cons_of_mem _ (ih x hx)
    · rw [if_neg hf] at hx
      exact hx

theorem trimChars_subset (f : Char → Bool) (cs : List Char) (x : Char)
    (hx : x ∈ trimChars f cs) : x ∈ cs := by
  unfold trimChars at hx
  have h1 := trimLeftChars_subset f _ x (List.mem_reverse.mp hx)
  exact trimLeftChars_subset f _ x (List.mem_reverse.mp h1)

/-- No name that `GetVaryHeaderNames` yields holds a comma. -/
theorem GetVaryHeaderNames_no_comma (res : Response) :
    ∀ n ∈ GetVaryHeaderNames res, ',' ∉ n.data := by
  intro n hn
  unfold GetVaryHeaderNames stringsSplit at hn
  simp only [List.map_map, List.mem_map, Function.comp] at hn
  obtain ⟨p, hp, rfl⟩ := hn
  intro hm
  exact splitChars_no_sep ',' _ p hp (trimChars_subset _ _ _ hm)

/-- C2, counterexample, in three parts.
(1) For the names `A` and `B`, the request with `A: x,B=y` and `B: z` and the
request with `A: x` and `B: y,B=z` have the same URL and differ in both
values, and `GetCacheKey` gives both the key `http://a.test/x:A=x,B=y,B=z`:
the value `x,B=y` holds a comma followed by the next name and an equals sign.
(2) For the name `Accept-Encoding`, the request that carries the header twice,
with `gzip` and then `br`, and the request that carries it with `gzip` and
then `identity` differ in what the header holds, and `GetCacheKey` gives both
the same key: only the first value of a header enters the key.
(3) For a list whose second name holds a comma, the names `A` and `=,`, the
request with an empty `A` and `,=z` under the second name and the request
with `A: ,=` and `z` under the second name differ in both values, neither
value of `A` holds a comma followed by the second name and an equals sign,
and `GetCacheKey` gives both the same key. -/
theorem C2_counterexample :
    (let r1 : Request := ⟨"GET", "http://a.test/x", [("A", ["x,B=y"]), ("B", ["z"])]⟩
     let r2 : Request := ⟨"GET", "http://a.test/x", [("A", ["x"]), ("B", ["y,B=z"])]⟩
     r1.URL = r2.URL ∧ r1.Header.Get "A" ≠ r2.Header.Get "A" ∧
     r1.Header.Get "B" ≠ r2.Header.Get "B" ∧
     stringsContains (r1.Header.Get "A") ("," ++ "B" ++ "=") = true ∧
     GetCacheKey ["A", "B"] r1 = "http://a.test/x:A=x,B=y,B=z" ∧
     GetCacheKey ["A", "B"] r1 = GetCacheKey ["A", "B"] r2) ∧
    (let r1 : Request := ⟨"GET", "http://a.test/x", [("Accept-Encoding", ["gzip", "br"])]⟩
     let r2 : Request :=
       ⟨"GET", "http://a.test/x", [("Accept-Encoding", ["gzip", "identity"])]⟩
     r1.URL = r2.URL ∧
     mapGet r1.Header "Accept-Encoding" ≠ mapGet r2.Header "Accept-Encoding" ∧
     GetCacheKey ["Accept-Encoding"] r1 = "http://a.test/x:Accept-Encoding=gzip" ∧
     GetCacheKey ["Accept-Encoding"] r1 = GetCacheKey ["Accept-Encoding"] r2) ∧
    (let r1 : Request := ⟨"GET", "http://a.test/x", [("A", [""]), ("=,", [",=z"])]⟩
     let r2 : Request := ⟨"GET", "http://a.test/x", [("A", [",="]), ("=,", ["z"])]⟩
     r1.URL = r2.URL ∧ r1.Header.Get "A" ≠ r2.Header.Get "A" ∧
     r1.Header.Get "=," ≠ r2.Header.Get "=," ∧
     stringsContains (r1.Header.Get "A") ("," ++ "=," ++ "=") = false ∧
     stringsContains (r2.Header.Get "A") ("," ++ "=," ++ "=") = false ∧
     GetCacheKey ["A", "=,"] r1 = "http://a.test/x:A=,=,=,=z" ∧
     GetCacheKey ["A", "=,"] r1 = GetCacheKey ["A", "=,"] r2) := by
  decide

/-- C2, amended.  Take a list of vary-header names in which no name after the
first holds a comma, and two requests that have the same URL and in which,
for every name of the list but the last, the first value of that header does
not hold a comma followed by the next name of the list and an equals sign.
If the requests differ in the first value of at least one named header (the
value that `Header.Get` returns, empty for an absent header), `GetCacheKey`
returns two different strings.  The names that `GetVaryHeaderNames` yields
never hold a comma. -/
theorem C2_distinct_keys (names : List String) (r1 r2 : Request)
    (hurl : r1.URL = r2.URL)
    (hnames : ∀ n ∈ names.tail, ',' ∉ n.data)
    (h1 : ∀ p ∈ names.zip names.tail,
      stringsContains (r1.Header.Get p.1) ("," ++ p.2 ++ "=") = false)
    (h2 : ∀ p ∈ names.zip names.tail,
      stringsContains (r2.Header.Get p.1) ("," ++ p.2 ++ "=") = false)
    (hdiff : ∃ n ∈ names, r1.Header.Get n ≠ r2.Header.Get n) :
    GetCacheKey names r1 ≠ GetCacheKey names r2 ∧
    ∀ res : Response, ∀ n ∈ GetVaryHeaderNames res, ',' ∉ n.data := by
  refine ⟨?_, GetVaryHeaderNames_no_comma⟩
  intro h
  obtain ⟨n, hn, hne⟩ := hdiff
  exact hne ((GetCacheKey_eq_iff_sep names r1 r2 hurl hnames h1 h2).mp h n hn)

/-- C2, witness: the names `Accept-Encoding` and `Accept-Language`, and two
requests whose encodings are lists with commas and differ. -/
theorem C2_distinct_keys_witness :
    GetCacheKey ["Accept-Encoding", "Accept-Language"]
        ⟨"GET", "http://a.test/x",
          [("Accept-Encoding", ["gzip, deflate, br"]), ("Accept-Language", ["en"])]⟩
      ≠ GetCacheKey ["Accept-Encoding", "Accept-Language"]
        ⟨"GET", "http://a.test/x",
          [("Accept-Encoding", ["gzip, br"]), ("Accept-Language", ["en"])]⟩ :=
  (C2_distinct_keys ["Accept-Encoding", "Accept-Language"]
    ⟨"GET", "http://a.test/x",
      [("Accept-Encoding", ["gzip, deflate, br"]), ("Accept-Language", ["en"])]⟩
    ⟨"GET", "http://a.test/x",
      [("Accept-Encoding", ["gzip, br"]), ("Accept-Language", ["en"])]⟩
    rfl (by decide) (by decide) (by decide) ⟨"Accept-Encoding", by decide, by decide⟩).1

/-! ## C3: `currentSize` against the held bytes -/

/-- C3, counterexample.  Two responses stored one after the other under the
same key, with bodies of two bytes and of one byte, leave one byte held and
`currentSize` at three; and after a response of two bytes has expired nothing
is held and `currentSize` is still two. -/
theorem C3_counterexample :
    let rq : Request := ⟨"GET", "http://a.test/x", []⟩
    let first : Response :=
      ⟨200, [("Cache-Control", ["max-age=60"])], ⟨[1, 2], none⟩, some rq⟩
    let second : Response :=
      ⟨200, [("Cache-Control", ["max-age=60"])], ⟨[3], none⟩, some rq⟩
    let twice := (NewMemoryHTTPCache 100).run
      [.call ⟨exampleClock, "http://a.test/x", first, 0, Hour, 0⟩,
       .call ⟨exampleClock, "http://a.test/x", second, 0, Hour, 0⟩]
    let expired := (NewMemoryHTTPCache 100).run
      [.call ⟨exampleClock, "http://a.test/x", first, 0, Hour, 0⟩, .expire (60 * Second)]
    (twice.heldBytes = 1 ∧ twice.currentSize = 3) ∧
    (expired.cachedResponses.values = [] ∧ expired.heldBytes = 0 ∧
      expired.currentSize = 2) := by
  decide

/-- C3, amended.  Starting from an empty cache, after every sequence of
`Cache` calls and entry expirations, `currentSize` is at least the sum of
`len(Body)` over the responses held in `cachedResponses`. -/
theorem C3_currentSize_bounds_held (maxSize : Int) (events : List CacheEvent) :
    ((NewMemoryHTTPCache maxSize).run events).heldBytes ≤
      ((NewMemoryHTTPCache maxSize).run events).currentSize := by
  apply run_keeps_held
  simp [NewMemoryHTTPCache, NewMemoryKVStore, MemoryHTTPCache.heldBytes, bodyBytes]

/-! ## C4: the byte budget -/

/-- C4.  Starting from an empty cache with `maxSize ≥ 0`, after every sequence
of `Cache` calls the sum of `len(Body)` over the stored responses is at most
`currentSize`, and `currentSize` is at most `maxSize`. -/
theorem C4_byte_budget (maxSize : Int) (calls : List CacheCall) (hmax : 0 ≤ maxSize) :
    ((NewMemoryHTTPCache maxSize).runCalls calls).heldBytes ≤
      ((NewMemoryHTTPCache maxSize).runCalls calls).currentSize ∧
    ((NewMemoryHTTPCache maxSize).runCalls calls).currentSize ≤ maxSize := by
  obtain ⟨h1, h2, h3⟩ := runCalls_keeps_budget calls (NewMemoryHTTPCache maxSize)
    (by simp [NewMemoryHTTPCache, NewMemoryKVStore, MemoryHTTPCache.heldBytes, bodyBytes])
    (by simpa [NewMemoryHTTPCache] using hmax)
  refine ⟨h1, ?_⟩
  rw [h3] at h2
  exact h2

/-- C4, witness: a cache of three bytes that is offered two bytes and then two
bytes more. -/
theorem C4_byte_budget_witness :
    let rq : Request := ⟨"GET", "http://a.test/x", []⟩
    let calls : List CacheCall :=
      [⟨exampleClock, "http://a.test/x",
          ⟨200, [("Cache-Control", ["max-age=60"])], ⟨[1, 2], none⟩, some rq⟩, 0, Hour, 0⟩,
       ⟨exampleClock, "http://a.test/y",
          ⟨200, [("Cache-Control", ["max-age=60"])], ⟨[3, 4], none⟩,
            some ⟨"GET", "http://a.test/y", []⟩⟩, 0, Hour, 0⟩]
    (0 : Int) ≤ 3 ∧
    ((NewMemoryHTTPCache 3).runCalls calls).currentSize = 2 ∧
    ((NewMemoryHTTPCache 3).runCalls calls).heldBytes ≤
      ((NewMemoryHTTPCache 3).runCalls calls).currentSize ∧
    ((NewMemoryHTTPCache 3).runCalls calls).currentSize ≤ 3 :=
  ⟨by decide, by decide,
   C4_byte_budget 3
    [⟨exampleClock, "http://a.test/x",
        ⟨200, [("Cache-Control", ["max-age=60"])], ⟨[1, 2], none⟩,
          some ⟨"GET", "http://a.test/x", []⟩⟩, 0, Hour, 0⟩,
     ⟨exampleClock, "http://a.test/y",
        ⟨200, [("Cache-Control", ["max-age=60"])], ⟨[3, 4], none⟩,
          some ⟨"GET", "http://a.test/y", []⟩⟩, 0, Hour, 0⟩]
    (by decide)⟩

/-! ## C5: the clamp -/

/-- C5, counterexample.  With `minTTL` ten seconds and `maxTTL` five seconds a
response that declares `max-age=3` is recorded with a lifetime of ten seconds,
above `maxTTL`; and on a cache that ignores headers a response that declares
`max-age=60` gets the lifetime `defaultTTL`, not the header-derived one. -/
theorem C5_counterexample :
    let res : Response :=
      ⟨200, [("Cache-Control", ["max-age=3"])], ⟨[], none⟩, some ⟨"GET", "u", []⟩⟩
    let out := (NewMemoryHTTPCache 100).Cache exampleClock "u" res (10 * Second) (5 * Second) 0
    let res2 : Response :=
      ⟨200, [("Cache-Control", ["max-age=60"])], ⟨[], none⟩, some ⟨"GET", "u", []⟩⟩
    let ignoring : MemoryHTTPCache := { NewMemoryHTTPCache 100 with IgnoreHeaders := true }
    ((GetResponseCacheDuration exampleClock res 0).1 = 3 * Second ∧
      Cache.clamp (Cache.baseTTL exampleClock (NewMemoryHTTPCache 100) res 0).1
        (10 * Second) (5 * Second) = 10 * Second ∧
      out.cache.cachedResponses.janitors = [("u:=", 10 * Second)] ∧
      ¬ (10 * Second ≤ 5 * Second)) ∧
    ((GetResponseCacheDuration exampleClock res2 (7 * Second)).1 = 60 * Second ∧
      Cache.clamp (Cache.baseTTL exampleClock ignoring res2 (7 * Second)).1 0 Hour
        = 7 * Second ∧
      (ignoring.Cache exampleClock "u" res2 0 Hour (7 * Second)).cache.cachedResponses.janitors
        = [("u:=", 7 * Second)]) := by
  decide

/-- C5, amended.  When `minTTL ≤ maxTTL`, the duration `Cache` uses lies in
`[minTTL, maxTTL]`: it is `minTTL` when the duration before clamping is below
`minTTL`, `maxTTL` when that is above `maxTTL`, and that duration otherwise.
The duration before clamping is the header-derived one unless the cache
ignores headers, and then it is `defaultTTL`.  A duration that is not positive
leaves the cache as it was.  A positive one is the lifetime with which `Cache`
writes the Vary record; and it is the lifetime with which `Cache` stores the
response: after the call `cachedResponses` is either what it was or the result
of one `Store` with that duration, and when the body is read and fits, it is
the `Store` of the response under its cache key with that duration, whose
janitor is due that duration after the call. -/
theorem C5_clamp_within_bounds (clk : Clock) (c : MemoryHTTPCache) (url : String)
    (res : Response) (minTTL maxTTL defaultTTL : Int) (hle : minTTL ≤ maxTTL) :
    let before := (Cache.baseTTL clk c res defaultTTL).1
    let used := Cache.clamp before minTTL maxTTL
    let out := c.Cache clk url res minTTL maxTTL defaultTTL
    (minTTL ≤ used ∧ used ≤ maxTTL) ∧
    (before < minTTL → used = minTTL) ∧
    (before > maxTTL → used = maxTTL) ∧
    (minTTL ≤ before → before ≤ maxTTL → used = before) ∧
    (c.IgnoreHeaders = false → before = (GetResponseCacheDuration clk res defaultTTL).1) ∧
    (c.IgnoreHeaders = true → before = defaultTTL) ∧
    (used ≤ 0 → out.cache = c) ∧
    (0 < used → mapGet out.cache.urlVaryHeaders.janitors url = some (clk.now + used)) ∧
    (0 < used → out.cache.urlVaryHeaders =
      c.urlVaryHeaders.Store clk.now url (GetVaryHeaderNames res) used) ∧
    (out.cache.cachedResponses = c.cachedResponses ∨
      ∃ key entry, out.cache.cachedResponses =
        c.cachedResponses.Store clk.now key entry used) ∧
    (∀ (req : Request) (limit : Int) (data : List Byte), 0 < used →
      res.Request = some req →
      ((res.Header.Get "Content-Length" = "" ∧ limit = c.maxSize) ∨
        (parseInt64 (res.Header.Get "Content-Length") = some limit ∧
          ¬ wrapInt64 (c.currentSize + limit) > c.maxSize)) →
      readAllLimited res.Body limit = .ok data →
      ¬ c.currentSize + data.length > c.maxSize →
      out.cache.cachedResponses =
        c.cachedResponses.Store clk.now (GetCacheKey (GetVaryHeaderNames res) req)
          { URL := "", StatusCode := res.StatusCode, Body := data, FreshUntil := 0,
            ResponseHeaders := res.Header, RequestHeaders := req.Header } used ∧
      mapGet out.cache.cachedResponses.janitors (GetCacheKey (GetVaryHeaderNames res) req) =
        some (clk.now + used)) := by
  intro before used out
  have hvary : 0 < used → out.cache.urlVaryHeaders =
      c.urlVaryHeaders.Store clk.now url (GetVaryHeaderNames res) used := by
    intro h
    refine Cache_cases (fun o => o.cache.urlVaryHeaders =
        c.urlVaryHeaders.Store clk.now url (GetVaryHeaderNames res) used)
      clk c url res minTTL maxTTL defaultTTL used rfl _ rfl ?_ ?_ ?_ ?_ ?_
    · intro h0; exact absurd h (not_lt.mpr h0)
    · intro _ _; rfl
    · intro _ _ _; rfl
    · intro _ _ _ _; rfl
    · intro req limit _ _ _
      refine readAndStore_cases (fun o => o.cache.urlVaryHeaders =
        c.urlVaryHeaders.Store clk.now url (GetVaryHeaderNames res) used)
        clk _ res req _ _ limit ?_ ?_ ?_
      · intro _ _; rfl
      · intro _ _ _; rfl
      · intro _ _ _; rfl
  have hone : out.cache.cachedResponses = c.cachedResponses ∨
      ∃ key entry, out.cache.cachedResponses =
        c.cachedResponses.Store clk.now key entry used := by
    refine Cache_cases (fun o => o.cache.cachedResponses = c.cachedResponses ∨
        ∃ key entry, o.cache.cachedResponses =
          c.cachedResponses.Store clk.now key entry used)
      clk c url res minTTL maxTTL defaultTTL used rfl _ rfl ?_ ?_ ?_ ?_ ?_
    · intro _; exact Or.inl rfl
    · intro _ _; exact Or.inl rfl
    · intro _ _ _; exact Or.inl rfl
    · intro _ _ _ _; exact Or.inl rfl
    · intro req limit _ _ _
      refine readAndStore_cases (fun o => o.cache.cachedResponses = c.cachedResponses ∨
        ∃ key entry, o.cache.cachedResponses =
          c.cachedResponses.Store clk.now key entry used)
        clk _ res req _ _ limit ?_ ?_ ?_
      · intro _ _; exact Or.inl rfl
      · intro _ _ _; exact Or.inl rfl
      · intro data _ _; exact Or.inr ⟨_, _, rfl⟩
  refine ⟨?_, ?_, ?_, ?_, ?_, ?_, ?_, ?_, hvary, hone, ?_⟩
  · simp only [used, Cache.clamp]; split_ifs <;> omega
  · intro h; simp only [used, Cache.clamp]; rw [if_pos h]
  · intro h; simp only [used, Cache.clamp]; split_ifs <;> omega
  · intro h1 h2; simp only [used, Cache.clamp]; split_ifs <;> omega
  · intro h; simp [before, Cache.baseTTL, h]
  · intro h; simp [before, Cache.baseTTL, h]
  · intro h
    simp only [out, MemoryHTTPCache.Cache]
    rw [baseTTL_err]
    simp only []
    rw [if_pos h]
  · intro h
    rw [hvary h]
    simp [MemoryKVStore.Store, h, mapSet, mapGet]
  · intro req limit data hpos hreq hlimit hread hfit
    have hout : out = Cache.readAndStore clk
        { c with
          urlVaryHeaders := c.urlVaryHeaders.Store clk.now url (GetVaryHeaderNames res) used }
        res req (GetCacheKey (GetVaryHeaderNames res) req) used limit :=
      Cache_of_read clk c url res req minTTL maxTTL defaultTTL limit hreq hpos hlimit
    have hstore : out.cache.cachedResponses =
        c.cachedResponses.Store clk.now (GetCacheKey (GetVaryHeaderNames res) req)
          { URL := "", StatusCode := res.StatusCode, Body := data, FreshUntil := 0,
            ResponseHeaders := res.Header, RequestHeaders := req.Header } used := by
      rw [hout]
      unfold Cache.readAndStore
      rw [hread]
      simp only []
      rw [if_neg hfit]
    refine ⟨hstore, ?_⟩
    rw [hstore]
    simp [MemoryKVStore.Store, hpos, mapSet, mapGet]

/-- C5, witness: a declared lifetime of three seconds, clamped into ten
seconds to one hour; the response is stored with a janitor due after ten
seconds. -/
theorem C5_clamp_within_bounds_witness :
    (10 * Second ≤ Hour) ∧
    Cache.clamp (Cache.baseTTL exampleClock (NewMemoryHTTPCache 100)
      ⟨200, [("Cache-Control", ["max-age=3"])], ⟨[65], none⟩, some ⟨"GET", "u", []⟩⟩ 0).1
      (10 * Second) Hour = 10 * Second ∧
    mapGet ((NewMemoryHTTPCache 100).Cache exampleClock "u"
      ⟨200, [("Cache-Control", ["max-age=3"])], ⟨[65], none⟩, some ⟨"GET", "u", []⟩⟩
      (10 * Second) Hour 0).cache.cachedResponses.janitors "u:=" = some (10 * Second) :=
  ⟨by decide,
   (C5_clamp_within_bounds exampleClock (NewMemoryHTTPCache 100) "u"
      ⟨200, [("Cache-Control", ["max-age=3"])], ⟨[65], none⟩, some ⟨"GET", "u", []⟩⟩
      (10 * Second) Hour 0 (by decide)).2.1 (by decide),
   ((C5_clamp_within_bounds exampleClock (NewMemoryHTTPCache 100) "u"
      ⟨200, [("Cache-Control", ["max-age=3"])], ⟨[65], none⟩, some ⟨"GET", "u", []⟩⟩
      (10 * Second) Hour 0 (by decide)).2.2.2.2.2.2.2.2.2.2
      ⟨"GET", "u", []⟩ 100 [65] (by decide) rfl (Or.inl ⟨by decide, rfl⟩) rfl
      (by decide)).2⟩

/-! ## C6: nothing is cached for a duration that is not positive -/

/-- C6.  When the clamped duration is not positive, `Cache` returns
`res.Body` itself, takes no byte from it, and the cache (`cachedResponses`,
`urlVaryHeaders`, `currentSize` and the rest) is what it was.  This is what
happens for `minTTL = 0`, `defaultTTL = 0` and a response without
`Cache-Control`, without `Expires` and with a status other than 301. -/
theorem C6_not_positive_ttl_leaves_cache :
    (∀ (clk : Clock) (c : MemoryHTTPCache) (url : String) (res : Response)
        (minTTL maxTTL defaultTTL : Int),
        Cache.clamp (Cache.baseTTL clk c res defaultTTL).1 minTTL maxTTL ≤ 0 →
        c.Cache clk url res minTTL maxTTL defaultTTL = ⟨c, .body res.Body, 0⟩) ∧
    (∀ (clk : Clock) (c : MemoryHTTPCache) (url : String) (res : Response) (maxTTL : Int),
        res.Header.Get "Cache-Control" = "" → res.Header.Get "Expires" = "" →
        res.StatusCode ≠ 301 →
        c.Cache clk url res 0 maxTTL 0 = ⟨c, .body res.Body, 0⟩) := by
  have main : ∀ (clk : Clock) (c : MemoryHTTPCache) (url : String) (res : Response)
      (minTTL maxTTL defaultTTL : Int),
      Cache.clamp (Cache.baseTTL clk c res defaultTTL).1 minTTL maxTTL ≤ 0 →
      c.Cache clk url res minTTL maxTTL defaultTTL = ⟨c, .body res.Body, 0⟩ := by
    intro clk c url res minTTL maxTTL defaultTTL h
    unfold MemoryHTTPCache.Cache
    rw [baseTTL_err]
    simp only []
    rw [if_pos h]
  refine ⟨main, ?_⟩
  intro clk c url res maxTTL hcc hex hst
  apply main
  have hb : (Cache.baseTTL clk c res 0).1 = 0 := by
    unfold Cache.baseTTL GetResponseCacheDuration
    simp [hcc, hex, hst]
  rw [hb]
  unfold Cache.clamp
  split_ifs <;> omega

/-- C6, witness: a plain 200 response on a cache that already holds an
entry. -/
theorem C6_not_positive_ttl_leaves_cache_witness :
    let c : MemoryHTTPCache :=
      { NewMemoryHTTPCache 100 with
        urlVaryHeaders := ⟨[("v", ["Accept"])], [("v", 5)]⟩, currentSize := 3 }
    let res : Response := ⟨200, [("Content-Type", ["text/plain"])], ⟨[1, 2], none⟩, none⟩
    res.Header.Get "Cache-Control" = "" ∧ res.Header.Get "Expires" = "" ∧
    res.StatusCode ≠ 301 ∧
    c.Cache exampleClock "u" res 0 Hour 0 = ⟨c, .body res.Body, 0⟩ :=
  ⟨by decide, by decide, by decide,
   C6_not_positive_ttl_leaves_cache.2 exampleClock _ "u" _ Hour
     (by decide) (by decide) (by decide)⟩

/-! ## C7: a declared length below the real one -/

/-- C7.  For a response with a request and a positive clamped duration whose
`Content-Length` declares `n` with `0 ≤ n < len(body)` and
`currentSize + n ≤ maxSize`, `Cache` stores the first `n` bytes of the body as
the cached body under the cache key, adds `n` to `currentSize`, and returns a
reader over exactly those `n` bytes. -/
theorem C7_short_content_length (clk : Clock) (c : MemoryHTTPCache) (url : String)
    (res : Response) (req : Request) (minTTL maxTTL defaultTTL n : Int)
    (hreq : res.Request = some req)
    (hpos : 0 < Cache.clamp (Cache.baseTTL clk c res defaultTTL).1 minTTL maxTTL)
    (hlen : parseInt64 (res.Header.Get "Content-Length") = some n)
    (h0 : 0 ≤ n) (hn : n < res.Body.data.length)
    (hfit : c.currentSize + n ≤ c.maxSize)
    (hcur : inInt64 c.currentSize) (hmax : inInt64 c.maxSize) :
    let out := c.Cache clk url res minTTL maxTTL defaultTTL
    let first := res.Body.data.take n.toNat
    (first.length : Int) = n ∧
    out.ret = .body ⟨first, none⟩ ∧
    out.consumed = n.toNat ∧
    out.cache.cachedResponses.Get (GetCacheKey (GetVaryHeaderNames res) req) =
      some { URL := "", StatusCode := res.StatusCode, Body := first, FreshUntil := 0,
             ResponseHeaders := res.Header, RequestHeaders := req.Header } ∧
    out.cache.currentSize = c.currentSize + n := by
  intro out first
  have hfirst : (first.length : Int) = n := by
    simp only [first, List.length_take]
    omega
  have hw : wrapInt64 (c.currentSize + n) = c.currentSize + n := by
    apply wrapInt64_of_inInt64
    unfold inInt64 at *
    omega
  have hread : readAllLimited res.Body n = .ok first := by
    unfold readAllLimited
    by_cases hz : n ≤ 0
    · have : n = 0 := by omega
      subst this
      simp [first]
    · rw [if_neg hz, if_pos (by omega)]
  have hout : out = ⟨{ c with
        urlVaryHeaders := c.urlVaryHeaders.Store clk.now url (GetVaryHeaderNames res)
          (Cache.clamp (Cache.baseTTL clk c res defaultTTL).1 minTTL maxTTL)
        cachedResponses := c.cachedResponses.Store clk.now
          (GetCacheKey (GetVaryHeaderNames res) req)
          { URL := "", StatusCode := res.StatusCode, Body := first, FreshUntil := 0,
            ResponseHeaders := res.Header, RequestHeaders := req.Header }
          (Cache.clamp (Cache.baseTTL clk c res defaultTTL).1 minTTL maxTTL)
        currentSize := c.currentSize + first.length },
      .body ⟨first, none⟩, first.length⟩ := by
    simp only [out]
    rw [Cache_of_pos clk c url res req minTTL maxTTL defaultTTL hreq hpos]
    simp only []
    rw [if_pos (parseInt64_ne_empty hlen), hlen]
    simp only [hw]
    rw [if_neg (by omega)]
    unfold Cache.readAndStore
    rw [hread]
    simp only []
    rw [if_neg (by rw [hfirst]; omega)]
  refine ⟨hfirst, ?_, ?_, ?_, ?_⟩
  · rw [hout]
  · rw [hout]
    simp only []
    omega
  · rw [hout]
    simp [MemoryKVStore.Get, MemoryKVStore.Store, mapSet, mapGet]
  · rw [hout]
    simp only [hfirst]

/-- C7, witness: the response of `TestContentLengthTooSmall`. -/
theorem C7_short_content_length_witness :
    let res : Response :=
      ⟨200, [("Content-Length", ["1"]), ("Cache-Control", ["max-age=1000"])],
        ⟨[116, 101, 115, 116], none⟩, some ⟨"GET", "http://localhost:8080/test", []⟩⟩
    ((NewMemoryHTTPCache 10000000000).Cache exampleClock "http://localhost:8080/test"
      res 0 Hour 0).ret = .body ⟨[116], none⟩ :=
  (C7_short_content_length exampleClock (NewMemoryHTTPCache 10000000000)
    "http://localhost:8080/test"
    ⟨200, [("Content-Length", ["1"]), ("Cache-Control", ["max-age=1000"])],
      ⟨[116, 101, 115, 116], none⟩, some ⟨"GET", "http://localhost:8080/test", []⟩⟩
    ⟨"GET", "http://localhost:8080/test", []⟩ 0 Hour 0 1
    rfl (by decide) (by decide) (by decide) (by decide) (by decide) (by decide)
    (by decide)).2.1

/-! ## C8: the body handed back under a short `Content-Length` -/

/-- C8, the code at the first input of `TestContentLengthTooSmall`: a cache of
ten gigabytes, `Content-Length: 1`, `Cache-Control: max-age=1000` and the
body `testtesttest`, cached with `minTTL` zero, `maxTTL` one hour and
`defaultTTL` zero.  The reader that `Cache` returns holds the single byte `t`,
not the twelve bytes of the body. -/
theorem C8_returned_body_is_cut :
    let body : List Byte := [116, 101, 115, 116, 116, 101, 115, 116, 116, 101, 115, 116]
    let res : Response :=
      ⟨200, [("Content-Length", ["1"]), ("Cache-Control", ["max-age=1000"])],
        ⟨body, none⟩, some ⟨"GET", "http://localhost:8080/test", []⟩⟩
    let out := (NewMemoryHTTPCache 10000000000).Cache exampleClock
      "http://localhost:8080/test" res 0 Hour 0
    out.ret = .body ⟨[116], none⟩ ∧ out.ret ≠ .body ⟨body, none⟩ := by
  decide

/-! ## C9: a declared length beyond the budget -/

/-- C9, the code at a declared length of `2^63 - 1`.  A cache of ten bytes
that holds one byte receives a response with
`Content-Length: 9223372036854775807` and the body `ab`.  The declared length
exceeds the budget, but the 64-bit sum `currentSize + contentLength` wraps to
a negative number, the check passes, and `Cache` reads the two bytes and
stores them. -/
theorem C9_declared_length_wraps :
    let first : Response :=
      ⟨200, [("Cache-Control", ["max-age=60"])], ⟨[120], none⟩,
        some ⟨"GET", "http://a.test/x", []⟩⟩
    let c := ((NewMemoryHTTPCache 10).Cache exampleClock "http://a.test/x" first 0 Hour 0).cache
    let res : Response :=
      ⟨200, [("Cache-Control", ["max-age=60"]), ("Content-Length", ["9223372036854775807"])],
        ⟨[97, 98], none⟩, some ⟨"GET", "http://a.test/y", []⟩⟩
    let out := c.Cache exampleClock "http://a.test/y" res 0 Hour 0
    c.currentSize = 1 ∧ c.maxSize = 10 ∧
    parseInt64 (res.Header.Get "Content-Length") = some 9223372036854775807 ∧
    c.currentSize + 9223372036854775807 > c.maxSize ∧
    wrapInt64 (c.currentSize + 9223372036854775807) = -9223372036854775808 ∧
    out.consumed = 2 ∧
    out.cache.currentSize = 3 ∧
    (out.cache.cachedResponses.Get "http://a.test/y:=").map (fun r => r.Body)
      = some [97, 98] := by
  decide

/-! ## C10: a read error -/

/-- C11, counterexample.  With `minTTL` and `defaultTTL` zero, a response
without caching headers and with `Content-Length: abc` gets its body back and
no error: the early return for a duration that is not positive comes before
the header is parsed. -/
theorem C11_counterexample :
    let res : Response :=
      ⟨200, [("Content-Length", ["abc"])], ⟨[1, 2], none⟩, some ⟨"GET", "u", []⟩⟩
    res.Header.Get "Content-Length" ≠ "" ∧
    parseInt64 (res.Header.Get "Content-Length") = none ∧
    ((NewMemoryHTTPCache 100).Cache exampleClock "u" res 0 Hour 0).ret = .body res.Body := by
  decide

/-- C11, amended.  For every response that has a request, whose clamped
duration is positive, and whose `Content-Length` header is present and does
not parse as a base-10 integer of 64 bits, `Cache` returns the parse error and
no body, takes no byte from the response body, and stores no response. -/
theorem C11_parse_error (clk : Clock) (c : MemoryHTTPCache) (url : String)
    (res : Response) (req : Request) (minTTL maxTTL defaultTTL : Int)
    (hreq : res.Request = some req)
    (hpos : 0 < Cache.clamp (Cache.baseTTL clk c res defaultTTL).1 minTTL maxTTL)
    (hpresent : res.Header.Get "Content-Length" ≠ "")
    (hparse : parseInt64 (res.Header.Get "Content-Length") = none) :
    let out := c.Cache clk url res minTTL maxTTL defaultTTL
    out.ret = .parseError (res.Header.Get "Content-Length") ∧
    out.consumed = 0 ∧
    out.cache.cachedResponses = c.cachedResponses ∧
    out.cache.currentSize = c.currentSize := by
  intro out
  have hout : out = ⟨{ c with
        urlVaryHeaders := c.urlVaryHeaders.Store clk.now url (GetVaryHeaderNames res)
          (Cache.clamp (Cache.baseTTL clk c res defaultTTL).1 minTTL maxTTL) },
      .parseError (res.Header.Get "Content-Length"), 0⟩ := by
    simp only [out]
    rw [Cache_of_pos clk c url res req minTTL maxTTL defaultTTL hreq hpos]
    simp only []
    rw [if_pos hpresent, hparse]
  rw [hout]
  exact ⟨rfl, rfl, rfl, rfl⟩

/-- C11, witness: `Content-Length: abc` on a response that declares
`max-age=60`. -/
theorem C11_parse_error_witness :
    ((NewMemoryHTTPCache 100).Cache exampleClock "u"
      ⟨200, [("Cache-Control", ["max-age=60"]), ("Content-Length", ["abc"])],
        ⟨[1, 2], none⟩, some ⟨"GET", "u", []⟩⟩ 0 Hour 0).ret = .parseError "abc" :=
  (C11_parse_error exampleClock (NewMemoryHTTPCache 100) "u"
    ⟨200, [("Cache-Control", ["max-age=60"]), ("Content-Length", ["abc"])],
      ⟨[1, 2], none⟩, some ⟨"GET", "u", []⟩⟩ ⟨"GET", "u", []⟩ 0 Hour 0
    rfl (by decide) (by decide) (by decide)).1

/-! ## C12: `no-store` and `no-cache` -/

/-- The loop of `ParseCacheControl` returns zero as soon as one of the
directives that remain reads `no-store` or `no-cache` after the blanks around
it are cut and its letters are lowered. -/
theorem ParseCacheControl_loop_uncachable :
    ∀ (ds : List String) (ttl : Int),
      (∃ d ∈ ds, stringsToLower (stringsTrimBlank d) = "no-store" ∨
        stringsToLower (stringsTrimBlank d) = "no-cache") →
      ParseCacheControl.loop ds ttl = 0 := by
  intro ds
  induction ds with
  | nil => intro ttl h; obtain ⟨d, hd, _⟩ := h; cases hd
  | cons e rest ih =>
    intro ttl h
    unfold ParseCacheControl.loop
    simp only []
    by_cases hu : UncachableHeaderValues.contains
        ((stringsSplitN2 (stringsToLower (stringsTrimBlank e)) '=').headD "") = true
    · rw [if_pos hu]
    · rw [if_neg hu]
      have hrest : ∃ d ∈ rest, stringsToLower (stringsTrimBlank d) = "no-store" ∨
          stringsToLower (stringsTrimBlank d) = "no-cache" := by
        obtain ⟨d, hd, hv⟩ := h
        rcases List.mem_cons.mp hd with rfl | hd'
        · exfalso
          apply hu
          rcases hv with hv | hv <;> rw [hv] <;> decide
        · exact ⟨d, hd', hv⟩
      split_ifs
      · split
        · split
          · exact ih _ hrest
          · exact ih _ hrest
        · exact ih _ hrest
      · exact ih _ hrest

/-- C12, counterexample.  The header `max-age=60,<TAB>no-store` holds the
directive `no-store` once the whitespace around it is trimmed, and
`ParseCacheControl` returns sixty seconds: it cuts blanks only, not tabs. -/
theorem C12_counterexample :
    let header := String.mk ("max-age=60,".data ++ [Char.ofNat 9] ++ "no-store".data)
    (∃ d ∈ stringsSplit header ',', stringsToLower (stringsTrimSpace d) = "no-store") ∧
    ParseCacheControl header 0 = 60 * Second ∧ ParseCacheControl header 0 ≠ 0 := by
  decide

/-- C12, amended.  For every `Cache-Control` header value in which at least
one comma-separated directive, after the blanks (U+0020) around it are cut
and letter case is ignored, equals `no-store` or `no-cache`,
`ParseCacheControl` returns 0 for every default duration, whatever other
directives are present and in whatever order. -/
theorem C12_uncachable_is_zero (header : String) (defaultDuration : Int)
    (h : ∃ d ∈ stringsSplit header ',',
      stringsToLower (stringsTrimBlank d) = "no-store" ∨
      stringsToLower (stringsTrimBlank d) = "no-cache") :
    ParseCacheControl header defaultDuration = 0 :=
  ParseCacheControl_loop_uncachable _ _ h

/-- C12, witness: `max-age=60, No-Store , public`. -/
theorem C12_uncachable_is_zero_witness :
    ParseCacheControl "max-age=60, No-Store , public" (5 * Second) = 0 :=
  C12_uncachable_is_zero "max-age=60, No-Store , public" (5 * Second)
    ⟨" No-Store ", by decide, Or.inl (by decide)⟩

/-! ## Decimal numerals -/

theorem digitsValue_append (l1 l2 : List Char) :
    ∀ acc : Nat, digitsValue (l1 ++ l2) acc =
      (digitsValue l1 acc).bind (fun v => digitsValue l2 v) := by
  induction l1 with
  | nil => intro acc; simp [digitsValue]
  | cons c cs ih =>
    intro acc
    simp only [List.cons_append, digitsValue]
    split_ifs
    · exact ih _
    · rfl

theorem digitChar_value (d : Nat) (hd : d < 10) :
    (Nat.digitChar d).isDigit = true ∧ (Nat.digitChar d).toNat - 48 = d := by
  interval_cases d <;> decide

/-- The digits that `Nat.toDigitsCore` puts in front of its accumulator are
not empty and have the value of the number. -/
theorem toDigitsCore_value :
    ∀ (fuel n : Nat) (ds : List Char), n < fuel →
      ∃ l, Nat.toDigitsCore 10 fuel n ds = l ++ ds ∧ l ≠ [] ∧ digitsValue l 0 = some n := by
  intro fuel
  induction fuel with
  | zero => intro n ds h; omega
  | succ fuel ih =>
    intro n ds h
    obtain ⟨hdig, hval⟩ := digitChar_value (n % 10) (Nat.mod_lt _ (by decide))
    by_cases h0 : n / 10 = 0
    · refine ⟨[Nat.digitChar (n % 10)], ?_, by simp, ?_⟩
      · simp [Nat.toDigitsCore, h0]
      · simp only [digitsValue, hdig, if_true, hval]
        congr 1
        omega
    · obtain ⟨l, hl, _, hv⟩ := ih (n / 10) (Nat.digitChar (n % 10) :: ds) (by omega)
      refine ⟨l ++ [Nat.digitChar (n % 10)], ?_, by simp, ?_⟩
      · simp [Nat.toDigitsCore, h0, hl]
      · rw [digitsValue_append, hv]
        simp only [Option.bind_some, digitsValue, hdig, if_true]
        rw [hval]
        show some (n / 10 * 10 + n % 10) = some n
        congr 1
        omega

/-- Reading the decimal numeral that `toString` prints gives the number
back. -/
theorem toString_digits (n : Nat) :
    (toString n).data ≠ [] ∧ digitsValue (toString n).data 0 = some n := by
  obtain ⟨l, hl, hne, hv⟩ := toDigitsCore_value (n + 1) n [] (by omega)
  have hs : (toString n).data = l := by
    show (Nat.repr n).data = l
    simp only [Nat.repr, Nat.toDigits, List.asString, hl, List.append_nil]
  rw [hs]
  exact ⟨hne, hv⟩

theorem digitsValue_head_isDigit {c : Char} {cs : List Char} {acc n : Nat}
    (h : digitsValue (c :: cs) acc = some n) : c.isDigit = true := by
  simp only [digitsValue] at h
  by_contra hc
  rw [if_neg hc] at h
  cases h

/-- A numeral of digits only whose value fits 64 bits is read by
`strconv.Atoi`. -/
theorem strconvAtoi_of_digits (s : String) (n : Nat) (hne : s.data ≠ [])
    (hv : digitsValue s.data 0 = some n) (hn : (n : Int) ≤ 9223372036854775807) :
    strconvAtoi s = some (n : Int) := by
  unfold strconvAtoi parseInt64
  cases hs : s.data with
  | nil => exact absurd hs hne
  | cons c cs =>
    rw [hs] at hv
    have hdig := digitsValue_head_isDigit hv
    have hminus : c ≠ '-' := by rintro rfl; exact absurd hdig (by decide)
    have hplus : c ≠ '+' := by rintro rfl; exact absurd hdig (by decide)
    have hsigned : (match c :: cs with
        | '-' :: ds => (true, ds)
        | '+' :: ds => (false, ds)
        | ds => (false, ds)) = (false, c :: cs) := by
      split
      · rename_i heq; simp only [List.cons.injEq] at heq; exact absurd heq.1 hminus
      · rename_i heq; simp only [List.cons.injEq] at heq; exact absurd heq.1 hplus
      · rfl
    simp only [hsigned, hv]
    have : (-9223372036854775808 : Int) ≤ (n : Int) ∧ (n : Int) ≤ 9223372036854775807 :=
      ⟨by omega, hn⟩
    simp [this]

/-! ## C13: the declared age -/

theorem splitFirst_max_age (ds : List Char) :
    splitFirstChars '=' ("max-age=".data ++ ds) = ["max-age".data, ds] := rfl

theorem splitFirst_s_max_age (ds : List Char) :
    splitFirstChars '=' ("s-max-age=".data ++ ds) = ["s-max-age".data, ds] := rfl

/-- A directive that is neither an age nor `no-store` nor `no-cache` leaves
the duration of the loop as it is. -/
theorem ParseCacheControl_loop_skip (e : String) (rest : List String) (ttl : Int)
    (h1 : directiveName e ≠ "no-store") (h2 : directiveName e ≠ "no-cache")
    (h3 : directiveName e ≠ "max-age") (h4 : directiveName e ≠ "s-max-age") :
    ParseCacheControl.loop (e :: rest) ttl = ParseCacheControl.loop rest ttl := by
  have key : ∀ name : String, name ≠ "no-store" → name ≠ "no-cache" →
      ¬ UncachableHeaderValues.contains name = true := by
    intro name a b
    simp [UncachableHeaderValues, a, b]
  have hu := key _ h1 h2
  unfold directiveName at h3 h4 hu
  rw [ParseCacheControl.loop, if_neg hu, if_neg (not_or.mpr ⟨h3, h4⟩)]

theorem ParseCacheControl_loop_skip_all :
    ∀ (pre rest : List String) (ttl : Int),
      (∀ e ∈ pre, directiveName e ≠ "no-store" ∧ directiveName e ≠ "no-cache" ∧
        directiveName e ≠ "max-age" ∧ directiveName e ≠ "s-max-age") →
      ParseCacheControl.loop (pre ++ rest) ttl = ParseCacheControl.loop rest ttl := by
  intro pre
  induction pre with
  | nil => intro rest ttl _; rfl
  | cons e pre ih =>
    intro rest ttl h
    obtain ⟨h1, h2, h3, h4⟩ := h e (List.mem_cons_self _ _)
    rw [List.cons_append, ParseCacheControl_loop_skip e _ ttl h1 h2 h3 h4]
    exact ih rest ttl (fun x hx => h x (List.mem_cons_of_mem _ hx))

/-- An age directive with the decimal numeral of `N` sets the duration of the
loop to `N` seconds in 64 bits. -/
theorem ParseCacheControl_loop_age (d : String) (rest : List String) (ttl : Int) (N : Nat)
    (hd : stringsToLower (stringsTrimBlank d) = "max-age=" ++ toString N ∨
      stringsToLower (stringsTrimBlank d) = "s-max-age=" ++ toString N)
    (hN : N ≤ 9223372036) :
    ParseCacheControl.loop (d :: rest) ttl =
      ParseCacheControl.loop rest (wrapInt64 ((N : Int) * Second)) := by
  obtain ⟨hne, hv⟩ := toString_digits N
  have hparts : stringsSplitN2 (stringsToLower (stringsTrimBlank d)) '=' =
      ["max-age", toString N] ∨
      stringsSplitN2 (stringsToLower (stringsTrimBlank d)) '=' =
      ["s-max-age", toString N] := by
    rcases hd with hd | hd
    · left
      rw [hd]
      rfl
    · right
      rw [hd]
      rfl
  have hatoi : strconvAtoi (toString N) = some (N : Int) :=
    strconvAtoi_of_digits _ N hne hv (by omega)
  rw [ParseCacheControl.loop]
  rcases hparts with hp | hp
  · simp only [hp, List.headD_cons, true_or, if_true, hatoi]
    exact if_neg (by decide)
  · simp only [hp, List.headD_cons, or_true, if_true, hatoi]
    exact if_neg (by decide)

/-- C13, counterexample.  `max-age=9223372037` is the only directive, and
`ParseCacheControl` returns a negative duration: the product of the seconds and
`time.Second` does not fit the 64 bits of a `time.Duration`. -/
theorem C13_counterexample :
    stringsSplit "max-age=9223372037" ',' = ["max-age=" ++ toString 9223372037] ∧
    ParseCacheControl "max-age=9223372037" 0 = -9223372036709551616 ∧
    ParseCacheControl "max-age=9223372037" 0 ≠ 9223372037 * Second := by
  decide

/-- C13, amended.  For every `N ≤ 9223372036` (the seconds that a
`time.Duration` can hold) and every `Cache-Control` header whose
comma-separated directives hold one that reads `max-age=N` or `s-max-age=N`
once the blanks around it are cut and its letters are lowered, and otherwise
no directive named `max-age`, `s-max-age`, `no-store` or `no-cache`,
`ParseCacheControl` returns exactly `N` seconds, whatever the default
duration. -/
theorem C13_declared_age (header : String) (defaultDuration : Int) (N : Nat)
    (pre post : List String) (d : String)
    (hsplit : stringsSplit header ',' = pre ++ d :: post)
    (hd : stringsToLower (stringsTrimBlank d) = "max-age=" ++ toString N ∨
      stringsToLower (stringsTrimBlank d) = "s-max-age=" ++ toString N)
    (hother : ∀ e ∈ pre ++ post, directiveName e ≠ "no-store" ∧
      directiveName e ≠ "no-cache" ∧ directiveName e ≠ "max-age" ∧
      directiveName e ≠ "s-max-age")
    (hN : N ≤ 9223372036) :
    ParseCacheControl header defaultDuration = (N : Int) * Second := by
  unfold ParseCacheControl
  rw [hsplit, ParseCacheControl_loop_skip_all pre _ _
    (fun e he => hother e (List.mem_append_left _ he)),
    ParseCacheControl_loop_age d post _ N hd hN]
  have hpost := ParseCacheControl_loop_skip_all post [] (wrapInt64 ((N : Int) * Second))
    (fun e he => hother e (List.mem_append_right _ he))
  rw [List.append_nil] at hpost
  rw [hpost]
  simp only [ParseCacheControl.loop]
  apply wrapInt64_of_inInt64
  unfold inInt64 Second
  omega

/-- C13, witness: `public, Max-Age=60, must-revalidate`. -/
theorem C13_declared_age_witness :
    ParseCacheControl "public, Max-Age=60, must-revalidate" 0 = 60 * Second :=
  C13_declared_age "public, Max-Age=60, must-revalidate" 0 60
    ["public"] [" must-revalidate"] " Max-Age=60"
    (by decide) (Or.inl (by decide)) (by decide) (by decide)

/-! ## C14: the sign of the duration -/

/-- The loop of `ParseCacheControl` keeps a duration that is not negative when
every age that parses lies between zero and the seconds a `time.Duration` can
hold. -/
theorem ParseCacheControl_loop_nonneg :
    ∀ (ds : List String) (ttl : Int), 0 ≤ ttl →
      (∀ e ∈ ds, ∀ (name value : String) (tail : List String) (seconds : Int),
        stringsSplitN2 (stringsToLower (stringsTrimBlank e)) '=' = name :: value :: tail →
        (name = "max-age" ∨ name = "s-max-age") → strconvAtoi value = some seconds →
        0 ≤ seconds ∧ seconds ≤ 9223372036) →
      0 ≤ ParseCacheControl.loop ds ttl := by
  intro ds
  induction ds with
  | nil => intro ttl h _; simpa [ParseCacheControl.loop] using h
  | cons e rest ih =>
    intro ttl httl h
    have hrest := fun x hx => h x (List.mem_cons_of_mem _ hx)
    have he := h e (List.mem_cons_self _ _)
    rw [ParseCacheControl.loop]
    by_cases hu : UncachableHeaderValues.contains
        ((stringsSplitN2 (stringsToLower (stringsTrimBlank e)) '=').headD "") = true
    · rw [if_pos hu]
    · rw [if_neg hu]
      by_cases hage : (stringsSplitN2 (stringsToLower (stringsTrimBlank e)) '=').headD ""
            = "max-age" ∨
          (stringsSplitN2 (stringsToLower (stringsTrimBlank e)) '=').headD "" = "s-max-age"
      · rw [if_pos hage]
        split
        · rename_i name value tail hparts
          rw [hparts] at hage
          simp only [List.headD_cons] at hage
          cases hs : strconvAtoi value with
          | none => exact ih ttl httl hrest
          | some seconds =>
            obtain ⟨h0, h1⟩ := he name value tail seconds hparts hage hs
            simp only []
            apply ih _ _ hrest
            rw [wrapInt64_of_inInt64 (by unfold inInt64 Second; omega)]
            unfold Second
            omega
        · exact ih ttl httl hrest
      · rw [if_neg hage]
        exact ih ttl httl hrest

/-- C14, counterexample.  At the instant 100 s, a response without
`Cache-Control` whose `Expires` header holds the timestamp of the instant 10 s
gets the duration of minus ninety seconds, not `max(t - now, 0) = 0`; and a
response with `Cache-Control: max-age=-5` gets minus five seconds. -/
theorem C14_counterexample :
    let clk : Clock :=
      ⟨100 * Second,
        fun s => if s = "Thu, 01 Jan 1970 00:00:10 GMT" then some (10 * Second) else none⟩
    let res : Response :=
      ⟨200, [("Expires", ["Thu, 01 Jan 1970 00:00:10 GMT"])], ⟨[], none⟩, none⟩
    let res2 : Response := ⟨200, [("Cache-Control", ["max-age=-5"])], ⟨[], none⟩, none⟩
    (res.Header.Get "Cache-Control" = "" ∧
      clk.parseRFC1123 (res.Header.Get "Expires") = some (10 * Second) ∧
      (GetResponseCacheDuration clk res 0).1 = -90 * Second ∧
      (GetResponseCacheDuration clk res 0).1 < 0 ∧
      (GetResponseCacheDuration clk res 0).1 ≠ max (10 * Second - clk.now) 0) ∧
    ((GetResponseCacheDuration clk res2 0).1 = -5 * Second ∧
      (GetResponseCacheDuration clk res2 0).1 < 0) := by
  decide

/-- C14, amended.  For a response with no `Cache-Control` header and an
`Expires` header holding an RFC-1123 timestamp `t`,
`GetResponseCacheDuration` returns `time.Until(t)`: the difference `t - now`,
cut to the range of a `time.Duration`, which is negative when `t` lies before
now and equals `max(t - now, 0)` when it does not.  For every fallback
duration that is not negative the returned duration is `≥ 0` when the
response has a `Cache-Control` header in which every age that parses lies
between 0 and 9223372036, and when it has none and its `Expires` header is
absent, is no timestamp, or holds a timestamp that is not before now. -/
theorem C14_duration_sign (clk : Clock) (res : Response) (defaultDuration : Int) :
    (∀ t, res.Header.Get "Cache-Control" = "" → res.Header.Get "Expires" ≠ "" →
      clk.parseRFC1123 (res.Header.Get "Expires") = some t →
      (GetResponseCacheDuration clk res defaultDuration).1 = timeUntil clk t ∧
      (inInt64 (t - clk.now) → timeUntil clk t = t - clk.now) ∧
      (t < clk.now → timeUntil clk t < 0) ∧
      (clk.now ≤ t → inInt64 (t - clk.now) → timeUntil clk t = max (t - clk.now) 0)) ∧
    (0 ≤ defaultDuration → res.Header.Get "Cache-Control" ≠ "" →
      (∀ e ∈ stringsSplit (res.Header.Get "Cache-Control") ',',
        ∀ (name value : String) (tail : List String) (seconds : Int),
        stringsSplitN2 (stringsToLower (stringsTrimBlank e)) '=' = name :: value :: tail →
        (name = "max-age" ∨ name = "s-max-age") → strconvAtoi value = some seconds →
        0 ≤ seconds ∧ seconds ≤ 9223372036) →
      0 ≤ (GetResponseCacheDuration clk res defaultDuration).1) ∧
    (0 ≤ defaultDuration → res.Header.Get "Cache-Control" = "" →
      (res.Header.Get "Expires" = "" ∨
        clk.parseRFC1123 (res.Header.Get "Expires") = none ∨
        ∃ t, clk.parseRFC1123 (res.Header.Get "Expires") = some t ∧ clk.now ≤ t) →
      0 ≤ (GetResponseCacheDuration clk res defaultDuration).1) := by
  refine ⟨?_, ?_, ?_⟩
  · intro t hcc hex ht
    refine ⟨?_, ?_, ?_, ?_⟩
    · unfold GetResponseCacheDuration
      simp only []
      rw [if_neg (not_not.mpr hcc), if_pos hex]
      simp only [ParseExpiresHeader, ht]
    · intro hr
      unfold inInt64 at hr
      unfold timeUntil
      simp only []
      rw [if_neg (by omega), if_neg (by omega)]
    · intro hlt
      unfold timeUntil
      simp only []
      split_ifs <;> omega
    · intro hle hr
      unfold inInt64 at hr
      unfold timeUntil
      simp only []
      rw [if_neg (by omega), if_neg (by omega)]
      exact (max_eq_left (by omega)).symm
  · intro hd hcc hages
    unfold GetResponseCacheDuration
    simp only []
    rw [if_pos hcc]
    exact ParseCacheControl_loop_nonneg _ _ hd hages
  · intro hd hcc hex
    unfold GetResponseCacheDuration
    simp only []
    rw [if_neg (not_not.mpr hcc)]
    by_cases he : res.Header.Get "Expires" ≠ ""
    · rw [if_pos he]
      rcases hex with hex | hex | ⟨t, ht, hle⟩
      · exact absurd hex he
      · simp only [ParseExpiresHeader, hex]
        exact hd
      · simp only [ParseExpiresHeader, ht]
        unfold timeUntil
        simp only []
        split_ifs <;> omega
    · rw [if_neg he]
      split_ifs
      · unfold Hour Second
        decide
      · exact hd

/-- C14, witness: at the instant 100 s, an `Expires` header with the timestamp
of the instant 160 s gives sixty seconds. -/
theorem C14_duration_sign_witness :
    (GetResponseCacheDuration
      ⟨100 * Second,
        fun s => if s = "Thu, 01 Jan 1970 00:02:40 GMT" then some (160 * Second) else none⟩
      ⟨200, [("Expires", ["Thu, 01 Jan 1970 00:02:40 GMT"])], ⟨[], none⟩, none⟩ 0).1
      = 60 * Second := by
  have h := ((C14_duration_sign
    ⟨100 * Second,
      fun s => if s = "Thu, 01 Jan 1970 00:02:40 GMT" then some (160 * Second) else none⟩
    ⟨200, [("Expires", ["Thu, 01 Jan 1970 00:02:40 GMT"])], ⟨[], none⟩, none⟩ 0).1
    (160 * Second) (by decide) (by decide) (by decide)).1
  rw [h]
  decide

/-! ## C15: a permanent redirect -/

/-- C15.  For every response that has neither a `Cache-Control` nor an
`Expires` header, `GetResponseCacheDuration` returns 365 days (365 times 24
hours) when the status code is 301, and the fallback duration for every other
status code; its error result is nil. -/
theorem C15_moved_permanently (clk : Clock) (res : Response) (defaultDuration : Int)
    (hcc : res.Header.Get "Cache-Control" = "") (hex : res.Header.Get "Expires" = "") :
    (res.StatusCode = 301 →
      (GetResponseCacheDuration clk res defaultDuration).1 = 365 * 24 * Hour) ∧
    (res.StatusCode ≠ 301 →
      (GetResponseCacheDuration clk res defaultDuration).1 = defaultDuration) ∧
    (GetResponseCacheDuration clk res defaultDuration).2 = none ∧
    365 * 24 * Hour = 31536000 * Second := by
  refine ⟨?_, ?_, GetResponseCacheDuration_err clk res defaultDuration, by decide⟩
  · intro hs
    unfold GetResponseCacheDuration
    simp only []
    rw [if_neg (not_not.mpr hcc), if_neg (not_not.mpr hex), if_pos hs]
  · intro hs
    unfold GetResponseCacheDuration
    simp only []
    rw [if_neg (not_not.mpr hcc), if_neg (not_not.mpr hex), if_neg hs]

/-- C15, witness: a 301 with a `Location` header only, and a 302 next to
it. -/
theorem C15_moved_permanently_witness :
    (GetResponseCacheDuration exampleClock
      ⟨301, [("Location", ["http://a.test/y"])], ⟨[], none⟩, none⟩ (5 * Second)).1
      = 365 * 24 * Hour ∧
    (GetResponseCacheDuration exampleClock
      ⟨302, [("Location", ["http://a.test/y"])], ⟨[], none⟩, none⟩ (5 * Second)).1
      = 5 * Second :=
  ⟨(C15_moved_permanently exampleClock
      ⟨301, [("Location", ["http://a.test/y"])], ⟨[], none⟩, none⟩ (5 * Second)
      (by decide) (by decide)).1 (by decide),
   (C15_moved_permanently exampleClock
      ⟨302, [("Location", ["http://a.test/y"])], ⟨[], none⟩, none⟩ (5 * Second)
      (by decide) (by decide)).2.1 (by decide)⟩

/-! ## C16: `Retry-After` -/

theorem digitsValue_le : ∀ (l : List Char) (acc n : Nat),
    digitsValue l acc = some n → acc ≤ n := by
  intro l
  induction l with
  | nil => intro acc n h; simp only [digitsValue, Option.some.injEq] at h; omega
  | cons c cs ih =>
    intro acc n h
    simp only [digitsValue] at h
    split_ifs at h
    have := ih _ _ h
    omega

/-- The function `leadingInt` reads a numeral of small value in full and stops
at the character after it. -/
theorem leadingInt_digits (rest : List Char)
    (hrest : rest = [] ∨ ∃ c r, rest = c :: r ∧ c.isDigit = false) :
    ∀ (l : List Char) (acc n : Nat), digitsValue l acc = some n →
      n ≤ 922337203685477580 → leadingInt (l ++ rest) acc = some (n, rest) := by
  intro l
  induction l with
  | nil =>
    intro acc n h _
    simp only [digitsValue, Option.some.injEq] at h
    subst h
    rcases hrest with rfl | ⟨c, r, rfl, hc⟩
    · rfl
    · simp [leadingInt, hc]
  | cons c cs ih =>
    intro acc n h hn
    have hdig := digitsValue_head_isDigit h
    simp only [digitsValue, hdig, if_true] at h
    have hle := digitsValue_le _ _ _ h
    simp only [List.cons_append, leadingInt, hdig, if_true]
    rw [if_neg (by omega), if_neg (by omega)]
    exact ih _ _ h hn

/-- One term of a duration: the decimal numeral of `N` followed by the unit
`s`. -/
theorem ParseDuration_term_seconds (mulFrac : Nat → Nat → Nat → Nat) (l : List Char)
    (N : Nat) (hne : l ≠ []) (hv : digitsValue l 0 = some N) (hN : N ≤ 9223372036) :
    ParseDuration.term mulFrac (l ++ ['s']) = some (N * 1000000000, []) := by
  have hlead : leadingInt (l ++ ['s']) 0 = some (N, ['s']) :=
    leadingInt_digits ['s'] (Or.inr ⟨'s', [], rfl, by decide⟩) l 0 N hv (by omega)
  cases hl : l with
  | nil => exact absurd hl hne
  | cons c cs =>
    rw [hl] at hv hlead
    have hdig := digitsValue_head_isDigit hv
    have hunit : durationUnit (String.mk ['s']) = some 1000000000 := by decide
    have hspan : unitSpan ['s'] = (['s'], []) := by decide
    have hfrac : ParseDuration.fraction ['s'] = (0, 0, ['s'], false) := by decide
    simp only [List.cons_append] at hlead ⊢
    simp only [ParseDuration.term, hdig, or_true, not_true_eq_false, if_false, hlead,
      List.length_cons, List.length_append, List.length_nil, hfrac, hspan, hunit]
    simp
    omega

/-- The decimal numeral of `N` followed by `s` is the duration of `N`
seconds, as long as a `time.Duration` can hold it. -/
theorem ParseDuration_seconds (mulFrac : Nat → Nat → Nat → Nat) (N : Nat)
    (hN : N ≤ 9223372036) :
    ParseDuration mulFrac (toString N ++ "s") = some ((N : Int) * Second) := by
  obtain ⟨hne, hv⟩ := toString_digits N
  have hterm := ParseDuration_term_seconds mulFrac _ N hne hv hN
  have hdata : (toString N ++ "s").data = (toString N).data ++ ['s'] := rfl
  unfold ParseDuration
  rw [hdata]
  cases hl : (toString N).data with
  | nil => exact absurd hl hne
  | cons c cs =>
    rw [hl] at hv hterm
    have hdig := digitsValue_head_isDigit hv
    have hminus : c ≠ '-' := by rintro rfl; exact absurd hdig (by decide)
    have hplus : c ≠ '+' := by rintro rfl; exact absurd hdig (by decide)
    have hsigned : ParseDuration.sign (c :: cs ++ ['s']) = (false, c :: (cs ++ ['s'])) := by
      unfold ParseDuration.sign
      split
      · rename_i heq; simp only [List.cons_append, List.cons.injEq] at heq
        exact absurd heq.1 hminus
      · rename_i heq; simp only [List.cons_append, List.cons.injEq] at heq
        exact absurd heq.1 hplus
      · rfl
    simp only [hsigned]
    rw [if_neg (by simp), if_neg (by simp)]
    simp only [List.cons_append] at hterm
    simp only [List.length_cons, ParseDuration.loop, hterm, Nat.zero_add]
    have hmod : N * 1000000000 % 18446744073709551616 = N * 1000000000 := by omega
    rw [hmod, if_neg (by omega)]
    simp only [Bool.false_eq_true, if_false]
    rw [if_neg (by omega)]
    simp [Second]

/-- C16, counterexample.  For `Retry-After: 5m`, which is neither a timestamp
nor a decimal numeral, `ParseRetryAfterHeader` returns five milliseconds
(`time.ParseDuration` accepts `5ms`), not the default of three seconds; and
for `Retry-After: 9223372037` it returns the default, not 9223372037
seconds. -/
theorem C16_counterexample :
    let res : Response := ⟨429, [("Retry-After", ["5m"])], ⟨[], none⟩, none⟩
    let res2 : Response := ⟨429, [("Retry-After", ["9223372037"])], ⟨[], none⟩, none⟩
    (exampleClock.parseRFC1123 "5m" = none ∧ digitsValue "5m".data 0 = none ∧
      ParseDuration (fun _ _ _ => 0) "5ms" = some (5 * Millisecond) ∧
      ParseRetryAfterHeader exampleClock (fun _ _ _ => 0) res (3 * Second) = 5 * Millisecond ∧
      ParseRetryAfterHeader exampleClock (fun _ _ _ => 0) res (3 * Second) ≠ 3 * Second) ∧
    (res2.Header.Get "Retry-After" = toString 9223372037 ∧
      ParseRetryAfterHeader exampleClock (fun _ _ _ => 0) res2 (3 * Second) = 3 * Second ∧
      ParseRetryAfterHeader exampleClock (fun _ _ _ => 0) res2 (3 * Second)
        ≠ 9223372037 * Second) := by
  decide

/-- C16, amended.  `ParseRetryAfterHeader` returns `time.Until(t)`, which is
`t - now` cut to the range of a `time.Duration`, when the `Retry-After` header
is an RFC-1123 timestamp `t`; it returns `N` seconds when the header is no
timestamp and is the decimal numeral of an integer `N` from 0 to 9223372036;
and it returns the supplied default for an absent header and for every header
value that is neither an RFC-1123 timestamp nor, with the letter `s` put
behind it, a duration that `time.ParseDuration` accepts. -/
theorem C16_retry_after (clk : Clock) (mulFrac : Nat → Nat → Nat → Nat) (res : Response)
    (defaultWait : Int) :
    (∀ t, res.Header.Get "Retry-After" ≠ "" →
      clk.parseRFC1123 (res.Header.Get "Retry-After") = some t →
      ParseRetryAfterHeader clk mulFrac res defaultWait = timeUntil clk t ∧
      (inInt64 (t - clk.now) →
        ParseRetryAfterHeader clk mulFrac res defaultWait = t - clk.now)) ∧
    (∀ N : Nat, res.Header.Get "Retry-After" = toString N →
      clk.parseRFC1123 (toString N) = none → N ≤ 9223372036 →
      ParseRetryAfterHeader clk mulFrac res defaultWait = (N : Int) * Second) ∧
    (res.Header.Get "Retry-After" = "" →
      ParseRetryAfterHeader clk mulFrac res defaultWait = defaultWait) ∧
    (clk.parseRFC1123 (res.Header.Get "Retry-After") = none →
      ParseDuration mulFrac (res.Header.Get "Retry-After" ++ "s") = none →
      ParseRetryAfterHeader clk mulFrac res defaultWait = defaultWait) := by
  refine ⟨?_, ?_, ?_, ?_⟩
  · intro t hne ht
    have h1 : ParseRetryAfterHeader clk mulFrac res defaultWait = timeUntil clk t := by
      unfold ParseRetryAfterHeader
      simp only []
      rw [if_pos hne, ht]
    refine ⟨h1, ?_⟩
    intro hr
    rw [h1]
    unfold inInt64 at hr
    unfold timeUntil
    simp only []
    rw [if_neg (by omega), if_neg (by omega)]
  · intro N hN hparse hle
    have hne : res.Header.Get "Retry-After" ≠ "" := by
      rw [hN]
      intro h
      exact (toString_digits N).1 (by rw [h])
    unfold ParseRetryAfterHeader
    simp only []
    rw [if_pos hne, hN, hparse, ParseDuration_seconds mulFrac N hle]
  · intro h
    unfold ParseRetryAfterHeader
    simp only []
    rw [if_neg (not_not.mpr h)]
  · intro hparse hdur
    unfold ParseRetryAfterHeader
    simp only []
    split_ifs
    · simp only [hparse, hdur]
    · rfl

/-- C16, witness: `Retry-After: 120`. -/
theorem C16_retry_after_witness :
    ParseRetryAfterHeader exampleClock (fun _ _ _ => 0)
      ⟨429, [("Retry-After", ["120"])], ⟨[], none⟩, none⟩ (3 * Second) = 120 * Second :=
  (C16_retry_after exampleClock (fun _ _ _ => 0)
    ⟨429, [("Retry-After", ["120"])], ⟨[], none⟩, none⟩ (3 * Second)).2.1 120
    (by decide) (by decide) (by decide)

/-! ## C17: the block window after a backoff status -/

theorem ParseDuration_loop_le (mulFrac : Nat → Nat → Nat → Nat) :
    ∀ (fuel : Nat) (s : List Char) (d r : Nat), d ≤ 9223372036854775808 →
      ParseDuration.loop mulFrac fuel s d = some r → r ≤ 9223372036854775808 := by
  intro fuel
  induction fuel with
  | zero => intro s d r _ h; simp [ParseDuration.loop] at h
  | succ fuel ih =>
    intro s d r hd h
    cases s with
    | nil =>
      simp only [ParseDuration.loop, Option.some.injEq] at h
      omega
    | cons c cs =>
      rw [ParseDuration.loop] at h
      cases ht : ParseDuration.term mulFrac (c :: cs) with
      | none => rw [ht] at h; cases h
      | some p =>
        obtain ⟨v, rest⟩ := p
        rw [ht] at h
        simp only [] at h
        by_cases hover : (d + v) % 18446744073709551616 > 9223372036854775808
        · rw [if_pos hover] at h; cases h
        · rw [if_neg hover] at h
          exact ih rest _ r (by omega) h

/-- A duration that `time.ParseDuration` returns is a 64-bit integer. -/
theorem ParseDuration_inInt64 (mulFrac : Nat → Nat → Nat → Nat) (s : String) (w : Int)
    (h : ParseDuration mulFrac s = some w) : inInt64 w := by
  unfold ParseDuration at h
  simp only [] at h
  generalize ParseDuration.sign s.data = signed at h
  by_cases h0 : signed.2 = ['0']
  · rw [if_pos h0] at h
    simp only [Option.some.injEq] at h
    subst h
    decide
  · rw [if_neg h0] at h
    by_cases h1 : signed.2 = []
    · rw [if_pos h1] at h; cases h
    · rw [if_neg h1] at h
      cases hd : ParseDuration.loop mulFrac (signed.2.length + 1) signed.2 0 with
      | none => rw [hd] at h; cases h
      | some d =>
        have hle := ParseDuration_loop_le mulFrac _ _ 0 d (by decide) hd
        rw [hd] at h
        simp only [] at h
        by_cases hs : signed.1 = true
        · rw [if_pos hs] at h
          simp only [Option.some.injEq] at h
          subst h
          unfold inInt64
          omega
        · rw [if_neg hs] at h
          by_cases hbig : d > 9223372036854775808 - 1
          · rw [if_pos hbig] at h; cases h
          · rw [if_neg hbig] at h
            simp only [Option.some.injEq] at h
            subst h
            unfold inInt64
            omega

theorem timeUntil_inInt64 (clk : Clock) (t : Int) : inInt64 (timeUntil clk t) := by
  unfold timeUntil inInt64
  simp only []
  split_ifs <;> omega

theorem ParseRetryAfterHeader_inInt64 (clk : Clock) (mulFrac : Nat → Nat → Nat → Nat)
    (res : Response) (defaultWait : Int) (hd : inInt64 defaultWait) :
    inInt64 (ParseRetryAfterHeader clk mulFrac res defaultWait) := by
  unfold ParseRetryAfterHeader
  simp only []
  split_ifs
  · split
    · exact timeUntil_inInt64 clk _
    · split
      · rename_i w hw
        exact ParseDuration_inInt64 mulFrac _ w hw
      · exact hd
  · exact hd

/-- The duration that is handed to `throttle.Block` is the capped wait plus
the jitter, in milliseconds: nothing wraps. -/
theorem backoff_eq (env : ClientEnv) (n : Nat) (res : Response)
    (hj : 0 ≤ env.jitter n ∧ env.jitter n < 2000) :
    RoundTripWithOptions.backoff env n res =
      (min (durationMilliseconds (ParseRetryAfterHeader env.clk env.mulFrac res (3 * Second)))
        MaxWaitTimeMs + env.jitter n) * Millisecond := by
  have hr := ParseRetryAfterHeader_inInt64 env.clk env.mulFrac res (3 * Second) (by decide)
  unfold RoundTripWithOptions.backoff
  simp only []
  generalize ParseRetryAfterHeader env.clk env.mulFrac res (3 * Second) = w at hr ⊢
  unfold inInt64 at hr
  have hlo : -9223372036854 ≤ durationMilliseconds w := by
    unfold durationMilliseconds; split_ifs <;> omega
  generalize durationMilliseconds w = ms at hlo ⊢
  have hcap : (if ms > MaxWaitTimeMs then MaxWaitTimeMs else ms) = min ms MaxWaitTimeMs := by
    unfold MaxWaitTimeMs
    split_ifs with h
    · exact (min_eq_right (by omega)).symm
    · exact (min_eq_left (by omega)).symm
  rw [hcap]
  have hmin : min ms MaxWaitTimeMs ≤ 120000 ∧ -9223372036854 ≤ min ms MaxWaitTimeMs := by
    unfold MaxWaitTimeMs
    constructor
    · exact min_le_right _ _
    · exact le_min hlo (by omega)
  generalize min ms MaxWaitTimeMs = m at hmin
  have h1 : wrapInt64 (m + env.jitter n) = m + env.jitter n :=
    wrapInt64_of_inInt64 (by unfold inInt64; omega)
  have h2 : wrapInt64 ((m + env.jitter n) * Millisecond) = (m + env.jitter n) * Millisecond :=
    wrapInt64_of_inInt64 (by unfold inInt64 Millisecond; omega)
  rw [h1, h2]

theorem finish_log (env : ClientEnv) (options : RequestOptions) (st : ClientState)
    (req : Request) (res : Response) :
    (RoundTripWithOptions.finish env options st req res).1.log = st.log := by
  unfold RoundTripWithOptions.finish
  split_ifs
  · split <;> rfl
  · rfl

/-- A call of `RoundTripWithOptions` only adds to the calls made so far. -/
theorem RoundTripWithOptions_log (env : ClientEnv) (options : RequestOptions) :
    ∀ (fuel : Nat) (inLoop : Bool) (st : ClientState) (req : Request) (body : Option Body),
      ∃ tail, (RoundTripWithOptions env options fuel inLoop st req body).1.log
        = st.log ++ tail := by
  intro fuel
  induction fuel with
  | zero => intro inLoop st req body; exact ⟨[], by simp [RoundTripWithOptions]⟩
  | succ fuel ih =>
    intro inLoop st req body
    cases inLoop with
    | false =>
      rw [RoundTripWithOptions.eq_def]
      simp only []
      split
      · exact ⟨[], by simp⟩
      · split
        · exact ih _ _ _ _
        · split
          · exact ⟨[], by simp⟩
          · exact ih _ _ _ _
    | true =>
      rw [RoundTripWithOptions.eq_def]
      simp only []
      cases hres : (env.transport st.calls req body).res with
      | error e => exact ⟨[.wait req, .roundTrip req body], rfl⟩
      | ok res =>
        simp only []
        by_cases h429 : res.StatusCode = 429 ∨ res.StatusCode = 503
        · rw [if_pos h429]
          cases hreq : res.Request with
          | none => exact ⟨[.wait req, .roundTrip req body], rfl⟩
          | some blocked =>
            simp only []
            by_cases hdone : env.ctxDone st.calls = true
            · rw [if_pos hdone]
              exact ⟨[.wait req, .roundTrip req body] ++
                [.block blocked (RoundTripWithOptions.backoff env st.calls res)],
                by simp⟩
            · rw [if_neg hdone]
              obtain ⟨tail, ht⟩ := ih true
                { st with
                  calls := st.calls + 1
                  log := st.log ++ [.wait req, .roundTrip req body] ++
                    [.block blocked (RoundTripWithOptions.backoff env st.calls res)] }
                req (env.transport st.calls req body).rest
              exact ⟨[.wait req, .roundTrip req body] ++
                [.block blocked (RoundTripWithOptions.backoff env st.calls res)] ++ tail,
                by rw [ht]; simp⟩
        · rw [if_neg h429]
          by_cases hredirect : res.StatusCode = 301 ∨ res.StatusCode = 302 ∨
              res.StatusCode = 307 ∨ res.StatusCode = 308
          · rw [if_pos hredirect]
            cases hloc : env.parseURL (res.Header.Get "Location") with
            | none => exact ⟨[.wait req, .roundTrip req body], rfl⟩
            | some location =>
              simp only []
              obtain ⟨tail, ht⟩ := ih false
                { st with calls := st.calls + 1
                          log := st.log ++ [.wait req, .roundTrip req body] }
                { Method := req.Method, URL := location, Header := req.Header }
                (env.transport st.calls req body).rest
              split
              · rename_i st2 redirected heq
                rw [heq] at ht
                rw [finish_log]
                exact ⟨[.wait req, .roundTrip req body] ++ tail, by
                  simp only [] at ht; rw [ht]; simp⟩
              · rename_i st2 other _ heq
                rw [heq] at ht
                exact ⟨[.wait req, .roundTrip req body] ++ tail, by
                  simp only [] at ht; rw [ht]; simp⟩
          · rw [if_neg hredirect, finish_log]
            exact ⟨[.wait req, .roundTrip req body], rfl⟩

/-- C17.  When the upstream answers with status 429 or 503 (and the response
carries its request), the next call that `RoundTripWithOptions` makes is
`throttle.Block` with the duration `min(r, 120000) + j` milliseconds, where
`r` is the parsed `Retry-After` in milliseconds (3000 when the header is
absent) and `j` is the jitter drawn, `0 ≤ j < 2000`; so the duration is at
most 120 seconds plus the jitter, and below 122 seconds, however large the
declared `Retry-After`. -/
theorem C17_block_duration (env : ClientEnv) (options : RequestOptions) (fuel : Nat)
    (st : ClientState) (req : Request) (body : Option Body) (res : Response)
    (blocked : Request)
    (hreply : (env.transport st.calls req body).res = .ok res)
    (hstatus : res.StatusCode = 429 ∨ res.StatusCode = 503)
    (hblocked : res.Request = some blocked)
    (hj : 0 ≤ env.jitter st.calls ∧ env.jitter st.calls < 2000) :
    let r := durationMilliseconds (ParseRetryAfterHeader env.clk env.mulFrac res (3 * Second))
    let d := (min r MaxWaitTimeMs + env.jitter st.calls) * Millisecond
    (∃ tail, (RoundTripWithOptions env options (fuel + 1) true st req body).1.log =
      st.log ++ [.wait req, .roundTrip req body, .block blocked d] ++ tail) ∧
    MaxWaitTimeMs = 120000 ∧
    (res.Header.Get "Retry-After" = "" → r = 3000) ∧
    d ≤ 120 * Second + env.jitter st.calls * Millisecond ∧
    d < 122 * Second := by
  intro r d
  have hback : RoundTripWithOptions.backoff env st.calls res = d := backoff_eq env st.calls res hj
  have hmin : min r MaxWaitTimeMs ≤ 120000 := min_le_right _ _
  refine ⟨?_, rfl, ?_, ?_, ?_⟩
  · rw [RoundTripWithOptions.eq_def]
    simp only [hreply]
    rw [if_pos hstatus]
    simp only [hblocked, hback]
    by_cases hdone : env.ctxDone st.calls = true
    · rw [if_pos hdone]
      exact ⟨[], by simp⟩
    · rw [if_neg hdone]
      obtain ⟨tail, ht⟩ := RoundTripWithOptions_log env options fuel true
        { st with
          calls := st.calls + 1
          log := st.log ++ [.wait req, .roundTrip req body] ++ [.block blocked d] }
        req (env.transport st.calls req body).rest
      exact ⟨tail, by rw [ht]; simp⟩
  · intro habsent
    simp only [r, ParseRetryAfterHeader]
    rw [if_neg (not_not.mpr habsent)]
    decide
  · simp only [d]
    generalize min r MaxWaitTimeMs = m at hmin
    unfold Millisecond Second
    omega
  · simp only [d]
    generalize min r MaxWaitTimeMs = m at hmin
    unfold Millisecond Second
    omega

/-- C17, witness: a 429 that declares `Retry-After: 10000`, with a jitter of
seven milliseconds, is followed by a block of 120007 milliseconds. -/
theorem C17_block_duration_witness :
    let req : Request := ⟨"POST", "http://a.test/x", [("User-Agent", ["t"])]⟩
    let env : ClientEnv :=
      { clk := exampleClock, mulFrac := fun _ _ _ => 0, parseURL := fun s => some s,
        transport := fun _ r b => ⟨.ok ⟨429, [("Retry-After", ["10000"])], ⟨[], none⟩, some r⟩, b⟩,
        jitter := fun _ => 7, ctxDone := fun _ => false }
    durationMilliseconds
      (ParseRetryAfterHeader env.clk env.mulFrac
        ⟨429, [("Retry-After", ["10000"])], ⟨[], none⟩, some req⟩ (3 * Second)) = 10000000 ∧
    ∃ tail, (RoundTripWithOptions env ⟨"Chaperone", 0, 24 * Hour, 0⟩ 1 true
        ⟨NewMemoryHTTPCache 1000, 0, []⟩ req none).1.log =
      [] ++ [.wait req, .roundTrip req none, .block req (120007 * Millisecond)] ++ tail :=
  ⟨by decide,
   (C17_block_duration
    { clk := exampleClock, mulFrac := fun _ _ _ => 0, parseURL := fun s => some s,
      transport := fun _ r b => ⟨.ok ⟨429, [("Retry-After", ["10000"])], ⟨[], none⟩, some r⟩, b⟩,
      jitter := fun _ => 7, ctxDone := fun _ => false }
    ⟨"Chaperone", 0, 24 * Hour, 0⟩ 0 ⟨NewMemoryHTTPCache 1000, 0, []⟩
    ⟨"POST", "http://a.test/x", [("User-Agent", ["t"])]⟩ none
    ⟨429, [("Retry-After", ["10000"])], ⟨[], none⟩,
      some ⟨"POST", "http://a.test/x", [("User-Agent", ["t"])]⟩⟩
    ⟨"POST", "http://a.test/x", [("User-Agent", ["t"])]⟩
    rfl (Or.inl rfl) rfl (by decide)).1⟩

/-! ## C18: a cache hit -/

/-- C18, the code at a cache hit.  The cache holds a response with status 200,
the headers `Content-Type: text/html` and `Cache-Control: max-age=60`, and the
body `A`.  For a GET request for the same URL, `RoundTripWithOptions` returns
at once, with no call of the throttle or the upstream, a response with the
cached status and body; but this response has no headers, while the cached
response has two. -/
theorem C18_cache_hit_drops_headers :
    let rq : Request := ⟨"GET", "http://a.test/x", []⟩
    let stored : Response :=
      ⟨200, [("Content-Type", ["text/html"]), ("Cache-Control", ["max-age=60"])],
        ⟨[65], none⟩, some rq⟩
    let cache := ((NewMemoryHTTPCache 1000).Cache exampleClock "http://a.test/x" stored
      0 (24 * Hour) 0).cache
    let env : ClientEnv :=
      { clk := exampleClock, mulFrac := fun _ _ _ => 0, parseURL := fun s => some s,
        transport := fun _ r b => ⟨.ok ⟨500, [], ⟨[], none⟩, some r⟩, b⟩,
        jitter := fun _ => 0, ctxDone := fun _ => false }
    let out := RoundTripWithOptions env ⟨"Chaperone", 0, 24 * Hour, 0⟩ 5 false
      ⟨cache, 0, []⟩ rq none
    (cache.Get ⟨"GET", "http://a.test/x", [("User-Agent", ["ChaperoneBot/0.1"])]⟩).map
        (fun c => (c.StatusCode, c.ResponseHeaders, c.Body)) =
      some (200, [("Content-Type", ["text/html"]), ("Cache-Control", ["max-age=60"])], [65]) ∧
    out.1.log = [] ∧ out.1.calls = 0 ∧
    out.2 = .response ⟨200, [], ⟨[65], none⟩, none⟩ ∧
    out.2 ≠ .response ⟨200,
      [("Content-Type", ["text/html"]), ("Cache-Control", ["max-age=60"])],
      ⟨[65], none⟩, none⟩ := by
  decide

/-! ## C19: a redirect and the original URL -/

/-- C19, the code at a redirect.  On an empty cache, a GET request for
`http://a.test/u` is answered upstream with a 301 to `http://a.test/v`, and the
request for `http://a.test/v` with a 200 that declares `max-age=60` and has the
body `A`.  `RoundTripWithOptions` returns that response after two upstream
calls.  Afterwards the Vary record of `http://a.test/u` exists, but the
response is stored under the key of `http://a.test/v` only: a lookup for an
identical GET request to `http://a.test/u` finds nothing, and a lookup for
`http://a.test/v` finds the response. -/
theorem C19_redirect_not_found_under_original :
    let env : ClientEnv :=
      { clk := exampleClock, mulFrac := fun _ _ _ => 0, parseURL := fun s => some s,
        transport := fun n r b =>
          if n = 0 then
            ⟨.ok ⟨301, [("Location", ["http://a.test/v"])], ⟨[], none⟩, some r⟩, b⟩
          else ⟨.ok ⟨200, [("Cache-Control", ["max-age=60"])], ⟨[65], none⟩, some r⟩, b⟩,
        jitter := fun _ => 0, ctxDone := fun _ => false }
    let req : Request := ⟨"GET", "http://a.test/u", []⟩
    let out := RoundTripWithOptions env ⟨"Chaperone", 0, 24 * Hour, 0⟩ 10 false
      ⟨NewMemoryHTTPCache 1000, 0, []⟩ req none
    out.2 = .response ⟨200, [("Cache-Control", ["max-age=60"])], ⟨[65], none⟩,
      some ⟨"GET", "http://a.test/v", [("User-Agent", ["ChaperoneBot/0.1"])]⟩⟩ ∧
    out.1.calls = 2 ∧
    out.1.cache.urlVaryHeaders.Get "http://a.test/u" = some [""] ∧
    out.1.cache.cachedResponses.values.map (fun p => p.1) = ["http://a.test/v:="] ∧
    out.1.cache.Get req = none ∧
    out.1.cache.Get ⟨"GET", "http://a.test/u", [("User-Agent", ["ChaperoneBot/0.1"])]⟩
      = none ∧
    (out.1.cache.Get ⟨"GET", "http://a.test/v", []⟩).map (fun c => c.Body) = some [65] := by
  decide

/-! ## C20: the keys of `Wait` -/

theorem stringsJoin_cons_slash (a : String) (l : List String) (hl : l ≠ []) :
    stringsJoin (a :: l) "/" = a ++ "/" ++ stringsJoin l "/" := by
  cases l with
  | nil => exact absurd rfl hl
  | cons b rest => rfl

theorem pathPrefixes_single (p : String) : pathPrefixes [p] = [p] := rfl

theorem pathPrefixes_cons (p : String) (ps : List String) (hps : ps ≠ []) :
    pathPrefixes (p :: ps) = p :: (pathPrefixes ps).map (fun q => p ++ "/" ++ q) := by
  unfold pathPrefixes
  rw [List.length_cons, List.range_succ_eq_map, List.map_cons, List.map_map, List.map_map]
  congr 1
  apply List.map_congr_left
  intro i _
  simp only [Function.comp, List.take_succ_cons]
  apply stringsJoin_cons_slash
  cases ps with
  | nil => exact absurd rfl hps
  | cons b rest => simp

/-- The paths that `Wait` builds from the parts of a path are the prefixes of
the path that end at its end or before a `/`. -/
theorem pathPrefixes_split : ∀ cs : List Char,
    pathPrefixes ((splitChars '/' cs).map String.mk) = (slashPrefixes cs).map String.mk := by
  intro cs
  induction cs with
  | nil => rfl
  | cons c cs ih =>
    by_cases hc : c = '/'
    · subst hc
      have hne : (splitChars '/' cs).map String.mk ≠ [] := by
        simp [splitChars_ne_nil]
      simp only [splitChars, if_true, List.map_cons, slashPrefixes, List.cons_append,
        List.nil_append]
      rw [pathPrefixes_cons _ _ hne, ih, List.map_map, List.map_map]
      congr 1
    · have hmap : List.map String.mk ((slashPrefixes cs).map (fun p => c :: p)) =
          List.map (fun s : String => String.mk (c :: s.data))
            (List.map String.mk (slashPrefixes cs)) := by
        rw [List.map_map, List.map_map]
        rfl
      simp only [splitChars, slashPrefixes, if_neg hc, List.nil_append]
      rw [hmap, ← ih]
      cases hs : splitChars '/' cs with
      | nil => exact absurd hs (splitChars_ne_nil _ _)
      | cons p ps =>
        simp only [List.map_cons]
        cases ps with
        | nil => rfl
        | cons q qs =>
          simp only [List.map_cons]
          rw [pathPrefixes_cons _ _ (List.cons_ne_nil _ _),
            pathPrefixes_cons _ _ (List.cons_ne_nil _ _)]
          simp only [List.map_cons, List.map_map]
          congr 1

theorem slashPrefixes_mem : ∀ (cs q : List Char),
    q ∈ slashPrefixes cs ↔ ∃ r, cs = q ++ r ∧ (r = [] ∨ ∃ t, r = '/' :: t) := by
  intro cs
  induction cs with
  | nil =>
    intro q
    simp only [slashPrefixes, List.mem_singleton]
    constructor
    · rintro rfl; exact ⟨[], rfl, Or.inl rfl⟩
    · rintro ⟨r, hr, _⟩
      have := List.append_eq_nil.mp hr.symm
      exact this.1
  | cons c cs ih =>
    intro q
    simp only [slashPrefixes, List.mem_append, List.mem_map]
    constructor
    · rintro (h | ⟨p, hp, rfl⟩)
      · by_cases hc : c = '/'
        · rw [if_pos hc] at h
          simp only [List.mem_singleton] at h
          subst h
          exact ⟨c :: cs, rfl, Or.inr ⟨cs, by rw [hc]⟩⟩
        · rw [if_neg hc] at h; cases h
      · obtain ⟨r, hr, hb⟩ := (ih p).mp hp
        exact ⟨r, by rw [hr]; rfl, hb⟩
    · rintro ⟨r, hr, hb⟩
      cases q with
      | nil =>
        left
        simp only [List.nil_append] at hr
        rcases hb with rfl | ⟨t, rfl⟩
        · cases hr
        · simp only [List.cons.injEq] at hr
          rw [if_pos hr.1]
          exact List.mem_singleton.mpr rfl
      | cons d q' =>
        right
        simp only [List.cons_append, List.cons.injEq] at hr
        exact ⟨q', (ih q').mpr ⟨r, hr.2, hb⟩, by rw [hr.1]⟩

theorem slashPrefixes_getLast : ∀ cs : List Char, (slashPrefixes cs).getLast? = some cs := by
  intro cs
  induction cs with
  | nil => rfl
  | cons c cs ih =>
    simp only [slashPrefixes, List.getLast?_append, List.getLast?_map, ih]
    rfl

theorem slashPrefixes_sorted : ∀ cs : List Char,
    (slashPrefixes cs).Pairwise (fun a b => a.length < b.length) := by
  intro cs
  induction cs with
  | nil => simp [slashPrefixes]
  | cons c cs ih =>
    simp only [slashPrefixes]
    rw [List.pairwise_append]
    refine ⟨?_, ?_, ?_⟩
    · split_ifs <;> simp
    · rw [List.pairwise_map]
      exact ih.imp (fun h => by simpa using h)
    · intro a ha b hb
      split_ifs at ha
      · simp only [List.mem_singleton] at ha
        subst ha
        obtain ⟨p, _, rfl⟩ := List.mem_map.mp hb
        simp
      · cases ha

/-- C20.  For every request with method `M`, scheme `S`, host `H` and path
`p`, the keys that `Wait` looks up are `M S://H` followed by each prefix of
`p` that ends at the end of `p` or right before a `/`: one key per
`/`-separated part of `p`, from the shortest prefix to the longest.  The last
one carries the full path and is the key that `Block` and `SetThrottle` use
for the request; the first one carries the empty prefix when `p` is empty or
starts with `/`; for `p = /a/b/c` the prefixes are the empty one, `/a`, `/a/b`
and `/a/b/c`. -/
theorem C20_wait_keys (req : ThrottledRequest) :
    let prefixes := slashPrefixes req.Path.data
    let key := fun (q : List Char) =>
      req.Method ++ " " ++ req.Scheme ++ "://" ++ req.Host ++ String.mk q
    MemoryHTTPThrottle.waitKeys req = prefixes.map key ∧
    (MemoryHTTPThrottle.waitKeys req).length = (stringsSplit req.Path '/').length ∧
    (∀ q, q ∈ prefixes ↔ ∃ r, req.Path.data = q ++ r ∧ (r = [] ∨ ∃ t, r = '/' :: t)) ∧
    prefixes.Pairwise (fun a b => a.length < b.length) ∧
    (MemoryHTTPThrottle.waitKeys req).getLast? = some (MemoryHTTPThrottle.entryKey req) ∧
    ((req.Path = "" ∨ ∃ t, req.Path.data = '/' :: t) →
      (MemoryHTTPThrottle.waitKeys req).head? = some (getRequestKey req "")) ∧
    (req.Path = "/a/b/c" →
      MemoryHTTPThrottle.waitKeys req =
        [key "".data, key "/a".data, key "/a/b".data, key "/a/b/c".data]) := by
  intro prefixes key
  have hkeys : MemoryHTTPThrottle.waitKeys req = prefixes.map key := by
    unfold MemoryHTTPThrottle.waitKeys stringsSplit
    rw [pathPrefixes_split, List.map_map]
    rfl
  refine ⟨hkeys, ?_, slashPrefixes_mem _, slashPrefixes_sorted _, ?_, ?_, ?_⟩
  · simp [MemoryHTTPThrottle.waitKeys, pathPrefixes]
  · rw [hkeys, List.getLast?_map, slashPrefixes_getLast]
    rfl
  · intro h
    rw [hkeys]
    rcases h with h | ⟨t, ht⟩
    · have hd : req.Path.data = [] := by rw [h]
      simp only [prefixes, hd, slashPrefixes]
      rfl
    · simp only [prefixes, ht, slashPrefixes, if_true, List.cons_append, List.map_cons,
        List.head?_cons]
      rfl
  · intro h
    rw [hkeys]
    have hd : req.Path.data = "/a/b/c".data := by rw [h]
    have hp : slashPrefixes "/a/b/c".data = ["".data, "/a".data, "/a/b".data, "/a/b/c".data] := by
      decide
    simp only [prefixes, hd, hp, List.map_cons, List.map_nil]

/-- C20, witness: a GET request for `http://a.test/a/b/c`. -/
theorem C20_wait_keys_witness :
    MemoryHTTPThrottle.waitKeys ⟨"GET", "http", "a.test", "/a/b/c"⟩ =
      ["GET http://a.test", "GET http://a.test/a", "GET http://a.test/a/b",
        "GET http://a.test/a/b/c"] ∧
    (MemoryHTTPThrottle.waitKeys ⟨"GET", "http", "a.test", "/a/b/c"⟩).head? =
      some (getRequestKey ⟨"GET", "http", "a.test", "/a/b/c"⟩ "") :=
  ⟨(C20_wait_keys ⟨"GET", "http", "a.test", "/a/b/c"⟩).2.2.2.2.2.2 rfl,
   (C20_wait_keys ⟨"GET", "http", "a.test", "/a/b/c"⟩).2.2.2.2.2.1
     (Or.inr ⟨"a/b/c".data, rfl⟩)⟩


/-! ## C21: the entry of `SetThrottle` and the requests that wait on it -/

theorem mapGet_mapSet_self {V : Type} (m : List (String × V)) (key : String) (value : V) :
    mapGet (mapSet m key value) key = some value := by
  simp [mapSet, mapGet]

theorem mapGet_filter_ne {V : Type} (key other : String) (hne : key ≠ other) :
    ∀ m : List (String × V), mapGet (m.filter (fun p => p.1 ≠ other)) key = mapGet m key := by
  intro m
  induction m with
  | nil => rfl
  | cons p m ih =>
    obtain ⟨k, v⟩ := p
    by_cases hk : k = other
    · have hkk : ¬ k = key := fun h => hne (h.symm.trans hk)
      rw [List.filter_cons_of_neg (by simpa using hk), ih]
      simp only [mapGet, if_neg hkk]
    · rw [List.filter_cons_of_pos (by simpa using hk)]
      simp only [mapGet, ih]

theorem mapGet_mapSet_ne {V : Type} (m : List (String × V)) (key other : String) (value : V)
    (hne : key ≠ other) : mapGet (mapSet m other value) key = mapGet m key := by
  have hne2 : ¬ other = key := fun h => hne h.symm
  simp only [mapSet, mapGet, if_neg hne2]
  exact mapGet_filter_ne key other hne m

theorem mapGet_mapDelete_ne {V : Type} (m : List (String × V)) (key other : String)
    (hne : key ≠ other) : mapGet (mapDelete m other) key = mapGet m key :=
  mapGet_filter_ne key other hne m

theorem waitKeys_eq_map (req : ThrottledRequest) :
    MemoryHTTPThrottle.waitKeys req =
      (slashPrefixes req.Path.data).map (fun q => getRequestKey req (String.mk q)) := by
  unfold MemoryHTTPThrottle.waitKeys stringsSplit
  rw [pathPrefixes_split, List.map_map]
  rfl

theorem getRequestKey_inj (req : ThrottledRequest) (p q : String)
    (h : getRequestKey req p = getRequestKey req q) : p = q := by
  unfold getRequestKey at h
  have hd := congrArg String.data h
  simp only [String.data_append] at hd
  exact String.ext (List.append_cancel_left hd)

theorem Wait_mem_entry (t : MemoryHTTPThrottle) (req : ThrottledRequest) (key : String)
    (throttle : hostThrottle) :
    WaitStep.entry key throttle ∈ t.Wait req ↔
      key ∈ MemoryHTTPThrottle.waitKeys req ∧ mapGet t.throttles key = some throttle := by
  have hfound : ∀ l : List String,
      WaitStep.entry key throttle ∈ l.filterMap
        (fun k => (mapGet t.throttles k).map (fun th => WaitStep.entry k th)) ↔
      key ∈ l ∧ mapGet t.throttles key = some throttle := by
    intro l
    simp only [List.mem_filterMap, Option.map_eq_some']
    constructor
    · rintro ⟨k, hk, th, hth, heq⟩
      cases heq
      exact ⟨hk, hth⟩
    · rintro ⟨hk, hth⟩
      exact ⟨key, hk, throttle, hth, rfl⟩
  unfold MemoryHTTPThrottle.Wait
  simp only []
  by_cases hempty : ((MemoryHTTPThrottle.waitKeys req).filterMap
      (fun k => (mapGet t.throttles k).map (fun th => WaitStep.entry k th))).isEmpty = true
  · rw [if_pos hempty]
    rw [← hfound, List.isEmpty_iff.mp hempty]
    simp
  · rw [if_neg hempty]
    exact hfound _

/-- C21, counterexample.  `SetThrottle` makes an entry for GET
`http://a.test/a` with a period of two seconds.  The path `/ab` has `/a` as a
prefix, and so has `/a/b`; `Wait` on the request for `/ab` finds no entry and
sleeps the default second, while `Wait` on the request for `/a/b` waits on
the entry.  An entry for the path `/a/` is likewise not found by the request
for `/a/b`. -/
theorem C21_counterexample :
    stringsHasPrefixOf "/ab" "/a" = true ∧
    ((NewMemoryHTTPThrottle Second).SetThrottle ⟨"GET", "http", "a.test", "/a"⟩
        (2 * Second)).map (fun t => t.Wait ⟨"GET", "http", "a.test", "/ab"⟩) =
      some [.sleep Second] ∧
    ((NewMemoryHTTPThrottle Second).SetThrottle ⟨"GET", "http", "a.test", "/a"⟩
        (2 * Second)).map (fun t => t.Wait ⟨"GET", "http", "a.test", "/a/b"⟩) =
      some [.entry "GET http://a.test/a" ⟨2 * Second, 0⟩] ∧
    stringsHasPrefixOf "/a/b" "/a/" = true ∧
    ((NewMemoryHTTPThrottle Second).SetThrottle ⟨"GET", "http", "a.test", "/a/"⟩
        (2 * Second)).map (fun t => t.Wait ⟨"GET", "http", "a.test", "/a/b"⟩) =
      some [.sleep Second] := by
  decide

/-- C21, amended.  When `SetThrottle` returns for a request with method `M`,
scheme `S`, host `H` and path `P` and a duration, the map then holds an entry
under the key of that request whose ticker has that duration as its period;
and for every request with the same method, scheme and host, `Wait` waits on
that entry if and only if `P` is a prefix of the path of the request that
ends at the end of that path or right before a `/`. -/
theorem C21_set_throttle_consulted (t t' : MemoryHTTPThrottle) (req req' : ThrottledRequest)
    (duration : Int) (hset : t.SetThrottle req duration = some t')
    (hMethod : req'.Method = req.Method) (hScheme : req'.Scheme = req.Scheme)
    (hHost : req'.Host = req.Host) :
    ∃ throttle : hostThrottle,
      mapGet t'.throttles (MemoryHTTPThrottle.entryKey req) = some throttle ∧
      throttle.period = duration ∧
      (WaitStep.entry (MemoryHTTPThrottle.entryKey req) throttle ∈ t'.Wait req' ↔
        ∃ r, req'.Path.data = req.Path.data ++ r ∧ (r = [] ∨ ∃ u, r = '/' :: u)) := by
  have hentry : ∃ throttle : hostThrottle,
      mapGet t'.throttles (MemoryHTTPThrottle.entryKey req) = some throttle ∧
      throttle.period = duration := by
    unfold MemoryHTTPThrottle.SetThrottle at hset
    by_cases hd : duration ≤ 0
    · rw [if_pos hd] at hset; cases hset
    · rw [if_neg hd] at hset
      cases hget : mapGet t.throttles (getRequestKey req req.Path) with
      | none =>
        rw [hget] at hset
        simp only [Option.some.injEq] at hset
        subst hset
        exact ⟨_, mapGet_mapSet_self _ _ _, rfl⟩
      | some old =>
        rw [hget] at hset
        simp only [Option.some.injEq] at hset
        subst hset
        exact ⟨_, mapGet_mapSet_self _ _ _, rfl⟩
  obtain ⟨throttle, hget, hperiod⟩ := hentry
  refine ⟨throttle, hget, hperiod, ?_⟩
  have hkey : ∀ p : String, getRequestKey req' p = getRequestKey req p := by
    intro p
    simp only [getRequestKey, hMethod, hScheme, hHost]
  rw [Wait_mem_entry, waitKeys_eq_map]
  simp only [hget, and_true, List.mem_map]
  constructor
  · rintro ⟨q, hq, heq⟩
    rw [hkey] at heq
    have hpq : String.mk q = req.Path := getRequestKey_inj req _ _ heq
    have hqd : q = req.Path.data := by rw [← hpq]
    rw [hqd] at hq
    exact (slashPrefixes_mem _ _).mp hq
  · intro h
    refine ⟨req.Path.data, (slashPrefixes_mem _ _).mpr h, ?_⟩
    rw [hkey]
    rfl

/-- C21, witness: an entry for GET `http://a.test/a` with a period of two
seconds, and the request for `/a/b`. -/
theorem C21_set_throttle_consulted_witness :
    (NewMemoryHTTPThrottle Second).SetThrottle ⟨"GET", "http", "a.test", "/a"⟩ (2 * Second) =
      some ⟨[("GET http://a.test/a", ⟨2 * Second, 0⟩)], Second⟩ ∧
    ∃ throttle : hostThrottle,
      mapGet [("GET http://a.test/a", (⟨2 * Second, 0⟩ : hostThrottle))]
        (MemoryHTTPThrottle.entryKey ⟨"GET", "http", "a.test", "/a"⟩) = some throttle ∧
      throttle.period = 2 * Second ∧
      (WaitStep.entry (MemoryHTTPThrottle.entryKey ⟨"GET", "http", "a.test", "/a"⟩) throttle ∈
          MemoryHTTPThrottle.Wait ⟨[("GET http://a.test/a", ⟨2 * Second, 0⟩)], Second⟩
            ⟨"GET", "http", "a.test", "/a/b"⟩ ↔
        ∃ r, "/a/b".data = "/a".data ++ r ∧ (r = [] ∨ ∃ u, r = '/' :: u)) :=
  ⟨by decide,
   C21_set_throttle_consulted (NewMemoryHTTPThrottle Second)
     ⟨[("GET http://a.test/a", ⟨2 * Second, 0⟩)], Second⟩
     ⟨"GET", "http", "a.test", "/a"⟩ ⟨"GET", "http", "a.test", "/a/b"⟩ (2 * Second)
     (by decide) rfl rfl rfl⟩


/-! ## `Block`: the entry and its open window -/

/-- When `Block` returns for a request, the map holds an entry under the key
of that request with at least one open block window, and a `Wait` for the
same request that looks the entry up afterwards waits on it. -/
theorem Block_entry_open (t t' : MemoryHTTPThrottle) (req : ThrottledRequest) (d : Int)
    (hblock : t.Block req d = some t') :
    ∃ throttle : hostThrottle,
      mapGet t'.throttles (MemoryHTTPThrottle.entryKey req) = some throttle ∧
      1 ≤ throttle.blockers ∧
      WaitStep.entry (MemoryHTTPThrottle.entryKey req) throttle ∈ t'.Wait req := by
  have hentry : ∃ throttle : hostThrottle,
      mapGet t'.throttles (MemoryHTTPThrottle.entryKey req) = some throttle ∧
      1 ≤ throttle.blockers := by
    unfold MemoryHTTPThrottle.Block at hblock
    by_cases hd : d ≤ 0
    · rw [if_pos hd] at hblock; cases hblock
    · rw [if_neg hd] at hblock
      cases hget : mapGet t.throttles (getRequestKey req req.Path) with
      | none =>
        rw [hget] at hblock
        simp only [Option.some.injEq] at hblock
        subst hblock
        exact ⟨_, mapGet_mapSet_self _ _ _, le_refl _⟩
      | some old =>
        rw [hget] at hblock
        simp only [Option.some.injEq] at hblock
        subst hblock
        exact ⟨_, mapGet_mapSet_self _ _ _, Nat.le_add_left _ _⟩
  obtain ⟨throttle, hget, hopen⟩ := hentry
  refine ⟨throttle, hget, hopen, ?_⟩
  rw [Wait_mem_entry, waitKeys_eq_map]
  refine ⟨List.mem_map.mpr ⟨req.Path.data, ?_, rfl⟩, hget⟩
  exact (slashPrefixes_mem _ _).mpr ⟨[], (List.append_nil _).symm, Or.inl rfl⟩


/-! ## C23: the override that `CacheOverrideForURL` picks -/

theorem scan_none (url : String) : ∀ l : List CacheConfig,
    CacheOverrideForURL.scan url l = none ↔ ∀ o ∈ l, stringsHasPrefixOf url o.URL = false := by
  intro l
  induction l with
  | nil => simp [CacheOverrideForURL.scan]
  | cons a rest ih =>
    by_cases ha : stringsHasPrefixOf url a.URL = true
    · simp only [CacheOverrideForURL.scan, if_pos ha, List.mem_cons, forall_eq_or_imp, ha]
      simp
    · simp only [CacheOverrideForURL.scan, if_neg ha, List.mem_cons, forall_eq_or_imp, ih]
      simp only [Bool.not_eq_true] at ha
      simp [ha]

theorem scan_some (url : String) : ∀ (l : List CacheConfig) (o : CacheConfig),
    l.Pairwise (fun a b => compareURLLength a b ≤ 0) →
    CacheOverrideForURL.scan url l = some o →
    o ∈ l ∧ stringsHasPrefixOf url o.URL = true ∧
      ∀ other ∈ l, stringsHasPrefixOf url other.URL = true →
        other.URL.utf8ByteSize ≤ o.URL.utf8ByteSize := by
  intro l
  induction l with
  | nil => intro o _ h; simp [CacheOverrideForURL.scan] at h
  | cons a rest ih =>
    intro o hsorted h
    rw [List.pairwise_cons] at hsorted
    by_cases ha : stringsHasPrefixOf url a.URL = true
    · simp only [CacheOverrideForURL.scan, if_pos ha, Option.some.injEq] at h
      subst h
      refine ⟨List.mem_cons_self _ _, ha, ?_⟩
      intro other hother _
      rcases List.mem_cons.mp hother with rfl | hrest
      · exact le_refl _
      · have := hsorted.1 other hrest
        unfold compareURLLength at this
        omega
    · simp only [CacheOverrideForURL.scan, if_neg ha] at h
      obtain ⟨hmem, hpre, hmax⟩ := ih o hsorted.2 h
      refine ⟨List.mem_cons_of_mem _ hmem, hpre, ?_⟩
      intro other hother hp
      rcases List.mem_cons.mp hother with rfl | hrest
      · exact absurd hp ha
      · exact hmax other hrest hp

/-- C23.  Let `slices.SortFunc` give, for the copy of the configured
overrides and the comparison by URL length, a reordering of the copy in which
no element stands before one the comparison puts strictly first.  Then for
every configuration and every url: when `CacheOverrideForURL` reports an
override, it is a configured one, its URL is a prefix of the url, and no
configured override whose URL is a prefix of the url has a longer URL; it
reports none, and returns the zero value, if and only if no configured
override URL is a prefix of the url; and the configuration is as it was. -/
theorem C23_longest_override
    (sortFunc : List CacheConfig → (CacheConfig → CacheConfig → Int) → List CacheConfig)
    (c : ConfigFile) (url : String)
    (hperm : (sortFunc c.CacheOverrides compareURLLength).Perm c.CacheOverrides)
    (hsorted : (sortFunc c.CacheOverrides compareURLLength).Pairwise
      (fun a b => compareURLLength a b ≤ 0)) :
    ((c.CacheOverrideForURL sortFunc url).found = true →
      (c.CacheOverrideForURL sortFunc url).override ∈ c.CacheOverrides ∧
      stringsHasPrefixOf url (c.CacheOverrideForURL sortFunc url).override.URL = true ∧
      ∀ other ∈ c.CacheOverrides, stringsHasPrefixOf url other.URL = true →
        other.URL.utf8ByteSize ≤
          (c.CacheOverrideForURL sortFunc url).override.URL.utf8ByteSize) ∧
    ((c.CacheOverrideForURL sortFunc url).found = false ↔
      ∀ o ∈ c.CacheOverrides, stringsHasPrefixOf url o.URL = false) ∧
    ((c.CacheOverrideForURL sortFunc url).found = false →
      (c.CacheOverrideForURL sortFunc url).override =
        { URL := "", MinTTL := 0, MaxTTL := 0, DefaultTTL := 0 }) ∧
    (c.CacheOverrideForURL sortFunc url).config = c := by
  unfold ConfigFile.CacheOverrideForURL
  cases hscan : CacheOverrideForURL.scan url (sortFunc c.CacheOverrides compareURLLength) with
  | none =>
    simp only [true_and, and_true, implies_true, Bool.false_eq_true, false_implies, true_iff]
    have h := (scan_none url _).mp hscan
    intro o ho
    exact h o (hperm.mem_iff.mpr ho)
  | some o =>
    obtain ⟨hmem, hpre, hmax⟩ := scan_some url _ o hsorted hscan
    simp only [true_implies, Bool.true_eq_false, false_implies, and_true, false_iff]
    refine ⟨⟨hperm.mem_iff.mp hmem, hpre, ?_⟩, ?_⟩
    · intro other hother hp
      exact hmax other (hperm.mem_iff.mpr hother) hp
    · intro hall
      have := hall o (hperm.mem_iff.mp hmem)
      rw [hpre] at this
      cases this

/-- C23, witness: the three overrides of the example, sorted by insertion,
and the url `http://a.test/api/x`; the override for `http://a.test/api` is
the one reported. -/
theorem C23_longest_override_witness :
    (exampleConfig.CacheOverrideForURL insertionSortFunc "http://a.test/api/x").override =
      ⟨"http://a.test/api", 7, 8, 9⟩ ∧
    (exampleConfig.CacheOverrideForURL insertionSortFunc "http://a.test/api/x").found = true ∧
    (exampleConfig.CacheOverrideForURL insertionSortFunc "https://b.test/").found = false ∧
    (exampleConfig.CacheOverrideForURL insertionSortFunc "http://a.test/api/x").config =
      exampleConfig :=
  ⟨by decide, by decide, by decide,
   (C23_longest_override insertionSortFunc exampleConfig "http://a.test/api/x"
     (by decide) (by decide)).2.2.2⟩


/-! ## C24: the scheme that `ServeHTTP` hands to the nice client -/

theorem Get_Del_ne (h : Header) (key other : String)
    (hne : canonicalMIMEHeaderKey key ≠ canonicalMIMEHeaderKey other) :
    (h.Del other).Get key = h.Get key := by
  unfold Header.Get Header.Del
  rw [mapGet_mapDelete_ne _ _ _ hne]

theorem Get_Set_ne (h : Header) (key other value : String)
    (hne : canonicalMIMEHeaderKey key ≠ canonicalMIMEHeaderKey other) :
    (h.Set other value).Get key = h.Get key := by
  unfold Header.Get Header.Set
  rw [mapGet_mapSet_ne _ _ _ _ hne]

theorem Get_upgrade_delHopHeaders (h : Header) :
    (delHopHeaders h).Get "X-Upgrade-HTTPS" = h.Get "X-Upgrade-HTTPS" := by
  simp only [delHopHeaders, hopHeaders, List.foldl]
  rw [Get_Del_ne _ _ _ (by decide), Get_Del_ne _ _ _ (by decide),
    Get_Del_ne _ _ _ (by decide), Get_Del_ne _ _ _ (by decide),
    Get_Del_ne _ _ _ (by decide), Get_Del_ne _ _ _ (by decide),
    Get_Del_ne _ _ _ (by decide), Get_Del_ne _ _ _ (by decide)]

theorem Get_upgrade_appendHost (h : Header) (host : String) :
    (appendHostToXForwardHeader h host).Get "X-Upgrade-HTTPS" = h.Get "X-Upgrade-HTTPS" := by
  unfold appendHostToXForwardHeader
  cases mapGet h "X-Forwarded-For" with
  | none => exact Get_Set_ne _ _ _ _ (by decide)
  | some prior => exact Get_Set_ne _ _ _ _ (by decide)

theorem toLower_eq_zero (c : Char) : c.toLower = '0' ↔ c = '0' := by
  constructor
  · intro h
    unfold Char.toLower at h
    simp only [] at h
    by_cases hup : c.toNat ≥ 65 ∧ c.toNat ≤ 90
    · rw [if_pos hup] at h
      exfalso
      obtain ⟨h1, h2⟩ := hup
      generalize c.toNat = n at h h1 h2
      interval_cases n <;> revert h <;> decide
    · rw [if_neg hup] at h
      exact h
  · rintro rfl
    rfl

theorem stringsToLower_eq_zero (s : String) : stringsToLower s = "0" ↔ s = "0" := by
  constructor
  · intro h
    have hd : s.data.map Char.toLower = ['0'] := congrArg String.data h
    apply String.ext
    cases hs : s.data with
    | nil => rw [hs] at hd; cases hd
    | cons c cs =>
      rw [hs] at hd
      simp only [List.map_cons, List.cons.injEq, List.map_eq_nil_iff] at hd
      rw [(toLower_eq_zero c).mp hd.1, hd.2]
  · rintro rfl
    rfl

/-- C24, counterexample.  An inbound request for `https://a.test/x` without
an `X-Upgrade-HTTPS` header is accepted, and the request that goes to the
nice client has the scheme it came with, although the lowercased value of the
header, the empty string, is neither `false` nor `0`. -/
theorem C24_counterexample :
    ServeHTTP.prepare ⟨fun _ => none, fun s h p => s ++ "://" ++ h ++ p, insertionSortFunc⟩
        ⟨[], []⟩ ⟨"GET", "https", "a.test", "/x", [], "10.0.0.1:555"⟩ =
      .forwarded ⟨"GET", "https", "a.test", "/x", [], "10.0.0.1:555"⟩
        ⟨"Chaperone", 0, 24 * Hour, 0⟩ ∧
    stringsToLower (Header.Get [] "X-Upgrade-HTTPS") = "" := by
  decide

/-- C24, amended.  For every inbound request whose scheme is `http` or
`https`, `ServeHTTP` calls the nice client with a request whose scheme is the
one it came with when the lowercased value of the `X-Upgrade-HTTPS` header it
came with is `false` or `0`, and `https` for every other value, the empty
one of an absent header included; method, host and path are as they came.
So for a request that came with the scheme `http`, the scheme is unchanged if
and only if that lowercased value is `false` or `0`. -/
theorem C24_scheme_after (env : ProxyEnv) (config : ConfigFile) (req : ProxyRequest)
    (haccept : req.Scheme = "http" ∨ req.Scheme = "https") :
    ∃ (req' : ProxyRequest) (options : RequestOptions),
      ServeHTTP.prepare env config req = .forwarded req' options ∧
      req'.Scheme =
        (if stringsToLower (req.Header.Get "X-Upgrade-HTTPS") = "false" ∨
            stringsToLower (req.Header.Get "X-Upgrade-HTTPS") = "0"
          then req.Scheme else "https") ∧
      req'.Method = req.Method ∧ req'.Host = req.Host ∧ req'.Path = req.Path ∧
      (req.Scheme = "http" →
        (req'.Scheme = req.Scheme ↔
          stringsToLower (req.Header.Get "X-Upgrade-HTTPS") = "false" ∨
            stringsToLower (req.Header.Get "X-Upgrade-HTTPS") = "0")) := by
  have hnot : ¬ (req.Scheme ≠ "http" ∧ req.Scheme ≠ "https") := by
    rcases haccept with h | h <;> simp [h]
  have hget : Header.Get
      (match env.splitHostPort req.RemoteAddr with
        | some clientIP => appendHostToXForwardHeader (delHopHeaders req.Header) clientIP
        | none => delHopHeaders req.Header) "X-Upgrade-HTTPS" =
      req.Header.Get "X-Upgrade-HTTPS" := by
    cases env.splitHostPort req.RemoteAddr with
    | none => exact Get_upgrade_delHopHeaders _
    | some clientIP =>
      exact (Get_upgrade_appendHost _ _).trans (Get_upgrade_delHopHeaders _)
  unfold ServeHTTP.prepare
  rw [if_neg hnot]
  simp only [hget]
  refine ⟨_, _, rfl, ?_, rfl, rfl, rfl, ?_⟩
  · simp only [stringsToLower_eq_zero]
  · intro hhttp
    simp only [stringsToLower_eq_zero]
    by_cases hc : stringsToLower (req.Header.Get "X-Upgrade-HTTPS") = "false" ∨
        req.Header.Get "X-Upgrade-HTTPS" = "0"
    · simp only [if_pos hc, hc, if_true]
    · simp only [if_neg hc, hc, iff_false, hhttp]
      decide

/-- C24, witness: a request for `http://a.test/x` with the header
`X-Upgrade-HTTPS: False`, which keeps its scheme. -/
theorem C24_scheme_after_witness :
    ServeHTTP.prepare ⟨fun _ => none, fun s h p => s ++ "://" ++ h ++ p, insertionSortFunc⟩
        ⟨[], []⟩ ⟨"GET", "http", "a.test", "/x", [("X-Upgrade-Https", ["False"])], ""⟩ =
      .forwarded ⟨"GET", "http", "a.test", "/x", [("X-Upgrade-Https", ["False"])], ""⟩
        ⟨"Chaperone", 0, 24 * Hour, 0⟩ ∧
    ∃ (req' : ProxyRequest) (options : RequestOptions),
      ServeHTTP.prepare ⟨fun _ => none, fun s h p => s ++ "://" ++ h ++ p, insertionSortFunc⟩
          ⟨[], []⟩ ⟨"GET", "http", "a.test", "/x", [("X-Upgrade-Https", ["False"])], ""⟩ =
        .forwarded req' options ∧
      req'.Scheme =
        (if stringsToLower (Header.Get [("X-Upgrade-Https", ["False"])] "X-Upgrade-HTTPS") =
              "false" ∨
            stringsToLower (Header.Get [("X-Upgrade-Https", ["False"])] "X-Upgrade-HTTPS") =
              "0"
          then "http" else "https") ∧
      req'.Method = "GET" ∧ req'.Host = "a.test" ∧ req'.Path = "/x" ∧
      ("http" = "http" →
        (req'.Scheme = "http" ↔
          stringsToLower (Header.Get [("X-Upgrade-Https", ["False"])] "X-Upgrade-HTTPS") =
              "false" ∨
            stringsToLower (Header.Get [("X-Upgrade-Https", ["False"])] "X-Upgrade-HTTPS") =
              "0")) :=
  ⟨by decide,
   C24_scheme_after ⟨fun _ => none, fun s h p => s ++ "://" ++ h ++ p, insertionSortFunc⟩
     ⟨[], []⟩ ⟨"GET", "http", "a.test", "/x", [("X-Upgrade-Https", ["False"])], ""⟩
     (Or.inl rfl)⟩


/-! ## C25: a lookup for a URL without a Vary record -/

/-- C25, the code at a URL without a Vary record.  A cache, empty before,
stores the response to a GET request for `http://a.test/x` with the header
`A: 1:` and `Vary: A`.  It then holds no Vary record for the URL
`http://a.test/x:A=1`; yet `Get` for a request to that URL with `A: 1:`
builds, from the empty list of names, the key under which the response for
`http://a.test/x` is stored, and returns that response. -/
theorem C25_get_without_vary_record :
    let rq : Request := ⟨"GET", "http://a.test/x", [("A", ["1:"])]⟩
    let res : Response :=
      ⟨200, [("Cache-Control", ["max-age=60"]), ("Vary", ["A"])], ⟨[65], none⟩, some rq⟩
    let out := (NewMemoryHTTPCache 100).Cache exampleClock "http://a.test/x" res 0 Hour 0
    let req : Request := ⟨"GET", "http://a.test/x:A=1", [("A", ["1:"])]⟩
    out.cache.urlVaryHeaders.values.map (fun p => p.1) = ["http://a.test/x"] ∧
    out.cache.urlVaryHeaders.Get req.URL = none ∧
    GetCacheKey [] req = "http://a.test/x:A=1:" ∧
    GetCacheKey ["A"] rq = "http://a.test/x:A=1:" ∧
    out.cache.Get req = some ⟨"", 200, [65], 0, res.Header, rq.Header⟩ := by
  decide

/-! ## C26: `Get` and `IsValidForRequest` -/

/-- C26, the code at two requests with one key.  A cache, empty before, stores
the response to a GET request for `http://a.test/x` with `A: x,B=y` and `B: z`;
the response has `Vary: A, B`.  For a request to the same URL with `A: x` and
`B: y,B=z`, `Get` returns the stored response, and `IsValidForRequest` of that
response is false for the request: the recorded value of `A` is not the
value the request has. -/
theorem C26_get_returns_invalid :
    let rq : Request := ⟨"GET", "http://a.test/x", [("A", ["x,B=y"]), ("B", ["z"])]⟩
    let res : Response :=
      ⟨200, [("Cache-Control", ["max-age=60"]), ("Vary", ["A, B"])], ⟨[65], none⟩, some rq⟩
    let out := (NewMemoryHTTPCache 100).Cache exampleClock "http://a.test/x" res 0 Hour 0
    let req : Request := ⟨"GET", "http://a.test/x", [("A", ["x"]), ("B", ["y,B=z"])]⟩
    out.cache.Get req = some ⟨"", 200, [65], 0, res.Header, rq.Header⟩ ∧
    (out.cache.Get req).map (fun cr => cr.IsValidForRequest req) = some false ∧
    (out.cache.Get req).map (fun cr => cr.RequestHeaders.Get "A") = some "x,B=y" ∧
    req.Header.Get "A" = "x" := by
  decide

/-! ## C27: the request of a response handed to `Cache` -/

/-- C27, the code at a redirect to a cached URL.  Upstream answers
`http://a.test/u` with a 301 to `http://a.test/v`, and `http://a.test/v` with a
200 that declares `max-age=60`; the options carry a default TTL of sixty
seconds.  A first GET for `http://a.test/v` stores its response.  A GET for
`http://a.test/u` then follows the redirect, the call for `http://a.test/v` is
answered from the cache with a response that has no request, and `Cache` is
called with that response for `http://a.test/u`: it reaches `res.Request` and
the call ends in a nil dereference, after one more upstream call. -/
theorem C27_redirect_to_cached_has_no_request :
    let env : ClientEnv :=
      { clk := exampleClock, mulFrac := fun _ _ _ => 0, parseURL := fun s => some s,
        transport := fun _ r b =>
          if r.URL = "http://a.test/u" then
            ⟨.ok ⟨301, [("Location", ["http://a.test/v"])], ⟨[], none⟩, some r⟩, b⟩
          else ⟨.ok ⟨200, [("Cache-Control", ["max-age=60"])], ⟨[65], none⟩, some r⟩, b⟩,
        jitter := fun _ => 0, ctxDone := fun _ => false }
    let options : RequestOptions := ⟨"Chaperone", 0, 24 * Hour, 60 * Second⟩
    let first := RoundTripWithOptions env options 10 false
      ⟨NewMemoryHTTPCache 1000, 0, []⟩ ⟨"GET", "http://a.test/v", []⟩ none
    let inner := RoundTripWithOptions env options 10 false first.1
      ⟨"GET", "http://a.test/v", [("User-Agent", ["ChaperoneBot/0.1"])]⟩ none
    let out := RoundTripWithOptions env options 10 false first.1
      ⟨"GET", "http://a.test/u", []⟩ none
    first.2 = .response ⟨200, [("Cache-Control", ["max-age=60"])], ⟨[65], none⟩,
      some ⟨"GET", "http://a.test/v", [("User-Agent", ["ChaperoneBot/0.1"])]⟩⟩ ∧
    first.1.calls = 1 ∧
    inner.2 = .response ⟨200, [], ⟨[65], none⟩, none⟩ ∧
    (first.1.cache.Cache env.clk "http://a.test/u" ⟨200, [], ⟨[65], none⟩, none⟩
      options.MinCacheTTL options.MaxCacheTTL options.DefaultCacheTTL).ret = .nilRequest ∧
    out.2 = .nilPanic ∧
    out.1.calls = 2 := by
  decide

end Chaperone
